import Mathlib

/-!
# network-rng: ring-buffered entropy pool and TCP entropy dispatcher

A shallow embedding of `rngd/databuf.c` (the ring buffer), of the client
table, the request phase and `send_entropy` of `rngd/quantisusb-rngd.c`, and
of the enumeration, the `before_poll` and `after_poll` hooks, the checks of
`quantis_usb_open_device` and the life cycle of a device of
`rngd/quantisusb.c`, with the properties proved about them.

Conventions of the embedding

* Bytes are natural numbers; a C byte region is a `List Nat`.
* `size_t` values are `Nat`.  In every state considered here
  (`size ≤ capacity`, `beg_index ≤ capacity`, `end_index ≤ capacity`) the
  `size_t` subtractions of `databuf.c` do not underflow, so truncated
  subtraction on `Nat` coincides with the C arithmetic.
* `uint32_t` values are `Nat` reduced modulo `2^32` at every operation that
  can wrap.  `ssize_t` is a 64-bit signed integer (`Int`), so a comparison of
  `send_status` with a `uint32_t` is a signed comparison.
* A store beyond the end of a region is undefined in C; `memcpy` here then
  lengthens the list, and no value reported by a theorem depends on how such
  a store is modelled.
* A `(pointer, length)` argument pair is a list whose length is `data_len`.
* An output region filled by the callee is returned as the list of the bytes
  stored in it.
* What the outside world answers (`recv`, `send`, the descriptor sets, the
  clock, the transfer engine) is an argument of the embedded function; the
  calls made on sockets are returned as a list of effects.
-/

namespace NetworkRng

/-! ## databuf.c -/

/-- The ring buffer record `struct DataBuffer`. -/
structure DataBuffer where
  buffer : List Nat
  capacity : Nat
  size : Nat
  beg_index : Nat
  end_index : Nat
  deriving DecidableEq

/-- The library call `memcpy(dst + off, src, src.length)` on a byte region. -/
def memcpy (dst : List Nat) (off : Nat) (src : List Nat) : List Nat :=
  dst.take off ++ src ++ dst.drop (off + src.length)

/-- The bytes `src[off .. off + len)` of a region. -/
def region (src : List Nat) (off len : Nat) : List Nat :=
  (src.drop off).take len

/-- A successful `data_buf_create`: zeroed record, zeroed backing region. -/
def data_buf_create (capacity : Nat) : DataBuffer :=
  { buffer := List.replicate capacity 0, capacity := capacity,
    size := 0, beg_index := 0, end_index := 0 }

/-- Embedding of `data_buf_write`: the new buffer and the returned count. -/
def data_buf_write (buf : DataBuffer) (data : List Nat) : DataBuffer × Nat :=
  let data_len := data.length
  if data_len = 0 then (buf, 0) else
  let capacity := buf.capacity
  let bytes_to_write :=
    if data_len > capacity - buf.size then capacity - buf.size else data_len
  if bytes_to_write ≤ capacity - buf.end_index then
    let buffer := memcpy buf.buffer buf.end_index (region data 0 bytes_to_write)
    let end_index := buf.end_index + bytes_to_write
    let end_index := if end_index = capacity then 0 else end_index
    ({ buf with buffer := buffer, end_index := end_index,
                size := buf.size + bytes_to_write }, bytes_to_write)
  else
    let size_1 := capacity - buf.end_index
    let size_2 := bytes_to_write - size_1
    let buffer := memcpy buf.buffer buf.end_index (region data 0 size_1)
    let buffer := memcpy buffer 0 (region data size_1 size_2)
    ({ buf with buffer := buffer, end_index := size_2,
                size := buf.size + bytes_to_write }, bytes_to_write)

/-- Embedding of `data_buf_available`. -/
def data_buf_available (buf : DataBuffer) : Nat := buf.size

/-- Embedding of `data_buf_space`. -/
def data_buf_space (buf : DataBuffer) : Nat := buf.capacity - buf.size

/-- Embedding of `data_buf_read`: the new buffer, the bytes stored in the
output region `data[0 .. ret)`, and the returned count. -/
def data_buf_read (buf : DataBuffer) (data_len : Nat) :
    DataBuffer × List Nat × Nat :=
  if data_len = 0 then (buf, [], 0) else
  let capacity := buf.capacity
  let bytes_to_read := if data_len > buf.size then buf.size else data_len
  let step : List Nat × Nat :=
    if bytes_to_read ≤ capacity - buf.beg_index then
      (region buf.buffer buf.beg_index bytes_to_read,
       buf.beg_index + bytes_to_read)
    else
      let size_1 := capacity - buf.beg_index
      let size_2 := bytes_to_read - size_1
      (region buf.buffer buf.beg_index size_1 ++ region buf.buffer 0 size_2,
       size_2)
  let beg_index := if step.2 = capacity then 0 else step.2
  ({ buf with beg_index := beg_index, size := buf.size - bytes_to_read },
   step.1, bytes_to_read)

/-- Embedding of `data_buf_unread`: the new buffer and the returned count. -/
def data_buf_unread (buf : DataBuffer) (data : List Nat) : DataBuffer × Nat :=
  let data_len := data.length
  if data_len = 0 then (buf, 0) else
  let capacity := buf.capacity
  let bytes_to_write :=
    if data_len > capacity - buf.size then capacity - buf.size else data_len
  if bytes_to_write = 0 then (buf, 0) else
  let data_p := data.drop (data_len - bytes_to_write)
  let beg_index :=
    if buf.beg_index ≥ bytes_to_write then buf.beg_index - bytes_to_write
    else buf.capacity - bytes_to_write
  if bytes_to_write ≤ capacity - beg_index then
    let buffer := memcpy buf.buffer beg_index (region data_p 0 bytes_to_write)
    ({ buf with buffer := buffer, beg_index := beg_index,
                size := buf.size + bytes_to_write }, bytes_to_write)
  else
    let size_1 := capacity - beg_index
    let size_2 := bytes_to_write - size_1
    let buffer := memcpy buf.buffer beg_index (region data_p 0 size_1)
    let buffer := memcpy buffer 0 (region data_p size_1 size_2)
    ({ buf with buffer := buffer, beg_index := beg_index,
                size := buf.size + bytes_to_write }, bytes_to_write)

/-- The logical contents of a ring buffer: the `size` bytes starting at
`beg_index`, wrapping at `capacity`. -/
def contents (buf : DataBuffer) : List Nat :=
  (List.range buf.size).map
    (fun i => buf.buffer.getD ((buf.beg_index + i) % buf.capacity) 0)

/-- The representation invariant of the ring buffer. -/
def Valid (buf : DataBuffer) : Prop :=
  0 < buf.capacity ∧ buf.buffer.length = buf.capacity ∧
  buf.size ≤ buf.capacity ∧ buf.beg_index < buf.capacity ∧
  buf.end_index = (buf.beg_index + buf.size) % buf.capacity

instance (buf : DataBuffer) : Decidable (Valid buf) := by
  unfold Valid; infer_instance

/-! ## quantisusb-rngd.c: client accounting and `send_entropy` -/

/-- The constant `HEADER_SIZE`, `sizeof(uint32_t)`. -/
def HEADER_SIZE : Nat := 4

/-- The constant `MAX_FRAME_SIZE`, also the length of the static `send_buf`. -/
def MAX_FRAME_SIZE : Nat := 65536

/-- Conversion of a non-negative value to `uint32_t`. -/
def u32 (n : Nat) : Nat := n % 4294967296

/-- Subtraction on `uint32_t`: `a - b` modulo `2^32`. -/
def u32_sub (a b : Nat) : Nat := (a % 4294967296 + 4294967296 - b % 4294967296) % 4294967296

/-- Conversion of a signed 64-bit value (`ssize_t`, `long`) to `uint32_t`. -/
def u32_of_int (z : Int) : Nat := (z % 4294967296).toNat

/-- The record `struct Client`; `keepalive_pending` only ever holds 0 or 1 and
`last_request` is the pair `(tv_sec, tv_nsec)`. -/
structure Client where
  entropy_requested : Nat
  entropy_pending : Nat
  keepalive_pending : Bool
  header_bytes_pending : Nat
  socket : Int
  last_request : Int × Int
  deriving DecidableEq

/-- The four bytes stored by `send_len = htonl(v); memcpy(_, &send_len, 4)`:
the big-endian encoding of a `uint32_t`. -/
def htonl_bytes (v : Nat) : List Nat :=
  [v / 16777216 % 256, v / 65536 % 256, v / 256 % 256, v % 256]

/-- The two clamps of `send_entropy` (the "Never exceed max frame size" test
and the test against `data_buf_available`), in `uint32_t` arithmetic. -/
def clamp_write_size (write_size header_size avail : Nat) : Nat :=
  let write_size :=
    if u32 (write_size + header_size) > MAX_FRAME_SIZE
    then u32_sub MAX_FRAME_SIZE header_size else write_size
  if write_size > avail then u32 avail else write_size

/-- What one execution of the `send` part of the loop body did. -/
structure SendRecord where
  /-- The value of `header_size` chosen for the visit. -/
  header_size : Nat
  /-- The value of `write_size` after the clamps and `data_buf_read`. -/
  write_size : Nat
  /-- The bytes `data_buf_read` stored at `send_buf + header_size`. -/
  read_bytes : List Nat
  /-- The static `send_buf` at the time of the `send` call. -/
  buf : List Nat
  /-- The bytes offered to `send`: `send_buf[0 .. write_size + header_size)`. -/
  offered : List Nat
  /-- The value returned by `send`. -/
  send_status : Int
  /-- The bytes the socket accepted. -/
  accepted : List Nat
  /-- Offset into `send_buf` and length passed to `data_buf_unread`, if called. -/
  unread_call : Option (Nat × Nat)
  deriving DecidableEq

/-- The state after one iteration of the `while` loop of `send_entropy`. -/
structure Visit where
  client : Client
  data_buf : DataBuffer
  send_buf : List Nat
  /-- The record of the `send` call; `none` when the iteration jumped to `next_receiver`. -/
  sent : Option SendRecord
  deriving DecidableEq

/-- The frame action selected at the top of the loop body: `(header_size,
write_size)`, or `none` for "nothing to send". -/
def frame_action (c : Client) : Option (Nat × Nat) :=
  if c.header_bytes_pending ≠ 0 then
    some (c.header_bytes_pending, c.entropy_pending)
  else if c.entropy_pending ≠ 0 then
    some (0, c.entropy_pending)
  else if c.entropy_requested = 0 ∧ c.keepalive_pending = false then none
  else some (HEADER_SIZE, c.entropy_requested)

/-- The client bookkeeping of the `send_status >= 0` branch, together with
the value of `entropy_send`. -/
def account_sent (c : Client) (header_size write_size : Nat) (send_status : Int) :
    Client × Nat :=
  let c := { c with keepalive_pending := false, header_bytes_pending := 0 }
  if send_status < (header_size : Int) then
    let c := { c with header_bytes_pending := u32_of_int ((header_size : Int) - send_status) }
    if c.entropy_pending ≠ 0 then (c, 0)
    else if write_size = 0 then ({ c with keepalive_pending := true }, 0)
    else ({ c with entropy_requested := u32_sub c.entropy_requested write_size,
                   entropy_pending := write_size }, 0)
  else if header_size = HEADER_SIZE then
    let entropy_send := u32_sub (u32_of_int send_status) header_size
    ({ c with entropy_requested := u32_sub c.entropy_requested write_size,
              entropy_pending := u32_sub write_size entropy_send }, entropy_send)
  else
    let entropy_send := u32_sub (u32_of_int send_status) header_size
    ({ c with entropy_pending := u32_sub c.entropy_pending entropy_send }, entropy_send)

/-- Embedding of one iteration of the loop of `send_entropy` for the client
at `receiver_index`.  `writable` is `FD_ISSET(sock, &writefds)` and
`send_status` the value the `send` call returns if it is reached. -/
def send_entropy_visit (c : Client) (data_buf : DataBuffer) (send_buf : List Nat)
    (writable : Bool) (send_status : Int) : Visit :=
  if c.keepalive_pending = false ∧ data_buf_available data_buf = 0 then
    ⟨c, data_buf, send_buf, none⟩
  else
  match frame_action c with
  | none => ⟨c, data_buf, send_buf, none⟩
  | some (header_size, write_size) =>
    if writable = false then ⟨c, data_buf, send_buf, none⟩ else
    let write_size := clamp_write_size write_size header_size (data_buf_available data_buf)
    let rd := data_buf_read data_buf write_size
    let data_buf := rd.1
    let send_buf := memcpy send_buf header_size rd.2.1
    let write_size := u32 rd.2.2
    let send_buf :=
      if header_size ≠ 0 then
        if c.header_bytes_pending = 0 then
          memcpy send_buf 0 (htonl_bytes write_size)
        else
          memcpy send_buf 0
            (region (htonl_bytes c.entropy_pending) (HEADER_SIZE - header_size) header_size)
      else send_buf
    let offered := region send_buf 0 (u32 (write_size + header_size))
    if send_status ≥ 0 then
      let acc := account_sent c header_size write_size send_status
      let entropy_send := acc.2
      let accepted := region offered 0 send_status.toNat
      if entropy_send < write_size then
        let len := u32_sub write_size entropy_send
        let data_buf := (data_buf_unread data_buf (region send_buf send_status.toNat len)).1
        ⟨acc.1, data_buf, send_buf,
          some ⟨header_size, write_size, rd.2.1, send_buf, offered, send_status, accepted,
                some (send_status.toNat, len)⟩⟩
      else
        ⟨acc.1, data_buf, send_buf,
          some ⟨header_size, write_size, rd.2.1, send_buf, offered, send_status, accepted, none⟩⟩
    else
      let data_buf := (data_buf_unread data_buf (region send_buf HEADER_SIZE write_size)).1
      ⟨c, data_buf, send_buf,
        some ⟨header_size, write_size, rd.2.1, send_buf, offered, send_status, [],
              some (HEADER_SIZE, write_size)⟩⟩

/-- Embedding of the accounting of a decoded request in the request phase of
`main` (`new_entropy = entropy_requested + clients[i].entropy_requested` and
what follows): `none` when the client is removed. -/
def handle_request (c : Client) (entropy_requested : Nat) (now : Int × Int) :
    Option Client :=
  let new_entropy := u32 (entropy_requested + c.entropy_requested)
  if new_entropy < c.entropy_requested then none
  else
    let c := { c with entropy_requested := new_entropy, last_request := now }
    if entropy_requested = 0 then some { c with keepalive_pending := true } else some c

/-- A client record as `client_add` leaves it (`memset` to zero, socket set). -/
def client_new (sock : Int) : Client :=
  { entropy_requested := 0, entropy_pending := 0, keepalive_pending := false,
    header_bytes_pending := 0, socket := sock, last_request := (0, 0) }

/-- The static `send_buf` at program start: `MAX_FRAME_SIZE` zero bytes. -/
def send_buf_init : List Nat := List.replicate MAX_FRAME_SIZE 0

/-! ## Observers used in the statements -/

/-- The `n` bytes of a region of length `cap` read cyclically from `start`. -/
def ringList (buffer : List Nat) (cap start n : Nat) : List Nat :=
  (List.range n).map (fun i => buffer.getD ((start + i) % cap) 0)

/-- A write or read request issued to the ring buffer. -/
inductive Op where
  | write (data : List Nat)
  | read (data_len : Nat)
  deriving DecidableEq

/-- Runs a sequence of operations; returns the final buffer, the
concatenation of the bytes accepted by the writes (the first `ret` bytes of
each `data`) and the concatenation of the bytes returned by the reads. -/
def run_ops (buf : DataBuffer) : List Op → DataBuffer × List Nat × List Nat
  | [] => (buf, [], [])
  | Op.write data :: ops =>
    let w := data_buf_write buf data
    let r := run_ops w.1 ops
    (r.1, data.take w.2 ++ r.2.1, r.2.2)
  | Op.read data_len :: ops =>
    let rd := data_buf_read buf data_len
    let r := run_ops rd.1 ops
    (r.1, r.2.1, rd.2.1 ++ r.2.2)

/-- An event on a single client connection: a decoded request arrives, the
device callback `on_read` stores bytes in the pool, or `send_entropy` visits
the client. -/
inductive Event where
  | request (entropy_requested : Nat)
  | ingest (data : List Nat)
  | visit (writable : Bool) (send_status : Int)
  deriving DecidableEq

/-- A single client connection and what has been observed on it: the bytes
the socket accepted so far and the sum of the request values. -/
structure Conn where
  client : Client
  data_buf : DataBuffer
  send_buf : List Nat
  received : List Nat
  requested : Nat
  deriving DecidableEq

/-- One event on a connection; `none` when the client is removed.  Time is not
modelled on a connection: a request keeps the stored timestamp. -/
def conn_step (k : Conn) : Event → Option Conn
  | Event.request r =>
    match handle_request k.client r k.client.last_request with
    | none => none
    | some c => some { k with client := c, requested := k.requested + r }
  | Event.ingest data =>
    some { k with data_buf := (data_buf_write k.data_buf data).1 }
  | Event.visit writable send_status =>
    let v := send_entropy_visit k.client k.data_buf k.send_buf writable send_status
    let accepted := match v.sent with
      | none => []
      | some r => r.accepted
    some { k with client := v.client, data_buf := v.data_buf, send_buf := v.send_buf,
                  received := k.received ++ accepted }

/-- Runs a sequence of events on a connection. -/
def conn_run (k : Conn) : List Event → Option Conn
  | [] => some k
  | e :: es =>
    match conn_step k e with
    | none => none
    | some k2 => conn_run k2 es

/-- A freshly accepted connection over a pool of the given capacity. -/
def conn_new (sock : Int) (capacity : Nat) : Conn :=
  { client := client_new sock, data_buf := data_buf_create capacity,
    send_buf := send_buf_init, received := [], requested := 0 }

/-- The value of a big-endian byte string (what the peer computes with `ntohl`). -/
def ntohl_bytes (b : List Nat) : Nat := b.foldl (fun acc x => acc * 256 + x) 0

/-- The `length` fields of the complete frame headers in a received byte
stream, as the peer parses it: 4 header bytes, then `length` payload bytes. -/
def frame_lengths : Nat → List Nat → List Nat
  | 0, _ => []
  | fuel + 1, bytes =>
    if bytes.length < 4 then []
    else ntohl_bytes (bytes.take 4) ::
      frame_lengths fuel (bytes.drop (4 + ntohl_bytes (bytes.take 4)))

/-! ## databuf.c: sequences with push-back -/

/-- A write, read or unread request issued to the ring buffer. -/
inductive BufOp where
  | write (data : List Nat)
  | read (data_len : Nat)
  | unread (data : List Nat)
  deriving DecidableEq

/-- The buffer after one operation and the value the operation returns. -/
def buf_step (buf : DataBuffer) : BufOp → DataBuffer × Nat
  | BufOp.write data => data_buf_write buf data
  | BufOp.read data_len => ((data_buf_read buf data_len).1, (data_buf_read buf data_len).2.2)
  | BufOp.unread data => data_buf_unread buf data

/-- The buffer after a sequence of operations. -/
def buf_run (buf : DataBuffer) : List BufOp → DataBuffer
  | [] => buf
  | op :: ops => buf_run (buf_step buf op).1 ops

/-- The sum of the values returned by the writes and unreads of a sequence
minus the sum of the values returned by its reads. -/
def buf_balance (buf : DataBuffer) : List BufOp → Int
  | [] => 0
  | op :: ops =>
    (match op with
      | BufOp.read _ => -((buf_step buf op).2 : Int)
      | _ => ((buf_step buf op).2 : Int)) +
    buf_balance (buf_step buf op).1 ops

/-! ## quantisusb-rngd.c: the client table, the request phase and the sweep -/

/-- The globals `clients`, `num_client_sockets` (the length of `clients`),
`client_sockets_length` and `receiver_index`. -/
structure Table where
  clients : List Client
  client_sockets_length : Nat
  receiver_index : Int
  deriving DecidableEq

/-- Conversion of a signed integer to `size_t` (64 bits), as in a comparison
of `receiver_index` with a `size_t`. -/
def to_size_t (z : Int) : Nat := (z % 18446744073709551616).toNat

/-- The constant `MAX_CLIENTS`. -/
def MAX_CLIENTS : Nat := 512

/-- The constant `MAX_IDLE_TIME`, in seconds. -/
def MAX_IDLE_TIME : Int := 30

/-- Embedding of `client_add`: the new table and the returned status. -/
def client_add (t : Table) (sock : Int) : Table × Int :=
  if t.clients.length = t.client_sockets_length then (t, -1)
  else ({ t with clients := t.clients ++ [client_new sock] }, 0)

/-- Embedding of `client_remove_by_index`: the new table and the returned
status. -/
def client_remove_by_index (t : Table) (i : Nat) : Table × Int :=
  if i ≥ t.clients.length then (t, -1)
  else
    let receiver_index :=
      if to_size_t t.receiver_index ≥ i then
        if t.receiver_index - 1 < 0 then 0 else t.receiver_index - 1
      else t.receiver_index
    ({ t with clients := t.clients.eraseIdx i, receiver_index := receiver_index }, 0)

/-- Embedding of `receiver_advance`. -/
def receiver_advance (t : Table) : Table :=
  if to_size_t (t.receiver_index + 1) = t.clients.length then { t with receiver_index := 0 }
  else { t with receiver_index := t.receiver_index + 1 }

/-- A call the server makes on a socket descriptor. -/
inductive Effect where
  | recv (sock : Int)
  | close (sock : Int)
  deriving DecidableEq

/-- What a `recv` call on a client socket gives: the value returned, whether
`errno` is `EWOULDBLOCK` or `EINPROGRESS` when it failed, and `ntohl` of the
four bytes received when it returned 4. -/
structure RecvResult where
  status : Int
  soft_error : Bool
  value : Nat
  deriving DecidableEq

/-- What the request phase of one driver iteration sees: membership of the
client sockets in `errorfds` and `readfds`, the monotonic clock `now` as
`(tv_sec, tv_nsec)`, and what `recv` gives on each socket. -/
structure RequestEnv where
  errorfds : List Int
  readfds : List Int
  now : Int × Int
  recv : Int → RecvResult

/-- The value of `idle_time` in the request phase: the difference of the
seconds plus the difference of the nanoseconds divided by `1000000000L` (C
division, rounding towards zero). -/
def idle_time (now last_request : Int × Int) : Int :=
  (now.1 - last_request.1) + Int.tdiv (now.2 - last_request.2) 1000000000

/-- Embedding of the body of the request loop of `main` for the client at
index `i`: `none` when the body calls `client_remove_by_index`, the updated
record otherwise, together with the calls made on the client's socket. -/
def request_client (env : RequestEnv) (c : Client) : Option Client × List Effect :=
  if c.socket ∈ env.errorfds then (none, [])
  else if idle_time env.now c.last_request ≥ MAX_IDLE_TIME then (none, [])
  else if c.socket ∈ env.readfds then
    let r := env.recv c.socket
    if r.status = 0 then (none, [Effect.recv c.socket])
    else if r.status < 0 then
      if r.soft_error = false then (none, [Effect.recv c.socket])
      else (some c, [Effect.recv c.socket])
    else if r.status < 4 then (none, [Effect.recv c.socket])
    else (handle_request c r.value env.now, [Effect.recv c.socket])
  else (some c, [])

/-- Embedding of the request loop of `main` from index `i` on: a removal
leaves the index in place (`i--` followed by the `i++` of the loop), anything
else moves to the next index.  Returns the table and the calls made on
sockets.  The first argument bounds the number of iterations; the length of
the table is enough, every iteration removes a client or advances `i`. -/
def request_loop (env : RequestEnv) : Nat → Nat → Table → Table × List Effect
  | 0, _, t => (t, [])
  | fuel + 1, i, t =>
    match t.clients[i]? with
    | none => (t, [])
    | some c =>
      match request_client env c with
      | (none, effects) =>
        let r := request_loop env fuel i (client_remove_by_index t i).1
        (r.1, effects ++ r.2)
      | (some c2, effects) =>
        let r := request_loop env fuel (i + 1) { t with clients := t.clients.set i c2 }
        (r.1, effects ++ r.2)

/-- The request phase of one driver iteration. -/
def request_phase (env : RequestEnv) (t : Table) : Table × List Effect :=
  request_loop env t.clients.length 0 t

/-- Embedding of the handling of a new connection in `main` (the same for the
IPv4 and the IPv6 listener): `client_sock` is the value returned by `accept`,
`nonblocking_failed` whether `setnonblocking` failed. -/
def accept_connection (t : Table) (client_sock : Int) (nonblocking_failed : Bool)
    (now : Int × Int) : Table × List Effect :=
  if client_sock ≥ 0 then
    if nonblocking_failed then (t, [Effect.close client_sock])
    else if (client_add t client_sock).2 < 0 then (t, [Effect.close client_sock])
    else
      ({ t with clients := t.clients ++ [{ client_new client_sock with last_request := now }] },
       [])
  else (t, [])

/-- The sockets closed by the `cleanup` code of `main`: every socket still in
the table. -/
def cleanup_clients (t : Table) : List Effect :=
  t.clients.map (fun c => Effect.close c.socket)

/-- One iteration of the loop of `send_entropy` when the value returned by
`send` is given as a function of the bytes offered.  The bytes offered do
not depend on the value `send` returns, so they are taken from a run of the
iteration with status 0. -/
def send_entropy_visit_on (c : Client) (data_buf : DataBuffer) (send_buf : List Nat)
    (writable : Bool) (send : List Nat → Int) : Visit :=
  match (send_entropy_visit c data_buf send_buf writable 0).sent with
  | none => send_entropy_visit c data_buf send_buf writable 0
  | some r => send_entropy_visit c data_buf send_buf writable (send r.offered)

/-- The globals used by `send_entropy`: the client table, the pool and the
static `send_buf`. -/
structure Server where
  table : Table
  data_buf : DataBuffer
  send_buf : List Nat
  deriving DecidableEq

/-- What `send_entropy` sees of the outside: the set `writefds` and, per
socket, the value `send` returns for the bytes offered. -/
structure SendEnv where
  writefds : List Int
  send : Int → List Nat → Int

/-- One iteration of the loop of `send_entropy`, as observed: the value of
`receiver_index`, the socket of that client, the pool level found and the
record of the `send` call if one was made. -/
structure SweepEntry where
  index : Nat
  socket : Int
  available : Nat
  sent : Option SendRecord
  deriving DecidableEq

/-- Embedding of the loop of `send_entropy`; the first argument is
`num_client_sockets - clients_checked`.  An index outside the table is
undefined behaviour in C; the loop then stops here. -/
def send_entropy_loop (env : SendEnv) : Nat → Server → Server × List SweepEntry
  | 0, s => (s, [])
  | n + 1, s =>
    match s.table.clients[s.table.receiver_index.toNat]? with
    | none => (s, [])
    | some c =>
      let v := send_entropy_visit_on c s.data_buf s.send_buf
        (decide (c.socket ∈ env.writefds)) (env.send c.socket)
      let t := { s.table with clients := s.table.clients.set s.table.receiver_index.toNat v.client }
      let r := send_entropy_loop env n
        { table := receiver_advance t, data_buf := v.data_buf, send_buf := v.send_buf }
      (r.1, ⟨s.table.receiver_index.toNat, c.socket, data_buf_available s.data_buf, v.sent⟩ :: r.2)

/-- Embedding of `send_entropy`: one sweep over the table. -/
def send_entropy (env : SendEnv) (s : Server) : Server × List SweepEntry :=
  send_entropy_loop env s.table.clients.length s

/-- Embedding of `on_read` (without the tee to the output file): the bytes
of a completed transfer are written to the pool. -/
def on_read (s : Server) (data : List Nat) : Server :=
  { s with data_buf := (data_buf_write s.data_buf data).1 }

/-- The bytes a socket accepted in a sweep. -/
def sweep_received (sock : Int) (log : List SweepEntry) : List Nat :=
  (log.filter (fun e => e.socket = sock)).flatMap
    (fun e => match e.sent with
      | none => []
      | some r => r.accepted)

/-- The bytes a socket accepted in a sweep, each with the mark `true` when
the server sent it as a header byte and `false` when it sent it as a payload
byte. -/
def sweep_marked (sock : Int) (log : List SweepEntry) : List (Bool × Nat) :=
  (log.filter (fun e => e.socket = sock)).flatMap
    (fun e => match e.sent with
      | none => []
      | some r => r.accepted.enum.map (fun p => (decide (p.1 < r.header_size), p.2)))

/-- Whether a marked byte stream is a prefix of a concatenation of frames:
four header bytes encoding `L`, then exactly `L` payload bytes. -/
def well_framed : Nat → List (Bool × Nat) → Bool
  | 0, _ => true
  | fuel + 1, stream =>
    if stream.length < 4 then stream.all (fun p => p.1)
    else
      let len := ntohl_bytes ((stream.take 4).map (fun p => p.2))
      (stream.take 4).all (fun p => p.1) &&
      ((stream.drop 4).take len).all (fun p => !p.1) &&
      (if (stream.drop 4).length ≤ len then true
       else well_framed fuel (stream.drop (4 + len)))

/-- Whether an iteration of the sweep sent its client one whole frame with a
non-empty payload: the socket accepted the 4-byte header encoding
`write_size` followed by the `write_size ≥ 1` bytes read from the pool. -/
def frame_with_payload (e : SweepEntry) : Bool :=
  match e.sent with
  | none => false
  | some r =>
    decide (r.accepted = htonl_bytes r.write_size ++ r.read_bytes ∧
      r.read_bytes.length = r.write_size ∧ 1 ≤ r.write_size)

/-- What `data_buf_read` relies on: the backing region has `capacity` bytes,
`size ≤ capacity` and `beg_index < capacity`.  Nothing is asked of
`end_index`. -/
def Readable (buf : DataBuffer) : Prop :=
  buf.buffer.length = buf.capacity ∧ buf.size ≤ buf.capacity ∧
  buf.beg_index < buf.capacity

instance (buf : DataBuffer) : Decidable (Readable buf) := by
  unfold Readable; infer_instance

/-! ## quantisusb.c: enumeration and the hooks around `select` -/

/-- The constant `VENDOR_ID_ELLISYS`. -/
def VENDOR_ID_ELLISYS : Nat := 0x0aba

/-- The constant `DEVICE_ID_QUANTIS_USB`. -/
def DEVICE_ID_QUANTIS_USB : Nat := 0x0102

/-- A device in the list returned by `libusb_get_device_list`: an
identifier and, when `libusb_get_device_descriptor` succeeds, the fields
`idVendor` and `idProduct` of its descriptor. -/
structure UsbDevice where
  id : Nat
  desc : Option (Nat × Nat)
  deriving DecidableEq

/-- Embedding of the loop of `quantis_usb_enumerate`: the devices passed to
`quantis_usb_open_device`, in order. -/
def quantis_usb_enumerate (device_list : List UsbDevice) : List UsbDevice :=
  device_list.filter (fun dev =>
    match dev.desc with
    | none => false
    | some (idVendor, idProduct) =>
      if idVendor ≠ VENDOR_ID_ELLISYS ∨ idProduct = DEVICE_ID_QUANTIS_USB then false
      else true)

/-- The check "that the device ids are correct" of `quantis_usb_open_device`:
whether the open sequence goes on after it. -/
def open_device_ids_ok (idVendor idProduct : Nat) : Bool :=
  if idVendor ≠ VENDOR_ID_ELLISYS ∨ idProduct ≠ DEVICE_ID_QUANTIS_USB then false else true

/-- A `struct timeval`: `(tv_sec, tv_usec)`. -/
structure Timeval where
  tv_sec : Int
  tv_usec : Int
  deriving DecidableEq

/-- What the transfer engine answers in `quantis_usb_before_poll`: the value
of `libusb_pollfds_handle_timeouts`, and the status and the timeout given by
`libusb_get_next_timeout`. -/
structure Engine where
  pollfds_handle_timeouts : Bool
  next_timeout_status : Int
  tv : Timeval
  deriving DecidableEq

/-- The fields of `QuantisUSBContext` used by the two hooks: the flags
and the mirrored pollfds as `(fd, events)`. -/
structure UsbContext where
  usb_timeout_effective : Bool
  usb_events_available : Bool
  poll_fds : List (Int × Nat)
  deriving DecidableEq

/-- The arguments `quantis_usb_before_poll` may modify. -/
structure PollArgs where
  nfds : Int
  readfdset : List Int
  writefdset : List Int
  errorfdset : List Int
  timeout : Timeval
  deriving DecidableEq

/-- The event bits `POLLIN`, `POLLOUT`, `POLLERR`. -/
def POLLIN : Nat := 1

/-- The event bit `POLLOUT`. -/
def POLLOUT : Nat := 4

/-- The event bit `POLLERR`. -/
def POLLERR : Nat := 8

/-- The library call `FD_SET` on a set of descriptors. -/
def FD_SET (fd : Int) (set : List Int) : List Int :=
  if fd ∈ set then set else fd :: set

/-- The last loop of `quantis_usb_before_poll`: every mirrored pollfd raises
`nfds` and is added to the sets its events ask for. -/
def add_poll_fds : List (Int × Nat) → PollArgs → PollArgs
  | [], a => a
  | (fd, events) :: rest, a =>
    let a := if fd ≥ a.nfds then { a with nfds := fd + 1 } else a
    let a := if events &&& POLLIN ≠ 0 then { a with readfdset := FD_SET fd a.readfdset } else a
    let a := if events &&& POLLOUT ≠ 0 then { a with writefdset := FD_SET fd a.writefdset } else a
    let a := if events &&& POLLERR ≠ 0 then { a with errorfdset := FD_SET fd a.errorfdset } else a
    add_poll_fds rest a

/-- Embedding of `quantis_usb_before_poll` for a non-null `timeout`: the
returned status, the context and the arguments afterwards. -/
def quantis_usb_before_poll (ctx : UsbContext) (engine : Engine) (a : PollArgs) :
    Int × UsbContext × PollArgs :=
  let ctx := { ctx with usb_timeout_effective := false, usb_events_available := false }
  if engine.pollfds_handle_timeouts = false then
    if engine.next_timeout_status < 0 then (-1, ctx, a)
    else if engine.next_timeout_status > 0 then
      if engine.tv.tv_sec = 0 ∧ engine.tv.tv_usec = 0 then
        (0, { ctx with usb_events_available := true }, { a with timeout := ⟨0, 0⟩ })
      else if engine.tv.tv_sec < a.timeout.tv_sec ∨
          (engine.tv.tv_sec = a.timeout.tv_sec ∧ engine.tv.tv_usec < a.timeout.tv_usec) then
        (0, { ctx with usb_timeout_effective := true },
          add_poll_fds ctx.poll_fds { a with timeout := engine.tv })
      else (0, ctx, add_poll_fds ctx.poll_fds a)
    else (0, ctx, add_poll_fds ctx.poll_fds a)
  else (0, ctx, add_poll_fds ctx.poll_fds a)

/-- The lexicographic order on `(tv_sec, tv_usec)`. -/
def tv_le (x y : Timeval) : Prop :=
  x.tv_sec < y.tv_sec ∨ (x.tv_sec = y.tv_sec ∧ x.tv_usec ≤ y.tv_usec)

/-- The smaller of two timeouts in the lexicographic order. -/
def tv_min (x y : Timeval) : Timeval :=
  if x.tv_sec < y.tv_sec ∨ (x.tv_sec = y.tv_sec ∧ x.tv_usec ≤ y.tv_usec) then x else y

/-- The last loop of `quantis_usb_after_poll`: whether a mirrored pollfd is in
the read, write or error set (the loop stops at the first one found). -/
def poll_fds_have_events (readfdset writefdset errorfdset : List Int) :
    List (Int × Nat) → Bool
  | [] => false
  | (fd, _) :: rest =>
    if fd ∈ readfdset then true
    else if fd ∈ writefdset then true
    else if fd ∈ errorfdset then true
    else poll_fds_have_events readfdset writefdset errorfdset rest

/-- Embedding of `usb_process`: the returned status and the timeout passed to
`libusb_handle_events_locked`, whose status is `handle_events_status`. -/
def usb_process (handle_events_status : Int) : Int × List Timeval :=
  if handle_events_status ≠ 0 then (-1, [⟨0, 0⟩]) else (0, [⟨0, 0⟩])

/-- Embedding of `quantis_usb_after_poll`: the returned status and the
timeouts of the calls to `libusb_handle_events_locked` it made. -/
def quantis_usb_after_poll (ctx : UsbContext) (timeout_expired : Int)
    (readfdset writefdset errorfdset : List Int) (handle_events_status : Int) :
    Int × List Timeval :=
  if ctx.usb_events_available = true ∨
      (timeout_expired ≠ 0 ∧ ctx.usb_timeout_effective = true) then
    usb_process handle_events_status
  else if poll_fds_have_events readfdset writefdset errorfdset ctx.poll_fds = true then
    usb_process handle_events_status
  else (0, [])

/-- Modelled from the spec: the libusb constant `LIBUSB_TRANSFER_TYPE_BULK`
(declared in `libusb.h`, outside the repository), the transfer type 2. -/
def LIBUSB_TRANSFER_TYPE_BULK : Nat := 2

/-- Modelled from the spec: the libusb constant `LIBUSB_ENDPOINT_IN`
(declared in `libusb.h`, outside the repository), bit `0x80` of the endpoint
address. -/
def LIBUSB_ENDPOINT_IN : Nat := 0x80

/-- What `quantis_usb_open_device` gets from the library and the callbacks:
the status of each library call and the descriptor fields it reads.
`should_open` is `none` when no callback is registered. -/
structure OpenInputs where
  malloc_failed : Bool
  get_device_descriptor_status : Int
  idVendor : Nat
  idProduct : Nat
  bNumConfigurations : Nat
  open_status : Int
  should_open : Option Bool
  get_configuration_status : Int
  device_configuration : Int
  set_configuration_status : Int
  claim_interface_status : Int
  get_configuration_status_2 : Int
  get_config_descriptor_status : Int
  bNumInterfaces : Nat
  num_altsetting : Int
  bNumEndpoints : Nat
  bmAttributes : Nat
  bEndpointAddress : Nat
  wMaxPacketSize : Nat
  create_transfer_failed : Bool
  deriving DecidableEq

/-- Embedding of `quantis_usb_open_device`: `some (endpoint_address,
max_packet_size)` when the device is added to the device list, `none` when the
function returns `NULL`. -/
def quantis_usb_open_device (inp : OpenInputs) : Option (Nat × Nat) :=
  if inp.malloc_failed then none
  else if inp.get_device_descriptor_status ≠ 0 then none
  else if inp.idVendor ≠ VENDOR_ID_ELLISYS ∨ inp.idProduct ≠ DEVICE_ID_QUANTIS_USB then none
  else if inp.bNumConfigurations ≠ 1 then none
  else if inp.open_status ≠ 0 then none
  else if inp.should_open = some false then none
  else if inp.get_configuration_status ≠ 0 then none
  else if inp.device_configuration ≠ 1 ∧ inp.set_configuration_status ≠ 0 then none
  else if inp.claim_interface_status ≠ 0 then none
  else if inp.get_configuration_status_2 ≠ 0 then none
  else if inp.get_config_descriptor_status ≠ 0 then none
  else if inp.bNumInterfaces ≠ 1 then none
  else if inp.num_altsetting ≤ 0 then none
  else if inp.bNumEndpoints < 1 then none
  else if inp.bmAttributes &&& LIBUSB_TRANSFER_TYPE_BULK = 0 then none
  else if inp.bEndpointAddress &&& 0x80 ≠ LIBUSB_ENDPOINT_IN then none
  else if inp.create_transfer_failed then none
  else some (inp.bEndpointAddress, inp.wMaxPacketSize)

/-- The state of one device and of its transfer.  `read_in_progress` is the
field of `QuantisUSBDevice`; `destroyed` records that
`quantis_usb_destroy_device` has run (transfer buffer, transfer and device
freed).  Modelled from the spec: the transfer engine (libusb, outside the
repository) holds a submitted transfer until it has delivered its completion
callback, which it does only while it processes events in `after_poll`;
cancelling a transfer makes that completion carry a cancelled status.
`transfer_pending` says the engine still holds the transfer. -/
structure DeviceState where
  read_in_progress : Bool
  destroyed : Bool
  transfer_pending : Bool
  cancel_requested : Bool
  deriving DecidableEq

/-- What `libusb_submit_transfer` answers: success, `LIBUSB_ERROR_INTERRUPTED`
(which `usb_set_errno` turns into `EINTR`) or another error. -/
inductive Submit where
  | ok
  | interrupted
  | failed
  deriving DecidableEq

/-- A device as `quantis_usb_open_device` leaves it: no read in progress. -/
def device_opened : DeviceState := ⟨false, false, false, false⟩

/-- Embedding of `quantis_usb_read` for a device with a transfer: the state,
the returned status, and whether `errno` is `EAGAIN` or `EINTR` afterwards. -/
def quantis_usb_read (d : DeviceState) (submit : Submit) : DeviceState × Int × Bool :=
  if d.read_in_progress then (d, -1, true)
  else
    match submit with
    | Submit.ok => ({ d with read_in_progress := true, transfer_pending := true }, 0, false)
    | Submit.interrupted => ({ d with read_in_progress := false }, -1, true)
    | Submit.failed => ({ d with read_in_progress := false }, -1, false)

/-- Embedding of `read_callback`, run when the engine delivers the completion
of the transfer. -/
def read_callback (d : DeviceState) : DeviceState :=
  { d with read_in_progress := false, transfer_pending := false, cancel_requested := false }

/-- Embedding of `quantis_usb_read_cancel`: the cancellation is requested from
the engine, the completion is not delivered here. -/
def quantis_usb_read_cancel (d : DeviceState) : DeviceState :=
  if d.read_in_progress = false then d else { d with cancel_requested := true }

/-- Embedding of `quantis_usb_destroy_device`. -/
def quantis_usb_destroy_device (d : DeviceState) : DeviceState :=
  { d with destroyed := true }

/-- Embedding of `quantis_usb_close_device` for one device. -/
def quantis_usb_close_device (d : DeviceState) : DeviceState :=
  let d := if d.read_in_progress then quantis_usb_read_cancel d else d
  quantis_usb_destroy_device d

/-- Embedding of the body of the loop of `quantis_usb_read_all` for one
device. -/
def quantis_usb_read_all (d : DeviceState) (submit : Submit) : DeviceState :=
  let r := quantis_usb_read d submit
  if r.2.1 < 0 ∧ r.2.2 = false then quantis_usb_close_device r.1 else r.1

/-- What happens to a device: a read is requested, the engine delivers the
completion of its transfer, the device is closed (it left, or the context is
destroyed), or `quantis_usb_read_all` reaches it. -/
inductive DeviceEvent where
  | read (submit : Submit)
  | completion
  | close
  | read_all (submit : Submit)
  deriving DecidableEq

/-- One event on a device.  A destroyed device is no longer in the device
list, so nothing but the completion of a transfer still held by the engine
can reach it. -/
def device_step (d : DeviceState) : DeviceEvent → DeviceState
  | DeviceEvent.read submit => if d.destroyed then d else (quantis_usb_read d submit).1
  | DeviceEvent.completion => if d.transfer_pending then read_callback d else d
  | DeviceEvent.close => if d.destroyed then d else quantis_usb_close_device d
  | DeviceEvent.read_all submit => if d.destroyed then d else quantis_usb_read_all d submit

/-- The state of a device after a sequence of events. -/
def device_run (d : DeviceState) : List DeviceEvent → DeviceState
  | [] => d
  | e :: es => device_run (device_step d e) es

/-! ## Observers for the last claims -/

/-- An operation on the table: `client_add`, `client_remove_by_index` or one
call of `send_entropy`. -/
inductive TableOp where
  | add (sock : Int)
  | remove (i : Nat)
  | sweep (env : SendEnv)

/-- The globals after one operation on the table. -/
def server_step (s : Server) : TableOp → Server
  | TableOp.add sock => { s with table := (client_add s.table sock).1 }
  | TableOp.remove i => { s with table := (client_remove_by_index s.table i).1 }
  | TableOp.sweep env => (send_entropy env s).1

/-- The globals after a sequence of operations on the table. -/
def server_run (s : Server) : List TableOp → Server
  | [] => s
  | op :: ops => server_run (server_step s op) ops

/-- The request phase as the specification words it: the per-client request
step applied to every client of the list in order, the evicted clients
filtered out. -/
def request_phase_spec (env : RequestEnv) (clients : List Client) : List Client :=
  clients.filterMap (fun c => (request_client env c).1)

/-- The calls on sockets of the request phase as the specification words it:
those of the per-client request step of every client, in order. -/
def request_effects_spec (env : RequestEnv) (clients : List Client) : List Effect :=
  clients.flatMap (fun c => (request_client env c).2)

/-- The value of `beg_index` after the statement "Update the begin index" of
`data_buf_unread`, for `bytes_to_write = k`. -/
def unread_beg_index (buf : DataBuffer) (k : Nat) : Nat :=
  if buf.beg_index ≥ k then buf.beg_index - k else buf.capacity - k

/-- The `memcpy` calls of `data_buf_write` into the backing region: offset
and bytes stored, in order. -/
def write_segments (buf : DataBuffer) (data : List Nat) : List (Nat × List Nat) :=
  if data.length = 0 then [] else
  let capacity := buf.capacity
  let bytes_to_write :=
    if data.length > capacity - buf.size then capacity - buf.size else data.length
  if bytes_to_write ≤ capacity - buf.end_index then
    [(buf.end_index, region data 0 bytes_to_write)]
  else
    [(buf.end_index, region data 0 (capacity - buf.end_index)),
     (0, region data (capacity - buf.end_index) (bytes_to_write - (capacity - buf.end_index)))]

/-- The `memcpy` calls of `data_buf_read` out of the backing region: offset
and length, in order. -/
def read_segments (buf : DataBuffer) (data_len : Nat) : List (Nat × Nat) :=
  if data_len = 0 then [] else
  let capacity := buf.capacity
  let bytes_to_read := if data_len > buf.size then buf.size else data_len
  if bytes_to_read ≤ capacity - buf.beg_index then [(buf.beg_index, bytes_to_read)]
  else [(buf.beg_index, capacity - buf.beg_index), (0, bytes_to_read - (capacity - buf.beg_index))]

/-- The `memcpy` calls of `data_buf_unread` into the backing region: offset
and bytes stored, in order. -/
def unread_segments (buf : DataBuffer) (data : List Nat) : List (Nat × List Nat) :=
  if data.length = 0 then [] else
  let capacity := buf.capacity
  let bytes_to_write :=
    if data.length > capacity - buf.size then capacity - buf.size else data.length
  if bytes_to_write = 0 then [] else
  let data_p := data.drop (data.length - bytes_to_write)
  let beg_index := unread_beg_index buf bytes_to_write
  if bytes_to_write ≤ capacity - beg_index then [(beg_index, region data_p 0 bytes_to_write)]
  else
    [(beg_index, region data_p 0 (capacity - beg_index)),
     (0, region data_p (capacity - beg_index) (bytes_to_write - (capacity - beg_index)))]

/-- Offset and length of every copy an operation makes in the backing region. -/
def op_segments (buf : DataBuffer) : BufOp → List (Nat × Nat)
  | BufOp.write data => (write_segments buf data).map (fun p => (p.1, p.2.length))
  | BufOp.read data_len => read_segments buf data_len
  | BufOp.unread data => (unread_segments buf data).map (fun p => (p.1, p.2.length))

/-! ## Observers for runs in which `send` makes progress -/

/-- Whether `send` can return `s` for the bytes offered on a non-blocking
stream socket: failure, a count between 1 and the number of bytes offered, or
0 when no byte is offered. -/
def send_status_receivable (offered : List Nat) (s : Int) : Bool :=
  decide (s < 0 ∨ (1 ≤ s ∧ s ≤ (offered.length : Int)) ∨ (s = 0 ∧ offered = []))

/-- Whether the value `send` returns in a visit is receivable for the bytes
the visit offers; a visit that makes no `send` call passes. -/
def visit_receivable (c : Client) (data_buf : DataBuffer) (send_buf : List Nat)
    (writable : Bool) (send_status : Int) : Bool :=
  match (send_entropy_visit c data_buf send_buf writable send_status).sent with
  | none => true
  | some r => send_status_receivable r.offered send_status

/-- The condition on one event of a connection: a request leaves
`entropy_requested` below `2^32 - 4`, and the value `send` returns in a visit
is receivable. -/
def event_receivable (k : Conn) : Event → Bool
  | Event.request r => decide (r + k.client.entropy_requested + 4 < 4294967296)
  | Event.ingest _ => true
  | Event.visit writable send_status =>
    visit_receivable k.client k.data_buf k.send_buf writable send_status

/-- The condition `event_receivable` on every event of a run. -/
def conn_receivable (k : Conn) : List Event → Bool
  | [] => true
  | e :: es =>
    event_receivable k e &&
      (match conn_step k e with
        | none => true
        | some k2 => conn_receivable k2 es)

/-- What a visit of `send_entropy` finds besides the client record: the
pool, the static `send_buf`, `FD_ISSET(sock, &writefds)` and the value `send`
returns if it is called. -/
structure VisitEnv where
  data_buf : DataBuffer
  send_buf : List Nat
  writable : Bool
  send_status : Int
  deriving DecidableEq

/-- An event seen from one client: a decoded request of the client arrives,
or `send_entropy` visits the client.  Between two visits the pool and
`send_buf` are changed by the device callback and by the visits of the other
clients, so every visit comes with its own pool and `send_buf`. -/
inductive PeerEvent where
  | request (entropy_requested : Nat)
  | visit (env : VisitEnv)
  deriving DecidableEq

/-- A client record and the bytes its socket has accepted so far, each with
the mark `true` when the server sent it as a header byte and `false` when it
sent it as a payload byte. -/
structure Peer where
  client : Client
  stream : List (Bool × Nat)
  deriving DecidableEq

/-- The bytes the socket accepted in a visit, marked as in `sweep_marked`. -/
def visit_marked (v : Visit) : List (Bool × Nat) :=
  match v.sent with
  | none => []
  | some r => r.accepted.enum.map (fun p => (decide (p.1 < r.header_size), p.2))

/-- One event on a client; `none` when the client is removed. -/
def peer_step (p : Peer) : PeerEvent → Option Peer
  | PeerEvent.request r =>
    match handle_request p.client r p.client.last_request with
    | none => none
    | some c => some { p with client := c }
  | PeerEvent.visit env =>
    let v := send_entropy_visit p.client env.data_buf env.send_buf env.writable
      env.send_status
    some { client := v.client, stream := p.stream ++ visit_marked v }

/-- Runs a sequence of events on a client. -/
def peer_run (p : Peer) : List PeerEvent → Option Peer
  | [] => some p
  | e :: es =>
    match peer_step p e with
    | none => none
    | some p2 => peer_run p2 es

/-- What a visit may find: a pool within its bounds (a region of
`capacity < 2^32` bytes, `size ≤ capacity`, `beg_index < capacity`) and the
static `send_buf` of `MAX_FRAME_SIZE` bytes. -/
def visit_env_ok (env : VisitEnv) : Prop :=
  env.data_buf.buffer.length = env.data_buf.capacity ∧
  env.data_buf.size ≤ env.data_buf.capacity ∧
  env.data_buf.beg_index < env.data_buf.capacity ∧
  env.data_buf.capacity < 4294967296 ∧
  env.send_buf.length = MAX_FRAME_SIZE

instance (env : VisitEnv) : Decidable (visit_env_ok env) := by
  unfold visit_env_ok; infer_instance

/-- The condition on one event of a client: a request leaves
`entropy_requested` below `2^32 - 4`, and the value `send` returns in a visit
is receivable. -/
def peer_event_receivable (p : Peer) : PeerEvent → Bool
  | PeerEvent.request r => decide (r + p.client.entropy_requested + 4 < 4294967296)
  | PeerEvent.visit env =>
    visit_receivable p.client env.data_buf env.send_buf env.writable env.send_status

/-- The condition `peer_event_receivable` on every event of a run. -/
def peer_receivable (p : Peer) : List PeerEvent → Bool
  | [] => true
  | e :: es =>
    peer_event_receivable p e &&
      (match peer_step p e with
        | none => true
        | some p2 => peer_receivable p2 es)

/-- A whole frame as the server sends it: the four bytes of `htonl(L)`
marked as header bytes, then the payload bytes marked as payload. -/
def frame_marked (L : Nat) (payload : List Nat) : List (Bool × Nat) :=
  (htonl_bytes L).map (fun b => (true, b)) ++ payload.map (fun b => (false, b))

/-- The relation between a client record, the marked bytes its socket has
accepted and the sum of its requests: the stream is a sequence of whole
frames followed by the part sent of the frame in flight, which is empty when
nothing is pending, the first `4 - header_bytes_pending` bytes of
`htonl(entropy_pending)` while the header is being sent, and a header for
`cur` followed by `cur - entropy_pending` payload bytes afterwards; the
lengths of all these frames and `entropy_requested` sum to at most the
requests. -/
def Framing (c : Client) (stream : List (Bool × Nat)) (requested : Nat) : Prop :=
  ∃ (frames : List (Nat × List Nat)) (cur : Nat) (tail : List (Bool × Nat)),
    stream = frames.flatMap (fun f => frame_marked f.1 f.2) ++ tail ∧
    (∀ f ∈ frames, f.2.length = f.1 ∧ f.1 ≤ 65532) ∧
    (frames.map (fun f => f.1)).sum + cur + c.entropy_requested ≤ requested ∧
    c.entropy_requested + 4 < 4294967296 ∧ cur ≤ 65532 ∧
    ((c.header_bytes_pending = 0 ∧ c.entropy_pending = 0 ∧ cur = 0 ∧ tail = []) ∨
     (1 ≤ c.header_bytes_pending ∧ c.header_bytes_pending ≤ 3 ∧ c.entropy_pending = cur ∧
        tail = ((htonl_bytes cur).take (4 - c.header_bytes_pending)).map
          (fun b => (true, b))) ∨
     (c.header_bytes_pending = 0 ∧ c.entropy_pending ≠ 0 ∧
        ∃ payload : List Nat, payload.length + c.entropy_pending = cur ∧
          tail = frame_marked cur payload))

/-! ## Byte-region lemmas -/

theorem contents_eq_ringList (buf : DataBuffer) :
    contents buf = ringList buf.buffer buf.capacity buf.beg_index buf.size := rfl

theorem region_getElem? (src : List Nat) (off len i : Nat) :
    (region src off len)[i]? = if i < len then src[off + i]? else none := by
  simp [region, List.getElem?_take, List.getElem?_drop]

theorem region_length (src : List Nat) (off len : Nat) (h : off + len ≤ src.length) :
    (region src off len).length = len := by
  simp [region]; omega

theorem region_zero_eq_take (src : List Nat) (len : Nat) : region src 0 len = src.take len := by
  simp [region]

theorem memcpy_getElem? (dst src : List Nat) (off j : Nat) (h : off ≤ dst.length) :
    (memcpy dst off src)[j]? =
      if j < off then dst[j]? else if j < off + src.length then src[j - off]? else dst[j]? := by
  unfold memcpy
  rw [List.getElem?_append, List.getElem?_append]
  simp only [List.length_append, List.length_take, Nat.min_eq_left h, List.getElem?_take,
    List.getElem?_drop]
  split_ifs <;> first | omega | rfl | (congr 1; omega)

theorem memcpy_length (dst src : List Nat) (off : Nat) (h : off + src.length ≤ dst.length) :
    (memcpy dst off src).length = dst.length := by
  simp [memcpy]; omega

theorem getElem?_eq_some_getD (l : List Nat) (p : Nat) (h : p < l.length) :
    l[p]? = some (l.getD p 0) := by
  simp [List.getD_eq_getElem?_getD, List.getElem?_eq_getElem h]

theorem ringList_getElem? (buffer : List Nat) (cap start n i : Nat) :
    (ringList buffer cap start n)[i]? =
      if i < n then some (buffer.getD ((start + i) % cap) 0) else none := by
  unfold ringList
  rw [List.getElem?_map]
  by_cases h : i < n
  · simp [List.getElem?_range h, h]
  · simp [h, List.getElem?_eq_none (l := List.range n) (n := i) (by simpa using h)]

theorem ringList_length (buffer : List Nat) (cap start n : Nat) :
    (ringList buffer cap start n).length = n := by
  simp [ringList]

theorem mod_wrap {a c : Nat} (h : a < 2 * c) : a % c = if a < c then a else a - c := by
  split_ifs with h1
  · exact Nat.mod_eq_of_lt h1
  · rw [Nat.mod_eq_sub_mod (by omega), Nat.mod_eq_of_lt (by omega)]

theorem mod_wrap_cases {a c : Nat} (h : a < 2 * c) :
    (a < c ∧ a % c = a) ∨ (c ≤ a ∧ a % c = a - c) := by
  rw [mod_wrap h]
  split_ifs <;> omega

theorem ringList_start_mod (buffer : List Nat) (cap start n : Nat) :
    ringList buffer cap (start % cap) n = ringList buffer cap start n := by
  simp [ringList, Nat.mod_add_mod]

theorem ringList_take (buffer : List Nat) (cap start n k : Nat) (h : k ≤ n) :
    (ringList buffer cap start n).take k = ringList buffer cap start k := by
  apply List.ext_getElem?
  intro i
  simp only [List.getElem?_take, ringList_getElem?]
  split_ifs <;> first | rfl | omega

theorem ringList_drop (buffer : List Nat) (cap start n k : Nat) :
    (ringList buffer cap start n).drop k = ringList buffer cap ((start + k) % cap) (n - k) := by
  apply List.ext_getElem?
  intro i
  simp only [List.getElem?_drop, ringList_getElem?, Nat.mod_add_mod, Nat.add_assoc]
  split_ifs <;> first | rfl | omega

theorem ringList_append (buffer : List Nat) (cap start n m : Nat) :
    ringList buffer cap start n ++ ringList buffer cap ((start + n) % cap) m =
      ringList buffer cap start (n + m) := by
  apply List.ext_getElem?
  intro i
  simp only [List.getElem?_append, ringList_getElem?, ringList_length, Nat.mod_add_mod]
  split_ifs <;> first | rfl | omega | (congr 3; omega)

/-- The bytes produced by the one- or two-step copy of `data_buf_read` are the
bytes read cyclically from `beg`. -/
theorem read_copy_eq (buffer : List Nat) (cap beg k : Nat) (hlen : buffer.length = cap)
    (hb : beg < cap) (hk : k ≤ cap) :
    (if k ≤ cap - beg then region buffer beg k
     else region buffer beg (cap - beg) ++ region buffer 0 (k - (cap - beg))) =
      ringList buffer cap beg k := by
  apply List.ext_getElem?
  intro i
  split_ifs with h1
  · simp only [region_getElem?, ringList_getElem?]
    split_ifs with h2
    · rw [Nat.mod_eq_of_lt (by omega), getElem?_eq_some_getD _ _ (by omega)]
    · rfl
  · simp only [List.getElem?_append, region_getElem?, ringList_getElem?,
      region_length buffer beg (cap - beg) (by omega)]
    split_ifs with h2 h3 h4 h5
    · rw [Nat.mod_eq_of_lt (by omega), getElem?_eq_some_getD _ _ (by omega)]
    · omega
    · rw [mod_wrap (by omega), if_neg (by omega), getElem?_eq_some_getD _ _ (by omega)]
      congr 2; omega
    · omega
    · omega
    · rfl

/-! ## `data_buf_read` -/

theorem ite_gt_eq_min (a b : Nat) : (if a > b then b else a) = min a b := by
  split_ifs <;> omega

theorem data_buf_read_count (buf : DataBuffer) (n : Nat) :
    (data_buf_read buf n).2.2 = min n buf.size := by
  by_cases hn : n = 0
  · simp [data_buf_read, hn]
  · simp only [data_buf_read, hn, if_false, ite_gt_eq_min]

theorem data_buf_read_bytes (buf : DataBuffer) (n : Nat)
    (hlen : buf.buffer.length = buf.capacity) (hb : buf.beg_index < buf.capacity)
    (hs : buf.size ≤ buf.capacity) :
    (data_buf_read buf n).2.1 =
      ringList buf.buffer buf.capacity buf.beg_index (min n buf.size) := by
  by_cases hn : n = 0
  · simp [data_buf_read, hn, ringList]
  · simp only [data_buf_read, hn, if_false, ite_gt_eq_min]
    rw [apply_ite Prod.fst]
    exact read_copy_eq buf.buffer buf.capacity buf.beg_index (min n buf.size) hlen hb
      (by omega)

theorem data_buf_read_fields (buf : DataBuffer) (n : Nat)
    (hb : buf.beg_index < buf.capacity) (hs : buf.size ≤ buf.capacity) :
    (data_buf_read buf n).1.buffer = buf.buffer ∧
    (data_buf_read buf n).1.capacity = buf.capacity ∧
    (data_buf_read buf n).1.end_index = buf.end_index ∧
    (data_buf_read buf n).1.size = buf.size - min n buf.size ∧
    (data_buf_read buf n).1.beg_index = (buf.beg_index + min n buf.size) % buf.capacity := by
  by_cases hn : n = 0
  · simp [data_buf_read, hn, Nat.mod_eq_of_lt hb]
  · simp only [data_buf_read, hn, if_false, ite_gt_eq_min, true_and]
    rw [apply_ite Prod.snd]
    rw [mod_wrap (by omega)]
    split_ifs <;> omega

theorem data_buf_read_contents (buf : DataBuffer) (n : Nat)
    (hb : buf.beg_index < buf.capacity) (hs : buf.size ≤ buf.capacity) :
    contents (data_buf_read buf n).1 = (contents buf).drop (min n buf.size) := by
  obtain ⟨h1, h2, _, h4, h5⟩ := data_buf_read_fields buf n hb hs
  rw [contents_eq_ringList, contents_eq_ringList, ringList_drop, h1, h2, h4, h5]

theorem data_buf_read_valid (buf : DataBuffer) (n : Nat) (h : Valid buf) :
    Valid (data_buf_read buf n).1 := by
  obtain ⟨hc, hlen, hs, hb, he⟩ := h
  obtain ⟨h1, h2, h3, h4, h5⟩ := data_buf_read_fields buf n hb hs
  refine ⟨by omega, by rw [h1, h2]; exact hlen, by omega, ?_, ?_⟩
  · rw [h5, h2]; exact Nat.mod_lt _ hc
  · rw [h3, h4, h5, h2, he, Nat.mod_add_mod]
    congr 1; omega

/-! ## `data_buf_write` -/

theorem ite_gt_sub_eq_min (a c s : Nat) : (if a > c - s then c - s else a) = min a (c - s) := by
  split_ifs <;> omega

/-- Bytewise description of the one- or two-step copy of `data_buf_write`. -/
theorem write_copy_getElem? (buffer data : List Nat) (cap e k p : Nat)
    (hlen : buffer.length = cap) (he : e < cap) (hk : k ≤ cap) (hd : k ≤ data.length)
    (hp : p < cap) :
    (if k ≤ cap - e then memcpy buffer e (region data 0 k)
     else memcpy (memcpy buffer e (region data 0 (cap - e))) 0
            (region data (cap - e) (k - (cap - e))))[p]? =
      if e ≤ p ∧ p < e + k then data[p - e]?
      else if p + cap < e + k then data[p + cap - e]?
      else buffer[p]? := by
  split_ifs with h1 h2 h3 h4 h5
  · rw [memcpy_getElem? _ _ _ _ (by omega), region_length _ _ _ (by omega), region_getElem?]
    simp only [Nat.zero_add]
    rw [if_neg (by omega), if_pos (by omega), if_pos (by omega)]
  · omega
  · rw [memcpy_getElem? _ _ _ _ (by omega), region_length _ _ _ (by omega)]
    split_ifs <;> first | omega | rfl
  · have hl1 : (region data 0 (cap - e)).length = cap - e := region_length _ _ _ (by omega)
    have hl2 : (region data (cap - e) (k - (cap - e))).length = k - (cap - e) :=
      region_length _ _ _ (by omega)
    rw [memcpy_getElem? _ _ _ _ (by omega), hl2, if_neg (by omega), if_neg (by omega),
      memcpy_getElem? _ _ _ _ (by omega), hl1, if_neg (by omega), if_pos (by omega),
      region_getElem?, if_pos (by omega)]
    simp only [Nat.zero_add]
  · have hl1 : (region data 0 (cap - e)).length = cap - e := region_length _ _ _ (by omega)
    have hl2 : (region data (cap - e) (k - (cap - e))).length = k - (cap - e) :=
      region_length _ _ _ (by omega)
    rw [memcpy_getElem? _ _ _ _ (by omega), hl2, if_neg (by omega), if_pos (by omega),
      region_getElem?, if_pos (by omega)]
    congr 1; omega
  · have hl1 : (region data 0 (cap - e)).length = cap - e := region_length _ _ _ (by omega)
    have hl2 : (region data (cap - e) (k - (cap - e))).length = k - (cap - e) :=
      region_length _ _ _ (by omega)
    rw [memcpy_getElem? _ _ _ _ (by omega), hl2, if_neg (by omega), if_neg (by omega),
      memcpy_getElem? _ _ _ _ (by omega), hl1]
    split_ifs <;> first | omega | rfl

theorem write_copy_length (buffer data : List Nat) (cap e k : Nat)
    (hlen : buffer.length = cap) (he : e < cap) (hk : k ≤ cap) (hd : k ≤ data.length) :
    (if k ≤ cap - e then memcpy buffer e (region data 0 k)
     else memcpy (memcpy buffer e (region data 0 (cap - e))) 0
            (region data (cap - e) (k - (cap - e)))).length = cap := by
  split_ifs with h1
  · rw [memcpy_length _ _ _ (by rw [region_length _ _ _ (by omega)]; omega), hlen]
  · have hl1 : (region data 0 (cap - e)).length = cap - e := region_length _ _ _ (by omega)
    have hl2 : (region data (cap - e) (k - (cap - e))).length = k - (cap - e) :=
      region_length _ _ _ (by omega)
    have hm : (memcpy buffer e (region data 0 (cap - e))).length = cap := by
      rw [memcpy_length _ _ _ (by rw [hl1]; omega), hlen]
    rw [memcpy_length _ _ _ (by rw [hl2, hm]; omega), hm]

/-- The fields of the buffer after `data_buf_write`, for a non-empty `data`. -/
theorem data_buf_write_fields (buf : DataBuffer) (data : List Nat) (hd : data.length ≠ 0)
    (he : buf.end_index < buf.capacity) :
    (data_buf_write buf data).2 = min data.length (buf.capacity - buf.size) ∧
    (data_buf_write buf data).1.capacity = buf.capacity ∧
    (data_buf_write buf data).1.beg_index = buf.beg_index ∧
    (data_buf_write buf data).1.size = buf.size + min data.length (buf.capacity - buf.size) ∧
    (data_buf_write buf data).1.end_index =
      (buf.end_index + min data.length (buf.capacity - buf.size)) % buf.capacity ∧
    (data_buf_write buf data).1.buffer =
      (if min data.length (buf.capacity - buf.size) ≤ buf.capacity - buf.end_index then
        memcpy buf.buffer buf.end_index
          (region data 0 (min data.length (buf.capacity - buf.size)))
       else memcpy (memcpy buf.buffer buf.end_index
              (region data 0 (buf.capacity - buf.end_index))) 0
            (region data (buf.capacity - buf.end_index)
              (min data.length (buf.capacity - buf.size) -
                (buf.capacity - buf.end_index)))) := by
  simp only [data_buf_write, hd, if_false, ite_gt_sub_eq_min]
  rw [mod_wrap (by omega)]
  split_ifs <;> simp <;> omega

/-- Storing `k` bytes of `data` cyclically right after the `size` bytes that
start at `b0` appends them to the bytes read cyclically from `b0`. -/
theorem write_ring (buffer data : List Nat) (cap b0 size k : Nat)
    (hlen : buffer.length = cap) (hb0 : b0 < cap) (hk : size + k ≤ cap)
    (hd : k ≤ data.length) :
    ringList
      (if k ≤ cap - (b0 + size) % cap then memcpy buffer ((b0 + size) % cap) (region data 0 k)
       else memcpy (memcpy buffer ((b0 + size) % cap)
              (region data 0 (cap - (b0 + size) % cap))) 0
            (region data (cap - (b0 + size) % cap) (k - (cap - (b0 + size) % cap))))
      cap b0 (size + k) =
    ringList buffer cap b0 size ++ data.take k := by
  apply List.ext_getElem?
  intro i
  have he := mod_wrap_cases (a := b0 + size) (c := cap) (by omega)
  have hel : (b0 + size) % cap < cap := Nat.mod_lt _ (by omega)
  generalize (b0 + size) % cap = e at he hel ⊢
  simp only [ringList_getElem?, List.getElem?_append, ringList_length, List.getElem?_take]
  by_cases hi : i < size + k
  · have hp := mod_wrap_cases (a := b0 + i) (c := cap) (by omega)
    have hpl : (b0 + i) % cap < cap := Nat.mod_lt _ (by omega)
    generalize (b0 + i) % cap = p at hp hpl ⊢
    rw [if_pos hi, List.getD_eq_getElem?_getD,
      write_copy_getElem? buffer data cap e k p hlen hel (by omega) hd hpl]
    by_cases hi2 : i < size
    · have c1 : ¬ (e ≤ p ∧ p < e + k) := by omega
      have c2 : ¬ (p + cap < e + k) := by omega
      rw [if_pos hi2, if_pos hi2, if_neg c1, if_neg c2, List.getD_eq_getElem?_getD]
    · have c0 : i - size < k := by omega
      rw [if_neg hi2, if_pos c0]
      have hdi : i - size < data.length := by omega
      by_cases h1 : e ≤ p ∧ p < e + k
      · have h3 : p - e = i - size := by omega
        rw [if_pos h1, h3, List.getElem?_eq_getElem hdi]; rfl
      · have h2 : p + cap < e + k := by omega
        have h3 : p + cap - e = i - size := by omega
        rw [if_neg h1, if_pos h2, h3, List.getElem?_eq_getElem hdi]; rfl
  · have c1 : ¬ i < size := by omega
    have c2 : ¬ i - size < k := by omega
    rw [if_neg hi, if_neg c1, if_neg c2]

theorem data_buf_write_contents (buf : DataBuffer) (data : List Nat)
    (hc : 0 < buf.capacity) (hlen : buf.buffer.length = buf.capacity)
    (hs : buf.size ≤ buf.capacity)
    (he : buf.end_index = (buf.beg_index + buf.size) % buf.capacity) :
    contents (data_buf_write buf data).1 =
      contents buf ++ data.take (min data.length (buf.capacity - buf.size)) := by
  by_cases hd : data.length = 0
  · simp [data_buf_write, hd]
  · have hel : buf.end_index < buf.capacity := by rw [he]; exact Nat.mod_lt _ hc
    obtain ⟨_, h2, h3, h4, _, h6⟩ := data_buf_write_fields buf data hd hel
    rw [contents_eq_ringList, contents_eq_ringList, h2, h3, h4, h6,
      ← ringList_start_mod, ← ringList_start_mod buf.buffer]
    have he2 : buf.end_index = (buf.beg_index % buf.capacity + buf.size) % buf.capacity := by
      rw [he, Nat.mod_add_mod]
    rw [he2]
    exact write_ring buf.buffer data buf.capacity (buf.beg_index % buf.capacity) buf.size
      (min data.length (buf.capacity - buf.size)) hlen (Nat.mod_lt _ hc) (by omega) (by omega)

theorem data_buf_write_count (buf : DataBuffer) (data : List Nat) :
    (data_buf_write buf data).2 = min data.length (buf.capacity - buf.size) := by
  by_cases hd : data.length = 0
  · simp [data_buf_write, hd]
  · simp only [data_buf_write, hd, if_false, ite_gt_sub_eq_min]
    split_ifs <;> rfl

theorem data_buf_write_valid (buf : DataBuffer) (data : List Nat) (h : Valid buf) :
    Valid (data_buf_write buf data).1 := by
  obtain ⟨hc, hlen, hs, hb, he⟩ := h
  by_cases hd : data.length = 0
  · simp only [data_buf_write, hd, if_true]; exact ⟨hc, hlen, hs, hb, he⟩
  · have hel : buf.end_index < buf.capacity := by rw [he]; exact Nat.mod_lt _ hc
    obtain ⟨_, h2, h3, h4, h5, h6⟩ := data_buf_write_fields buf data hd hel
    refine ⟨by omega, ?_, by omega, by omega, ?_⟩
    · rw [h6, h2]
      exact write_copy_length buf.buffer data buf.capacity buf.end_index _ hlen hel
        (by omega) (by omega)
    · rw [h5, h4, h3, h2, he, Nat.mod_add_mod, Nat.add_assoc]

/-! ## `data_buf_unread` -/

theorem data_buf_unread_count (buf : DataBuffer) (data : List Nat) :
    (data_buf_unread buf data).2 = min data.length (buf.capacity - buf.size) := by
  by_cases hd : data.length = 0
  · simp [data_buf_unread, hd]
  · simp only [data_buf_unread, hd, if_false, ite_gt_sub_eq_min]
    split_ifs with h1 <;> first | rfl | omega

theorem region_memcpy_self (dst src : List Nat) (off : Nat) (h : off ≤ dst.length) :
    region (memcpy dst off src) off src.length = src := by
  apply List.ext_getElem?
  intro i
  rw [region_getElem?]
  by_cases hi : i < src.length
  · have c1 : ¬ off + i < off := by omega
    have c2 : off + i < off + src.length := by omega
    rw [if_pos hi, memcpy_getElem? _ _ _ _ h, if_neg c1, if_pos c2]
    congr 1; omega
  · rw [if_neg hi, List.getElem?_eq_none (by omega)]

theorem region_zero_drop_self (data : List Nat) (k : Nat) (hk : k ≤ data.length) :
    region (data.drop (data.length - k)) 0 k = data.drop (data.length - k) := by
  rw [region_zero_eq_take]
  apply List.take_of_length_le
  simp; omega

/-- The fields of the buffer after a `data_buf_unread` that stores at least
one byte. -/
theorem data_buf_unread_fields (buf : DataBuffer) (data : List Nat)
    (hb : buf.beg_index < buf.capacity) (hs : buf.size ≤ buf.capacity)
    (hk : min data.length (buf.capacity - buf.size) ≠ 0) :
    (data_buf_unread buf data).1.capacity = buf.capacity ∧
    (data_buf_unread buf data).1.end_index = buf.end_index ∧
    (data_buf_unread buf data).1.size =
      buf.size + min data.length (buf.capacity - buf.size) ∧
    (data_buf_unread buf data).1.beg_index =
      (if buf.beg_index ≥ min data.length (buf.capacity - buf.size)
       then buf.beg_index - min data.length (buf.capacity - buf.size)
       else buf.capacity - min data.length (buf.capacity - buf.size)) ∧
    (data_buf_unread buf data).1.buffer =
      memcpy buf.buffer
        (if buf.beg_index ≥ min data.length (buf.capacity - buf.size)
         then buf.beg_index - min data.length (buf.capacity - buf.size)
         else buf.capacity - min data.length (buf.capacity - buf.size))
        (data.drop (data.length - min data.length (buf.capacity - buf.size))) := by
  have hd : data.length ≠ 0 := by omega
  have hr := region_zero_drop_self data (min data.length (buf.capacity - buf.size)) (by omega)
  simp only [data_buf_unread, hd, if_false, ite_gt_sub_eq_min, hk]
  by_cases h1 : buf.beg_index ≥ min data.length (buf.capacity - buf.size)
  · have c : min data.length (buf.capacity - buf.size) ≤
        buf.capacity - (buf.beg_index - min data.length (buf.capacity - buf.size)) := by omega
    simp only [h1, if_true, c, hr, and_self]
  · have c : min data.length (buf.capacity - buf.size) ≤
        buf.capacity - (buf.capacity - min data.length (buf.capacity - buf.size)) := by omega
    simp only [h1, if_false, c, if_true, hr, and_self]

/-! ## Sequences of ring-buffer operations -/

theorem data_buf_create_valid (c : Nat) (hc : 0 < c) : Valid (data_buf_create c) := by
  refine ⟨hc, ?_, ?_, hc, ?_⟩ <;> simp [data_buf_create]

theorem run_ops_balance (ops : List Op) :
    ∀ buf : DataBuffer, Valid buf →
      contents buf ++ (run_ops buf ops).2.1 =
        (run_ops buf ops).2.2 ++ contents (run_ops buf ops).1 := by
  induction ops with
  | nil => intro buf _; simp [run_ops]
  | cons op ops ih =>
    intro buf hv
    obtain ⟨hc, hlen, hs, hb, he⟩ := hv
    cases op with
    | write data =>
      have hv2 := data_buf_write_valid buf data ⟨hc, hlen, hs, hb, he⟩
      have h := ih _ hv2
      rw [data_buf_write_contents buf data hc hlen hs he, ← data_buf_write_count] at h
      simp only [run_ops]
      rw [← List.append_assoc]
      exact h
    | read n =>
      have hv2 := data_buf_read_valid buf n ⟨hc, hlen, hs, hb, he⟩
      have h := ih _ hv2
      rw [data_buf_read_contents buf n hb hs] at h
      simp only [run_ops]
      have ht : ringList buf.buffer buf.capacity buf.beg_index (min n buf.size) =
          (contents buf).take (min n buf.size) := by
        rw [contents_eq_ringList, ringList_take _ _ _ _ _ (by omega)]
      rw [data_buf_read_bytes buf n hlen hb hs, List.append_assoc, ← h, ← List.append_assoc,
        ht, List.take_append_drop]

theorem data_buf_write_capacity (buf : DataBuffer) (data : List Nat) :
    (data_buf_write buf data).1.capacity = buf.capacity := by
  unfold data_buf_write
  simp only
  split_ifs <;> rfl

theorem data_buf_read_capacity (buf : DataBuffer) (n : Nat) :
    (data_buf_read buf n).1.capacity = buf.capacity := by
  unfold data_buf_read
  simp only
  split_ifs <;> rfl

theorem run_ops_valid (ops : List Op) :
    ∀ buf : DataBuffer, Valid buf →
      Valid (run_ops buf ops).1 ∧ (run_ops buf ops).1.capacity = buf.capacity := by
  induction ops with
  | nil => intro buf hv; exact ⟨hv, rfl⟩
  | cons op ops ih =>
    intro buf hv
    cases op with
    | write data =>
      have h := ih _ (data_buf_write_valid buf data hv)
      rw [data_buf_write_capacity] at h
      exact h
    | read n =>
      have h := ih _ (data_buf_read_valid buf n hv)
      rw [data_buf_read_capacity] at h
      exact h

theorem contents_length (buf : DataBuffer) : (contents buf).length = buf.size := by
  simp [contents]

/-- On an empty valid buffer, writing `x` that fits and reading `|x|` bytes
gives `x` back. -/
theorem write_read_roundtrip (buf : DataBuffer) (x : List Nat) (hv : Valid buf)
    (h0 : buf.size = 0) (hx : x.length ≤ buf.capacity) :
    (data_buf_write buf x).2 = x.length ∧
    (data_buf_read (data_buf_write buf x).1 x.length).2.1 = x := by
  obtain ⟨hc, hlen, hs, hb, he⟩ := hv
  have hk : min x.length (buf.capacity - buf.size) = x.length := by omega
  have hcont := data_buf_write_contents buf x hc hlen hs he
  have hnil : contents buf = [] := List.eq_nil_of_length_eq_zero (by rw [contents_length, h0])
  rw [hk, hnil, List.nil_append, List.take_length] at hcont
  obtain ⟨_, hlen2, hs2, hb2, _⟩ := data_buf_write_valid buf x ⟨hc, hlen, hs, hb, he⟩
  refine ⟨by rw [data_buf_write_count, hk], ?_⟩
  have hsz : (data_buf_write buf x).1.size = x.length := by
    rw [← contents_length, hcont]
  rw [data_buf_read_bytes _ _ hlen2 hb2 hs2, hsz, Nat.min_self,
    ← ringList_take _ _ _ (data_buf_write buf x).1.size _ (by omega), ← contents_eq_ringList,
    hcont, List.take_length]

/-! ## The dispatcher: `send_entropy` (C1, C2, C4, C5) and the push-back
of `data_buf_unread` (C3, C6) evaluated on concrete runs -/

/-- C1 (defect in the code): a client with no frame in progress and
`entropy_requested = 2^32 - 4` gets a fresh frame; `write_size + header_size`
wraps to 0 in `uint32_t`, the frame-size clamp is skipped, and with 100000
bytes in the pool the visit reads `write_size = 100000` bytes, so
`write_size + header_size = 100004 > 65536`. -/
theorem clamp_skipped_when_sum_wraps :
    frame_action ⟨4294967292, 0, false, 0, 5, (0, 0)⟩ = some (HEADER_SIZE, 4294967292) ∧
    clamp_write_size 4294967292 HEADER_SIZE 100000 = 100000 ∧
    ¬ (clamp_write_size 4294967292 HEADER_SIZE 100000 + HEADER_SIZE ≤ MAX_FRAME_SIZE) ∧
    (send_entropy_visit ⟨4294967292, 0, false, 0, 5, (0, 0)⟩
        ⟨List.replicate 2097152 7, 2097152, 100000, 0, 100000⟩ send_buf_init true
        100004).sent.map (fun r => (r.header_size, r.write_size, r.offered.take 4)) =
      some (4, 100000, [0, 1, 134, 160]) := by
  decide

/-- C3 (defect in the code): capacity 8, valid state with `beg = 6`,
`size = 5`, contents `[1,2,3,4,5]` (reached by write 6, read 6, write 5).
Reading 4 bytes wraps and leaves `beg = 2`; pushing the 4 bytes back sets
`beg = capacity - 4 = 4` instead of 6, so the contents are `[1,2,3,4,3]`
and not `[1,2,3,4,5]`. -/
theorem unread_after_wrapped_read_loses_order :
    (run_ops (data_buf_create 8)
        [Op.write [9, 9, 9, 9, 9, 9], Op.read 6, Op.write [1, 2, 3, 4, 5]]).1 =
      ⟨[3, 4, 5, 9, 9, 9, 1, 2], 8, 5, 6, 3⟩ ∧
    Valid ⟨[3, 4, 5, 9, 9, 9, 1, 2], 8, 5, 6, 3⟩ ∧
    contents ⟨[3, 4, 5, 9, 9, 9, 1, 2], 8, 5, 6, 3⟩ = [1, 2, 3, 4, 5] ∧
    (data_buf_read ⟨[3, 4, 5, 9, 9, 9, 1, 2], 8, 5, 6, 3⟩ 4).2.1 = [1, 2, 3, 4] ∧
    contents (data_buf_read ⟨[3, 4, 5, 9, 9, 9, 1, 2], 8, 5, 6, 3⟩ 4).1 = [5] ∧
    contents (data_buf_unread (data_buf_read ⟨[3, 4, 5, 9, 9, 9, 1, 2], 8, 5, 6, 3⟩ 4).1
        [1, 2, 3, 4]).1 = [1, 2, 3, 4, 3] ∧
    contents (data_buf_unread (data_buf_read ⟨[3, 4, 5, 9, 9, 9, 1, 2], 8, 5, 6, 3⟩ 4).1
        [1, 2, 3, 4]).1 ≠ [1, 2, 3, 4] ++ [5] := by
  decide

/-- C4 (defect in the code): fresh frame, 8 bytes requested, pool `[1..8]`,
`send` accepts 2 of the 12 bytes offered (2 header bytes).  The range handed
to `data_buf_unread` is `send_buf[2 .. 10)`, the bytes `[0,8,1,2,3,4,5,6]`,
not the unaccepted payload `send_buf[4 .. 12) = [1..8]`: two header bytes go
into the pool and the payload bytes 7 and 8 are lost. -/
theorem unread_range_starts_inside_header :
    (send_entropy_visit ⟨8, 0, false, 0, 5, (0, 0)⟩
        (data_buf_write (data_buf_create 8192) [1, 2, 3, 4, 5, 6, 7, 8]).1
        send_buf_init true 2).sent.map
      (fun r => (r.header_size, r.write_size, r.read_bytes)) =
      some (4, 8, [1, 2, 3, 4, 5, 6, 7, 8]) ∧
    (send_entropy_visit ⟨8, 0, false, 0, 5, (0, 0)⟩
        (data_buf_write (data_buf_create 8192) [1, 2, 3, 4, 5, 6, 7, 8]).1
        send_buf_init true 2).sent.map
      (fun r => (r.offered, r.accepted)) =
      some ([0, 0, 0, 8, 1, 2, 3, 4, 5, 6, 7, 8], [0, 0]) ∧
    (send_entropy_visit ⟨8, 0, false, 0, 5, (0, 0)⟩
        (data_buf_write (data_buf_create 8192) [1, 2, 3, 4, 5, 6, 7, 8]).1
        send_buf_init true 2).sent.map
      (fun r => (r.unread_call, r.unread_call.map (fun a => region r.buf a.1 a.2))) =
      some (some (2, 8), some [0, 8, 1, 2, 3, 4, 5, 6]) ∧
    (send_entropy_visit ⟨8, 0, false, 0, 5, (0, 0)⟩
        (data_buf_write (data_buf_create 8192) [1, 2, 3, 4, 5, 6, 7, 8]).1
        send_buf_init true 2).sent.map
      (fun r => region r.buf (r.header_size + 0) r.write_size) =
      some [1, 2, 3, 4, 5, 6, 7, 8] ∧
    contents (send_entropy_visit ⟨8, 0, false, 0, 5, (0, 0)⟩
        (data_buf_write (data_buf_create 8192) [1, 2, 3, 4, 5, 6, 7, 8]).1
        send_buf_init true 2).data_buf = [0, 8, 1, 2, 3, 4, 5, 6] := by
  decide

/-- C5 (defect in the code): a client requested 8 bytes and the first `send`
accepted the header and 5 payload bytes, so 3 bytes are pending and the pool
holds `[6,7,8]`.  The next visit is a payload continuation
(`header_size = 0`): it reads `[6,7,8]` into `send_buf[0 .. 3)`, `send`
fails, and `data_buf_unread` is handed `send_buf + HEADER_SIZE`, the stale
bytes `send_buf[4 .. 7) = [1,2,3]`.  The client counters are unchanged, but the
pool now holds `[1,2,3]` instead of `[6,7,8]`. -/
theorem failed_send_unreads_at_fixed_offset :
    (conn_run (conn_new 5 8192)
        [Event.ingest [1, 2, 3, 4, 5, 6, 7, 8], Event.request 8, Event.visit true 9]).map
      (fun k => (k.client, contents k.data_buf, k.send_buf.take 12)) =
      some (⟨0, 3, false, 0, 5, (0, 0)⟩, [6, 7, 8],
        [0, 0, 0, 8, 1, 2, 3, 4, 5, 6, 7, 8]) ∧
    (conn_run (conn_new 5 8192)
        [Event.ingest [1, 2, 3, 4, 5, 6, 7, 8], Event.request 8, Event.visit true 9]).map
      (fun k => (send_entropy_visit k.client k.data_buf k.send_buf true (-1)).sent.map
        (fun r => (r.header_size, r.write_size, r.read_bytes))) =
      some (some (0, 3, [6, 7, 8])) ∧
    (conn_run (conn_new 5 8192)
        [Event.ingest [1, 2, 3, 4, 5, 6, 7, 8], Event.request 8, Event.visit true 9]).map
      (fun k => (send_entropy_visit k.client k.data_buf k.send_buf true (-1)).sent.map
        (fun r => (r.unread_call, r.unread_call.map (fun a => region r.buf a.1 a.2),
          region r.buf r.header_size r.write_size))) =
      some (some (some (4, 3), some [1, 2, 3], [6, 7, 8])) ∧
    (conn_run (conn_new 5 8192)
        [Event.ingest [1, 2, 3, 4, 5, 6, 7, 8], Event.request 8, Event.visit true 9,
         Event.visit true (-1)]).map
      (fun k => (k.client, contents k.data_buf)) =
      some (⟨0, 3, false, 0, 5, (0, 0)⟩, [1, 2, 3]) := by
  refine ⟨by decide, by decide, by decide, by decide⟩

/-- C6 (defect in the code): capacity 8, valid state with `beg = 2`,
`size = 1` (`end = 3`); `data_buf_unread` of 4 bytes returns `k = 4` and
`size' = 5`, but sets `beg' = capacity - k = 4`, whereas moving `beg` back by
`k` with wrap-around gives `(2 + 8 - 4) mod 8 = 6`. -/
theorem unread_wrap_resets_beg_to_capacity_minus_k :
    Valid ⟨[3, 4, 5, 9, 9, 9, 1, 2], 8, 1, 2, 3⟩ ∧
    (data_buf_unread ⟨[3, 4, 5, 9, 9, 9, 1, 2], 8, 1, 2, 3⟩ [1, 2, 3, 4]).2 = 4 ∧
    (data_buf_unread ⟨[3, 4, 5, 9, 9, 9, 1, 2], 8, 1, 2, 3⟩ [1, 2, 3, 4]).1.size = 5 ∧
    (data_buf_unread ⟨[3, 4, 5, 9, 9, 9, 1, 2], 8, 1, 2, 3⟩ [1, 2, 3, 4]).1.beg_index = 4 ∧
    (2 + 8 - 4) % 8 = 6 ∧
    (data_buf_unread ⟨[3, 4, 5, 9, 9, 9, 1, 2], 8, 1, 2, 3⟩ [1, 2, 3, 4]).1.beg_index ≠
      (2 + 8 - 4) % 8 := by
  decide

/-! ## The ring buffer: write, read, unread (C7 to C10) -/

/-- C7: for a ring buffer with `beg < capacity` and `size ≤ capacity`,
`data_buf_unread` returns `k = min(n, capacity - size)` and a `data_buf_read`
of `k` bytes issued right afterwards returns `k` bytes, namely the last `k`
bytes of `data` in their original order. -/
theorem unread_then_read_returns_tail (buf : DataBuffer) (data : List Nat)
    (hlen : buf.buffer.length = buf.capacity) (hb : buf.beg_index < buf.capacity)
    (hs : buf.size ≤ buf.capacity) :
    (data_buf_unread buf data).2 = min data.length (buf.capacity - buf.size) ∧
    (data_buf_read (data_buf_unread buf data).1
        (min data.length (buf.capacity - buf.size))).2.2 =
      min data.length (buf.capacity - buf.size) ∧
    (data_buf_read (data_buf_unread buf data).1
        (min data.length (buf.capacity - buf.size))).2.1 =
      data.drop (data.length - min data.length (buf.capacity - buf.size)) := by
  refine ⟨data_buf_unread_count buf data, ?_, ?_⟩
  · rw [data_buf_read_count]
    by_cases hk : min data.length (buf.capacity - buf.size) = 0
    · rw [hk]; exact Nat.zero_min _
    · obtain ⟨_, _, h3, _, _⟩ := data_buf_unread_fields buf data hb hs hk
      rw [h3]; omega
  · by_cases hk : min data.length (buf.capacity - buf.size) = 0
    · have hd : data.drop (data.length - 0) = [] := by simp
      rw [hk, hd]; simp [data_buf_read]
    · obtain ⟨h1, _, h3, h4, h5⟩ := data_buf_unread_fields buf data hb hs hk
      have hdl : (data.drop (data.length - min data.length (buf.capacity - buf.size))).length =
          min data.length (buf.capacity - buf.size) := by
        rw [List.length_drop]; omega
      have hb2 : (data_buf_unread buf data).1.beg_index +
          min data.length (buf.capacity - buf.size) ≤ buf.capacity := by
        rw [h4]; split_ifs <;> omega
      have hlen2 : (data_buf_unread buf data).1.buffer.length = buf.capacity := by
        rw [h5, ← h4, memcpy_length _ _ _ (by rw [hdl, hlen]; exact hb2), hlen]
      rw [data_buf_read_bytes _ _ (by rw [hlen2, h1]) (by rw [h1]; omega) (by rw [h1, h3]; omega),
        h1, h3, Nat.min_eq_left (by omega),
        ← read_copy_eq _ _ _ _ hlen2 (by omega) (by omega), if_pos (by omega), h5, ← h4]
      have hr := region_memcpy_self buf.buffer
        (data.drop (data.length - min data.length (buf.capacity - buf.size)))
        (data_buf_unread buf data).1.beg_index (by rw [hlen]; omega)
      rw [hdl] at hr
      exact hr

/-- C7 at the scenarios of the specification: capacity 3, empty,
`unread("WXYZ", 4)` returns 3 and reading 3 bytes gives `"XYZ"`; capacity 4,
emptied after `write("WXYZ")` and a read of 4, `unread("WXYZ", 4)` returns 4
and reading 4 bytes gives `"WXYZ"`. -/
theorem unread_then_read_returns_tail_witness :
    ((data_buf_unread (data_buf_create 3) [87, 88, 89, 90]).2 = 3 ∧
     (data_buf_read (data_buf_unread (data_buf_create 3) [87, 88, 89, 90]).1 3).2.2 = 3 ∧
     (data_buf_read (data_buf_unread (data_buf_create 3) [87, 88, 89, 90]).1 3).2.1 =
       [88, 89, 90]) ∧
    ((data_buf_unread ⟨[87, 88, 89, 90], 4, 0, 0, 0⟩ [87, 88, 89, 90]).2 = 4 ∧
     (data_buf_read (data_buf_unread ⟨[87, 88, 89, 90], 4, 0, 0, 0⟩
        [87, 88, 89, 90]).1 4).2.2 = 4 ∧
     (data_buf_read (data_buf_unread ⟨[87, 88, 89, 90], 4, 0, 0, 0⟩
        [87, 88, 89, 90]).1 4).2.1 = [87, 88, 89, 90]) :=
  ⟨unread_then_read_returns_tail (data_buf_create 3) [87, 88, 89, 90] (by decide) (by decide)
    (by decide),
   unread_then_read_returns_tail ⟨[87, 88, 89, 90], 4, 0, 0, 0⟩ [87, 88, 89, 90] (by decide)
    (by decide) (by decide)⟩

/-- C8: for a ring buffer in a valid state (`capacity > 0`, `size ≤ capacity`,
`end = (beg + size) mod capacity`) and any `data`, `data_buf_write` returns
`k = min(|data|, capacity - size)`, the logical contents become the old
contents followed by the first `k` bytes of `data`, and the bytes that were
readable before are still the leading bytes (same `beg_index`, unchanged). -/
theorem write_appends_prefix (buf : DataBuffer) (data : List Nat)
    (hc : 0 < buf.capacity) (hlen : buf.buffer.length = buf.capacity)
    (hs : buf.size ≤ buf.capacity)
    (he : buf.end_index = (buf.beg_index + buf.size) % buf.capacity) :
    (data_buf_write buf data).2 = min data.length (buf.capacity - buf.size) ∧
    contents (data_buf_write buf data).1 =
      contents buf ++ data.take (min data.length (buf.capacity - buf.size)) ∧
    (data_buf_write buf data).1.beg_index = buf.beg_index ∧
    (data_buf_write buf data).1.size =
      buf.size + min data.length (buf.capacity - buf.size) ∧
    (contents (data_buf_write buf data).1).take buf.size = contents buf := by
  have hcont := data_buf_write_contents buf data hc hlen hs he
  refine ⟨data_buf_write_count buf data, hcont, ?_, ?_, ?_⟩
  · by_cases hd : data.length = 0
    · simp [data_buf_write, hd]
    · exact (data_buf_write_fields buf data hd (by rw [he]; exact Nat.mod_lt _ hc)).2.2.1
  · by_cases hd : data.length = 0
    · simp [data_buf_write, hd]
    · exact (data_buf_write_fields buf data hd (by rw [he]; exact Nat.mod_lt _ hc)).2.2.2.1
  · rw [hcont, List.take_left' (by simp [contents])]

/-- C8 at the second write of the wrap scenario: capacity 8, three bytes
`"DEF"` stored at indices 3..5, `write("GHIJK")` wraps, returns 5 and leaves
the contents `"DEFGHIJK"`. -/
theorem write_appends_prefix_witness :
    (data_buf_write ⟨[65, 66, 67, 68, 69, 70, 0, 0], 8, 3, 3, 6⟩ [71, 72, 73, 74, 75]).2 = 5 ∧
    contents (data_buf_write ⟨[65, 66, 67, 68, 69, 70, 0, 0], 8, 3, 3, 6⟩
        [71, 72, 73, 74, 75]).1 = [68, 69, 70] ++ [71, 72, 73, 74, 75] ∧
    (data_buf_write ⟨[65, 66, 67, 68, 69, 70, 0, 0], 8, 3, 3, 6⟩
        [71, 72, 73, 74, 75]).1.beg_index = 3 ∧
    (data_buf_write ⟨[65, 66, 67, 68, 69, 70, 0, 0], 8, 3, 3, 6⟩
        [71, 72, 73, 74, 75]).1.size = 8 ∧
    (contents (data_buf_write ⟨[65, 66, 67, 68, 69, 70, 0, 0], 8, 3, 3, 6⟩
        [71, 72, 73, 74, 75]).1).take 3 = [68, 69, 70] :=
  write_appends_prefix ⟨[65, 66, 67, 68, 69, 70, 0, 0], 8, 3, 3, 6⟩ [71, 72, 73, 74, 75]
    (by decide) (by decide) (by decide) (by decide)

/-- C9: for a ring buffer with `beg < capacity` and `size ≤ capacity` and any
`n`, `data_buf_read` returns `k = min(n, size)`, the output holds the first
`k` bytes of the logical contents in order, the logical contents become the
old contents without those `k` bytes, `beg' = (beg + k) mod capacity` and
`size' = size - k`. -/
theorem read_removes_prefix (buf : DataBuffer) (n : Nat)
    (hlen : buf.buffer.length = buf.capacity) (hb : buf.beg_index < buf.capacity)
    (hs : buf.size ≤ buf.capacity) :
    (data_buf_read buf n).2.2 = min n buf.size ∧
    (data_buf_read buf n).2.1 = (contents buf).take (min n buf.size) ∧
    contents (data_buf_read buf n).1 = (contents buf).drop (min n buf.size) ∧
    (data_buf_read buf n).1.beg_index = (buf.beg_index + min n buf.size) % buf.capacity ∧
    (data_buf_read buf n).1.size = buf.size - min n buf.size := by
  obtain ⟨_, _, _, h4, h5⟩ := data_buf_read_fields buf n hb hs
  refine ⟨data_buf_read_count buf n, ?_, data_buf_read_contents buf n hb hs, h5, h4⟩
  rw [data_buf_read_bytes buf n hlen hb hs, contents_eq_ringList,
    ringList_take _ _ _ _ _ (by omega)]

/-- C9 at the last read of the wrap scenario: capacity 8, full, `beg = 3`;
`read(8)` wraps, returns `"DEFGHIJK"` and leaves the buffer empty with
`beg = 3`. -/
theorem read_removes_prefix_witness :
    (data_buf_read ⟨[73, 74, 75, 68, 69, 70, 71, 72], 8, 8, 3, 3⟩ 8).2.2 = 8 ∧
    (data_buf_read ⟨[73, 74, 75, 68, 69, 70, 71, 72], 8, 8, 3, 3⟩ 8).2.1 =
      [68, 69, 70, 71, 72, 73, 74, 75] ∧
    contents (data_buf_read ⟨[73, 74, 75, 68, 69, 70, 71, 72], 8, 8, 3, 3⟩ 8).1 = [] ∧
    (data_buf_read ⟨[73, 74, 75, 68, 69, 70, 71, 72], 8, 8, 3, 3⟩ 8).1.beg_index = 3 ∧
    (data_buf_read ⟨[73, 74, 75, 68, 69, 70, 71, 72], 8, 8, 3, 3⟩ 8).1.size = 0 :=
  read_removes_prefix ⟨[73, 74, 75, 68, 69, 70, 71, 72], 8, 8, 3, 3⟩ 8 (by decide) (by decide)
    (by decide)

/-- C10: for every sequence of `data_buf_write` and `data_buf_read`
operations on a freshly created buffer of capacity `c > 0`, the bytes accepted
by the writes are the bytes returned by the reads followed by the bytes still
stored, so the reads return the leading bytes of what the writes accepted
(FIFO); and whenever the buffer is empty after such a sequence, `write(x)`
with `|x| ≤ c` followed by `read(|x|)` returns `x`. -/
theorem write_read_fifo (c : Nat) (hc : 0 < c) (ops : List Op) :
    (run_ops (data_buf_create c) ops).2.1 =
      (run_ops (data_buf_create c) ops).2.2 ++
        contents (run_ops (data_buf_create c) ops).1 ∧
    (run_ops (data_buf_create c) ops).2.2 =
      (run_ops (data_buf_create c) ops).2.1.take
        (run_ops (data_buf_create c) ops).2.2.length ∧
    ((run_ops (data_buf_create c) ops).1.size = 0 →
      ∀ x : List Nat, x.length ≤ c →
        (data_buf_write (run_ops (data_buf_create c) ops).1 x).2 = x.length ∧
        (data_buf_read (data_buf_write (run_ops (data_buf_create c) ops).1 x).1
          x.length).2.1 = x) := by
  have hv := data_buf_create_valid c hc
  have hb := run_ops_balance ops _ hv
  have hnil : contents (data_buf_create c) = [] := rfl
  rw [hnil, List.nil_append] at hb
  refine ⟨hb, ?_, ?_⟩
  · rw [hb, List.take_left' rfl]
  · intro h0 x hx
    obtain ⟨hv2, hcap⟩ := run_ops_valid ops _ hv
    exact write_read_roundtrip _ x hv2 h0 (by rw [hcap]; exact hx)

/-- C10 at the wrap scenario of the specification: capacity 8,
`write("ABCDEF")`, `read(3)`, `write("GHIJK")`, `read(8)`; afterwards the
buffer is empty (with `beg = 3`) and a write of `"LMNOPQ"`, which wraps,
is read back unchanged. -/
theorem write_read_fifo_witness :
    (run_ops (data_buf_create 8)
        [Op.write [65, 66, 67, 68, 69, 70], Op.read 3, Op.write [71, 72, 73, 74, 75],
         Op.read 8]).2.2 = [65, 66, 67, 68, 69, 70, 71, 72, 73, 74, 75] ∧
    (data_buf_read (data_buf_write (run_ops (data_buf_create 8)
        [Op.write [65, 66, 67, 68, 69, 70], Op.read 3, Op.write [71, 72, 73, 74, 75],
         Op.read 8]).1 [76, 77, 78, 79, 80, 81]).1 6).2.1 = [76, 77, 78, 79, 80, 81] :=
  ⟨(write_read_fifo 8 (by decide)
      [Op.write [65, 66, 67, 68, 69, 70], Op.read 3, Op.write [71, 72, 73, 74, 75],
       Op.read 8]).2.1,
   ((write_read_fifo 8 (by decide)
      [Op.write [65, 66, 67, 68, 69, 70], Op.read 3, Op.write [71, 72, 73, 74, 75],
       Op.read 8]).2.2 (by decide) [76, 77, 78, 79, 80, 81] (by decide)).2⟩

/-! ## Sizes and returned values of the ring buffer (C11) -/

theorem data_buf_write_size (buf : DataBuffer) (data : List Nat) :
    (data_buf_write buf data).1.size = buf.size + (data_buf_write buf data).2 ∧
    (data_buf_write buf data).2 ≤ buf.capacity - buf.size := by
  rw [data_buf_write_count]
  by_cases hd : data.length = 0
  · simp [data_buf_write, hd]
  · simp only [data_buf_write, hd, if_false, ite_gt_sub_eq_min]
    split_ifs <;> exact ⟨rfl, Nat.min_le_right _ _⟩

theorem data_buf_read_size (buf : DataBuffer) (n : Nat) :
    (data_buf_read buf n).1.size = buf.size - (data_buf_read buf n).2.2 ∧
    (data_buf_read buf n).2.2 ≤ buf.size := by
  rw [data_buf_read_count]
  by_cases hn : n = 0
  · simp [data_buf_read, hn]
  · simp only [data_buf_read, hn, if_false, ite_gt_eq_min]
    exact ⟨trivial, Nat.min_le_right _ _⟩

theorem data_buf_unread_size (buf : DataBuffer) (data : List Nat) :
    (data_buf_unread buf data).1.size = buf.size + (data_buf_unread buf data).2 ∧
    (data_buf_unread buf data).2 ≤ buf.capacity - buf.size := by
  rw [data_buf_unread_count]
  by_cases hd : data.length = 0
  · simp [data_buf_unread, hd]
  · simp only [data_buf_unread, hd, if_false, ite_gt_sub_eq_min]
    split_ifs with h1 h2 <;> first
      | exact ⟨rfl, Nat.min_le_right _ _⟩
      | (rw [h1]; exact ⟨rfl, Nat.zero_le _⟩)

theorem data_buf_unread_capacity (buf : DataBuffer) (data : List Nat) :
    (data_buf_unread buf data).1.capacity = buf.capacity := by
  unfold data_buf_unread
  simp only
  split_ifs <;> rfl

theorem buf_step_capacity (buf : DataBuffer) (op : BufOp) :
    (buf_step buf op).1.capacity = buf.capacity := by
  cases op with
  | write data => exact data_buf_write_capacity buf data
  | read n => exact data_buf_read_capacity buf n
  | unread data => exact data_buf_unread_capacity buf data

theorem buf_run_balance (ops : List BufOp) :
    ∀ buf : DataBuffer, buf.size ≤ buf.capacity →
      ((buf_run buf ops).size : Int) = (buf.size : Int) + buf_balance buf ops ∧
      (buf_run buf ops).size ≤ buf.capacity ∧
      (buf_run buf ops).capacity = buf.capacity := by
  induction ops with
  | nil => intro buf hs; simp [buf_run, buf_balance, hs]
  | cons op ops ih =>
    intro buf hs
    have hcap := buf_step_capacity buf op
    cases op with
    | write data =>
      obtain ⟨h1, h2⟩ := data_buf_write_size buf data
      obtain ⟨i1, i2, i3⟩ := ih (buf_step buf (BufOp.write data)).1
        (by simp only [buf_step] at hcap ⊢; omega)
      simp only [buf_run, buf_balance]
      simp only [buf_step] at hcap i1 i2 i3 ⊢
      refine ⟨by omega, by omega, by omega⟩
    | read n =>
      obtain ⟨h1, h2⟩ := data_buf_read_size buf n
      obtain ⟨i1, i2, i3⟩ := ih (buf_step buf (BufOp.read n)).1
        (by simp only [buf_step] at hcap ⊢; omega)
      simp only [buf_run, buf_balance]
      simp only [buf_step] at hcap i1 i2 i3 ⊢
      refine ⟨by omega, by omega, by omega⟩
    | unread data =>
      obtain ⟨h1, h2⟩ := data_buf_unread_size buf data
      obtain ⟨i1, i2, i3⟩ := ih (buf_step buf (BufOp.unread data)).1
        (by simp only [buf_step] at hcap ⊢; omega)
      simp only [buf_run, buf_balance]
      simp only [buf_step] at hcap i1 i2 i3 ⊢
      refine ⟨by omega, by omega, by omega⟩

/-- C11: for every sequence of write / read / unread operations on a buffer
created with capacity `c`, the size afterwards is the sum of the values
returned by the writes and the unreads minus the sum returned by the reads,
`size ≤ c` (after every operation, the sequence being arbitrary), and
`data_buf_available + data_buf_space = c`. -/
theorem size_is_balance_of_returns (c : Nat) (ops : List BufOp) :
    ((buf_run (data_buf_create c) ops).size : Int) = buf_balance (data_buf_create c) ops ∧
    (buf_run (data_buf_create c) ops).size ≤ c ∧
    data_buf_available (buf_run (data_buf_create c) ops) +
      data_buf_space (buf_run (data_buf_create c) ops) = c := by
  obtain ⟨h1, h2, h3⟩ := buf_run_balance ops (data_buf_create c) (Nat.zero_le _)
  have hc : (data_buf_create c).capacity = c := rfl
  have h0 : (data_buf_create c).size = 0 := rfl
  rw [hc] at h2 h3
  rw [h0] at h1
  refine ⟨by simpa using h1, h2, ?_⟩
  simp only [data_buf_available, data_buf_space, h3]
  omega

/-! ## The request phase (C12, C14, C15) -/

/-- C12: for a client with counter `old` that is neither in the error set
nor idle and whose `recv` returned the 4 bytes of a request `req` (both
`uint32_t`), the request phase removes the client if and only if
`old + req ≥ 2^32`; otherwise it stores `entropy_requested = old + req`
exactly, records `now`, and sets `keepalive_pending` when `req = 0`. -/
theorem request_evicts_iff_counter_overflows (env : RequestEnv) (c : Client) (req : Nat)
    (hold : c.entropy_requested < 4294967296) (hreq : req < 4294967296)
    (herr : c.socket ∉ env.errorfds) (hidle : idle_time env.now c.last_request < MAX_IDLE_TIME)
    (hread : c.socket ∈ env.readfds) (hst : (env.recv c.socket).status = 4)
    (hval : (env.recv c.socket).value = req) :
    ((request_client env c).1 = none ↔ c.entropy_requested + req ≥ 4294967296) ∧
    (c.entropy_requested + req < 4294967296 →
      (request_client env c).1 =
        some { c with entropy_requested := c.entropy_requested + req,
                      last_request := env.now,
                      keepalive_pending := if req = 0 then true else c.keepalive_pending }) := by
  have hnid : ¬ idle_time env.now c.last_request ≥ MAX_IDLE_TIME := not_le.mpr hidle
  have hrc : (request_client env c).1 = handle_request c req env.now := by
    simp [request_client, herr, hnid, hread, hst, hval]
  rw [hrc]
  unfold handle_request u32
  by_cases hov : c.entropy_requested + req ≥ 4294967296
  · have hlt : (req + c.entropy_requested) % 4294967296 < c.entropy_requested := by omega
    simp only [hlt, if_true, true_iff]
    exact ⟨hov, fun h => absurd h (by omega)⟩
  · have hlt : ¬ c.entropy_requested + req < c.entropy_requested := by omega
    have heq : (req + c.entropy_requested) % 4294967296 = c.entropy_requested + req := by omega
    simp only [heq, hlt, if_false]
    refine ⟨⟨fun h => ?_, fun h => absurd h hov⟩, fun _ => ?_⟩
    · split_ifs at h
    · split_ifs with h0
      · rfl
      · rfl

/-- C12 at concrete requests: `old = 2^32 - 16`, a request of 16 removes the
client, and a keep-alive request (0) on a zero counter is stored with
`keepalive_pending` set. -/
theorem request_evicts_iff_counter_overflows_witness :
    (((request_client ⟨[], [5], (10, 0), fun _ => ⟨4, false, 16⟩⟩
        ⟨4294967280, 0, false, 0, 5, (0, 0)⟩).1 = none ↔
      4294967280 + 16 ≥ 4294967296) ∧
     (4294967280 + 16 < 4294967296 →
      (request_client ⟨[], [5], (10, 0), fun _ => ⟨4, false, 16⟩⟩
        ⟨4294967280, 0, false, 0, 5, (0, 0)⟩).1 =
        some ⟨4294967280 + 16, 0, if 16 = 0 then true else false, 0, 5, (10, 0)⟩)) ∧
    (((request_client ⟨[], [5], (10, 0), fun _ => ⟨4, false, 0⟩⟩
        ⟨0, 0, false, 0, 5, (0, 0)⟩).1 = none ↔ 0 + 0 ≥ 4294967296) ∧
     (0 + 0 < 4294967296 →
      (request_client ⟨[], [5], (10, 0), fun _ => ⟨4, false, 0⟩⟩
        ⟨0, 0, false, 0, 5, (0, 0)⟩).1 = some ⟨0, 0, true, 0, 5, (10, 0)⟩)) :=
  ⟨request_evicts_iff_counter_overflows ⟨[], [5], (10, 0), fun _ => ⟨4, false, 16⟩⟩
      ⟨4294967280, 0, false, 0, 5, (0, 0)⟩ 16 (by decide) (by decide) (by decide) (by decide)
      (by decide) rfl rfl,
   request_evicts_iff_counter_overflows ⟨[], [5], (10, 0), fun _ => ⟨4, false, 0⟩⟩
      ⟨0, 0, false, 0, 5, (0, 0)⟩ 0 (by decide) (by decide) (by decide) (by decide)
      (by decide) rfl rfl⟩

/-- C14 (defect in the code): `last_request = (0 s, 500000000 ns)` and
`now = (30 s, 0 ns)`, an elapsed time of 29.5 s.  The nanosecond term
`(0 - 500000000) / 1000000000L` is 0 in C, so `idle_time = 30` and the
client is removed although less than 30 s have elapsed. -/
theorem idle_check_ignores_nanoseconds :
    idle_time (30, 0) (0, 500000000) = 30 ∧
    request_client ⟨[], [], (30, 0), fun _ => ⟨-1, true, 0⟩⟩
      ⟨0, 0, false, 0, 5, (0, 500000000)⟩ = (none, []) ∧
    ((30 : Int) - 0) * 1000000000 + (0 - 500000000) < 30 * 1000000000 := by
  decide

/-- C15 (defect in the code): a table of seven clients; sockets 10 to 15
are removed in one request phase, one for each reason (error set, idle,
`recv` returning 0, `recv` failing hard, a short request, counter
overflow), socket 16 stays.  The only calls made on the sockets are the
`recv` calls: no removed descriptor is closed.  A connection refused
because the table is full is closed, and the cleanup code closes the sockets
still in the table. -/
theorem evicted_sockets_are_not_closed :
    (request_phase
        ⟨[10], [12, 13, 14, 15, 16], (40, 0),
          fun sock =>
            if sock = 12 then ⟨0, false, 0⟩
            else if sock = 13 then ⟨-1, false, 0⟩
            else if sock = 14 then ⟨2, false, 0⟩
            else if sock = 15 then ⟨4, false, 1⟩
            else ⟨4, false, 7⟩⟩
        ⟨[⟨0, 0, false, 0, 10, (35, 0)⟩, ⟨0, 0, false, 0, 11, (5, 0)⟩,
          ⟨0, 0, false, 0, 12, (35, 0)⟩, ⟨0, 0, false, 0, 13, (35, 0)⟩,
          ⟨0, 0, false, 0, 14, (35, 0)⟩, ⟨4294967295, 0, false, 0, 15, (35, 0)⟩,
          ⟨0, 0, false, 0, 16, (35, 0)⟩], 512, 0⟩) =
      (⟨[⟨7, 0, false, 0, 16, (40, 0)⟩], 512, 0⟩,
       [Effect.recv 12, Effect.recv 13, Effect.recv 14, Effect.recv 15, Effect.recv 16]) ∧
    (accept_connection ⟨[⟨0, 0, false, 0, 16, (40, 0)⟩], 1, 0⟩ 17 false (41, 0)).2 =
      [Effect.close 17] ∧
    cleanup_clients ⟨[⟨7, 0, false, 0, 16, (40, 0)⟩], 512, 0⟩ = [Effect.close 16] := by
  decide

/-! ## The USB manager: enumeration and `quantis_usb_before_poll` (C17, C18) -/

/-- C17 (defect in the code): of three connected devices with readable
descriptors, a Quantis (`0x0aba:0x0102`), another product of the same vendor
(`0x0aba:0x0101`) and a foreign device (`0x1234:0x0102`),
`quantis_usb_enumerate` passes only the second one to
`quantis_usb_open_device`: the product test is `==` where the check of
`quantis_usb_open_device` has `!=`, so the Quantis is skipped. -/
theorem enumerate_skips_quantis_devices :
    quantis_usb_enumerate
        [⟨1, some (0x0aba, 0x0102)⟩, ⟨2, some (0x0aba, 0x0101)⟩, ⟨3, some (0x1234, 0x0102)⟩] =
      [⟨2, some (0x0aba, 0x0101)⟩] ∧
    open_device_ids_ok 0x0aba 0x0102 = true ∧
    open_device_ids_ok 0x0aba 0x0101 = false := by
  decide

theorem add_poll_fds_timeout (l : List (Int × Nat)) :
    ∀ a : PollArgs, (add_poll_fds l a).timeout = a.timeout := by
  induction l with
  | nil => intro a; rfl
  | cons p l ih =>
    intro a
    obtain ⟨fd, events⟩ := p
    simp only [add_poll_fds]
    rw [ih]
    split_ifs <;> rfl

/-- C18: for every engine state and every non-negative timeout passed to
`quantis_usb_before_poll`, the timeout on return is not higher than the one
passed (lexicographic order); it is the minimum of the passed timeout and the
engine's timeout `tv` when the engine reports one (so 0 when `tv` is zero) and
the passed timeout otherwise; and `usb_timeout_effective` is set exactly when
the timeout was changed to a non-zero `tv`. -/
theorem before_poll_timeout_is_min (ctx : UsbContext) (engine : Engine) (a : PollArgs)
    (hsec : 0 ≤ a.timeout.tv_sec) (husec : 0 ≤ a.timeout.tv_usec) :
    tv_le (quantis_usb_before_poll ctx engine a).2.2.timeout a.timeout ∧
    (quantis_usb_before_poll ctx engine a).2.2.timeout =
      (if engine.pollfds_handle_timeouts = false ∧ engine.next_timeout_status > 0
       then tv_min engine.tv a.timeout else a.timeout) ∧
    ((quantis_usb_before_poll ctx engine a).2.1.usb_timeout_effective = true ↔
      ((quantis_usb_before_poll ctx engine a).2.2.timeout ≠ a.timeout ∧
       (quantis_usb_before_poll ctx engine a).2.2.timeout = engine.tv ∧
       engine.tv ≠ ⟨0, 0⟩)) := by
  obtain ⟨nfds, rs, ws, es, ⟨ts, tu⟩⟩ := a
  obtain ⟨ht, st, ⟨vs, vu⟩⟩ := engine
  simp only at hsec husec
  unfold quantis_usb_before_poll tv_le tv_min
  simp only [add_poll_fds_timeout]
  by_cases h1 : ht = false
  · by_cases h2 : st < 0
    · have h2b : ¬ st > 0 := by omega
      simp [h1, h2, h2b]
    · by_cases h3 : st > 0
      · by_cases h4 : vs = 0 ∧ vu = 0
        · obtain ⟨h4a, h4b⟩ := h4
          subst h4a h4b
          simp only [h1, h2, h3, if_true, if_false, and_self, true_and, ne_eq]
          have hc : (0 : Int) < ts ∨ 0 = ts ∧ (0 : Int) ≤ tu := by omega
          simp only [hc, if_true, Timeval.mk.injEq, not_true_eq_false, and_false,
            Bool.false_eq_true]
          exact ⟨trivial, trivial, trivial⟩
        · by_cases h5 : vs < ts ∨ (vs = ts ∧ vu < tu)
          · have hc : vs < ts ∨ vs = ts ∧ vu ≤ tu := by omega
            have hne : ¬ (vs = ts ∧ vu = tu) := by omega
            simp only [h1, h2, h3, h4, h5, hc, if_true, if_false, add_poll_fds_timeout,
              Timeval.mk.injEq, ne_eq, hne, not_false_eq_true, and_self, true_and]
          · simp only [h1, h2, h3, h4, h5, if_true, if_false, add_poll_fds_timeout,
              Timeval.mk.injEq, ne_eq, true_and]
            refine ⟨by omega, ?_, ?_⟩
            · split_ifs with hc
              · have : vs = ts ∧ vu = tu := by omega
                rw [this.1, this.2]
              · rfl
            · simp
      · simp [h1, h2, h3, add_poll_fds_timeout]
  · simp [h1, add_poll_fds_timeout]

/-- C18 at concrete timeouts: passed 5 s; an engine timeout of 2.5 s lowers it
and sets the flag, an engine timeout of 0 gives 0 without the flag. -/
theorem before_poll_timeout_is_min_witness :
    ((quantis_usb_before_poll ⟨false, false, [(7, 1)]⟩ ⟨false, 1, ⟨2, 500000⟩⟩
        ⟨0, [], [], [], ⟨5, 0⟩⟩).2.2.timeout = ⟨2, 500000⟩ ∧
     (quantis_usb_before_poll ⟨false, false, [(7, 1)]⟩ ⟨false, 1, ⟨2, 500000⟩⟩
        ⟨0, [], [], [], ⟨5, 0⟩⟩).2.1.usb_timeout_effective = true) ∧
    ((quantis_usb_before_poll ⟨false, false, [(7, 1)]⟩ ⟨false, 1, ⟨0, 0⟩⟩
        ⟨0, [], [], [], ⟨5, 0⟩⟩).2.2.timeout = ⟨0, 0⟩ ∧
     (quantis_usb_before_poll ⟨false, false, [(7, 1)]⟩ ⟨false, 1, ⟨0, 0⟩⟩
        ⟨0, [], [], [], ⟨5, 0⟩⟩).2.1.usb_timeout_effective = false) :=
  ⟨⟨(before_poll_timeout_is_min ⟨false, false, [(7, 1)]⟩ ⟨false, 1, ⟨2, 500000⟩⟩
        ⟨0, [], [], [], ⟨5, 0⟩⟩ (by decide) (by decide)).2.1,
    (before_poll_timeout_is_min ⟨false, false, [(7, 1)]⟩ ⟨false, 1, ⟨2, 500000⟩⟩
        ⟨0, [], [], [], ⟨5, 0⟩⟩ (by decide) (by decide)).2.2.mpr (by decide)⟩,
   ⟨(before_poll_timeout_is_min ⟨false, false, [(7, 1)]⟩ ⟨false, 1, ⟨0, 0⟩⟩
        ⟨0, [], [], [], ⟨5, 0⟩⟩ (by decide) (by decide)).2.1,
    by decide⟩⟩

/-! ## Framing, fairness and the index invariant on concrete runs (C16
counterexample, C19, C20) -/

/-- C20 (defect in the code): capacity 8; write 6, read 6, write
`[1,2,3,4,5]`, read 4, unread `[1,2,3,4]` (here `beg = 2 < 4`, so `beg` becomes
`8 - 4 = 4` while `end = 3`, and `(4 + 5) mod 8 = 1`), read 5.  The buffer is
then empty with `beg_index = 1` and `end_index = 3`.  Same defect as C3 and
C6. -/
theorem empty_buffer_with_beg_different_from_end :
    buf_run (data_buf_create 8)
        [BufOp.write [9, 9, 9, 9, 9, 9], BufOp.read 6, BufOp.write [1, 2, 3, 4, 5],
         BufOp.read 4, BufOp.unread [1, 2, 3, 4]] =
      ⟨[3, 4, 5, 9, 1, 2, 3, 4], 8, 5, 4, 3⟩ ∧
    (4 + 5) % 8 ≠ 3 ∧
    buf_run (data_buf_create 8)
        [BufOp.write [9, 9, 9, 9, 9, 9], BufOp.read 6, BufOp.write [1, 2, 3, 4, 5],
         BufOp.read 4, BufOp.unread [1, 2, 3, 4], BufOp.read 5] =
      ⟨[3, 4, 5, 9, 1, 2, 3, 4], 8, 0, 1, 3⟩ := by
  decide

/-- C16 as stated fails: two clients with a standing request of 4 bytes each,
no frame in progress, writable sockets that accept everything, cursor at 0
and a pool holding the 3 bytes `[1,2,3]`.  The sweep sends the first client
a frame with all 3 bytes; the second client finds the pool empty and is sent
nothing. -/
theorem first_client_drains_the_pool :
    (send_entropy ⟨[5, 6], fun _ bytes => bytes.length⟩
        ⟨⟨[⟨4, 0, false, 0, 5, (0, 0)⟩, ⟨4, 0, false, 0, 6, (0, 0)⟩], 512, 0⟩,
         (data_buf_write (data_buf_create 8192) [1, 2, 3]).1, send_buf_init⟩).2.map
      (fun e => (e.index, e.available, e.sent.map (fun r => r.accepted))) =
      [(0, 3, some [0, 0, 0, 3, 1, 2, 3]), (1, 0, none)] := by
  decide

/-! ## A fresh frame whose bytes are all accepted (C13, C16) -/

theorem clamp_write_size_eq (req avail : Nat) (h : req + 4 < 4294967296) :
    clamp_write_size req HEADER_SIZE avail = min (min req 65532) avail := by
  unfold clamp_write_size u32 u32_sub HEADER_SIZE MAX_FRAME_SIZE
  simp only
  split_ifs <;> omega

theorem htonl_bytes_length (v : Nat) : (htonl_bytes v).length = 4 := rfl

/-- The bytes offered for a fresh frame: the header followed by the bytes read. -/
theorem offered_fresh_frame (sb hdr bytes : List Nat) (hh : hdr.length = 4)
    (hl : 4 + bytes.length ≤ sb.length) :
    region (memcpy (memcpy sb 4 bytes) 0 hdr) 0 (bytes.length + 4) = hdr ++ bytes := by
  have hm : (memcpy sb 4 bytes).length = sb.length := memcpy_length _ _ _ hl
  apply List.ext_getElem?
  intro i
  rw [region_getElem?, memcpy_getElem? _ _ _ _ (Nat.zero_le _), hh, List.getElem?_append, hh,
    memcpy_getElem? _ _ _ _ (by omega)]
  simp only [Nat.zero_add, Nat.not_lt_zero, if_false, Nat.sub_zero]
  by_cases h1 : i < 4
  · have h2 : i < bytes.length + 4 := by omega
    simp only [h1, h2, if_true]
  · by_cases h2 : i < bytes.length + 4
    · have h3 : i < 4 + bytes.length := by omega
      simp only [h1, h2, h3, if_true, if_false]
    · simp only [h1, h2, if_false]
      exact (List.getElem?_eq_none (by omega)).symm

theorem region_zero_length_self (l : List Nat) : region l 0 l.length = l := by
  simp [region]

theorem memcpy_memcpy_length (sb hdr bytes : List Nat) (hh : hdr.length = 4)
    (hl : 4 + bytes.length ≤ sb.length) :
    (memcpy (memcpy sb 4 bytes) 0 hdr).length = sb.length := by
  have hm : (memcpy sb 4 bytes).length = sb.length := memcpy_length _ _ _ hl
  rw [memcpy_length _ _ _ (by omega), hm]

theorem account_sent_fresh_all (c : Client) (w : Nat)
    (hr : c.entropy_requested + 4 < 4294967296) (hw : w ≤ c.entropy_requested) :
    account_sent c HEADER_SIZE w ((w + 4 : Nat) : Int) =
      ({ c with keepalive_pending := false, header_bytes_pending := 0,
                entropy_requested := c.entropy_requested - w, entropy_pending := 0 }, w) := by
  have h1 : ¬ (((w + 4 : Nat) : Int) < ((HEADER_SIZE : Nat) : Int)) := by
    unfold HEADER_SIZE; omega
  have h2 : u32_sub (u32_of_int ((w + 4 : Nat) : Int)) HEADER_SIZE = w := by
    unfold u32_sub u32_of_int HEADER_SIZE; omega
  have h3 : u32_sub c.entropy_requested w = c.entropy_requested - w := by
    unfold u32_sub; omega
  have h4 : u32_sub w w = 0 := by unfold u32_sub; omega
  unfold account_sent
  simp only [h1, if_false, if_true, h2, h3, h4]

/-- A fresh frame whose `send` accepts everything offered: the header and the
bytes read are accepted, nothing is pushed back, and the bytes are charged to
`entropy_requested`. -/
theorem visit_fresh_all_accepted (c : Client) (db : DataBuffer) (sb : List Nat)
    (hh : c.header_bytes_pending = 0) (hp : c.entropy_pending = 0)
    (hk : ¬ (c.entropy_requested = 0 ∧ c.keepalive_pending = false))
    (hr : c.entropy_requested + 4 < 4294967296)
    (hgo : ¬ (c.keepalive_pending = false ∧ data_buf_available db = 0))
    (w : Nat) (hw : w = min (min c.entropy_requested 65532) (data_buf_available db))
    (hrl : (data_buf_read db w).2.1.length = w) (hrc : (data_buf_read db w).2.2 = w)
    (hsb : 4 + w ≤ sb.length) :
    (∀ s : Int, ∃ r, (send_entropy_visit c db sb true s).sent = some r ∧
      r.offered = htonl_bytes w ++ (data_buf_read db w).2.1) ∧
    send_entropy_visit c db sb true ((w + 4 : Nat) : Int) =
      ⟨{ c with keepalive_pending := false, header_bytes_pending := 0,
                entropy_requested := c.entropy_requested - w, entropy_pending := 0 },
       (data_buf_read db w).1,
       memcpy (memcpy sb HEADER_SIZE (data_buf_read db w).2.1) 0 (htonl_bytes w),
       some ⟨HEADER_SIZE, w, (data_buf_read db w).2.1,
         memcpy (memcpy sb HEADER_SIZE (data_buf_read db w).2.1) 0 (htonl_bytes w),
         htonl_bytes w ++ (data_buf_read db w).2.1, ((w + 4 : Nat) : Int),
         htonl_bytes w ++ (data_buf_read db w).2.1, none⟩⟩ := by
  have hfa : frame_action c = some (HEADER_SIZE, c.entropy_requested) := by
    simp [frame_action, hh, hp, hk]
  have hcl : clamp_write_size c.entropy_requested HEADER_SIZE (data_buf_available db) = w := by
    rw [clamp_write_size_eq _ _ hr, hw]
  have hw32 : u32 w = w := by unfold u32; omega
  have hw4 : u32 (w + HEADER_SIZE) = w + 4 := by unfold u32 HEADER_SIZE; omega
  have hH : HEADER_SIZE ≠ 0 := by decide
  have hoff : region (memcpy (memcpy sb HEADER_SIZE (data_buf_read db w).2.1) 0
      (htonl_bytes w)) 0 (w + 4) = htonl_bytes w ++ (data_buf_read db w).2.1 := by
    have := offered_fresh_frame sb (htonl_bytes w) (data_buf_read db w).2.1 rfl
      (by rw [hrl]; exact hsb)
    rw [hrl] at this
    exact this
  have hol : (htonl_bytes w ++ (data_buf_read db w).2.1).length = w + 4 := by
    rw [List.length_append, hrl, htonl_bytes_length]; omega
  constructor
  · intro s
    unfold send_entropy_visit
    rw [if_neg hgo]
    simp only [hfa, hcl, hrc, hw32, hw4, hH, hh, ne_eq, not_false_eq_true, if_true,
      Bool.true_eq_false, if_false, hoff]
    split_ifs <;> exact ⟨_, rfl, rfl⟩
  · unfold send_entropy_visit
    rw [if_neg hgo]
    have hge : ((w + 4 : Nat) : Int) ≥ 0 := Int.ofNat_nonneg _
    have hacc := account_sent_fresh_all c w hr (by omega)
    have hnl : ¬ w < w := Nat.lt_irrefl w
    have htn : (((w + 4 : Nat) : Int)).toNat = w + 4 := Int.toNat_ofNat _
    have hreg : region (htonl_bytes w ++ (data_buf_read db w).2.1) 0 (w + 4) =
        htonl_bytes w ++ (data_buf_read db w).2.1 := by
      rw [← hol]; exact region_zero_length_self _
    simp only [hfa, hcl, hrc, hw32, hw4, hH, hh, ne_eq, not_false_eq_true, if_true,
      Bool.true_eq_false, if_false, hoff, hge, hacc, hnl, htn, hreg]

theorem send_buf_init_length : send_buf_init.length = 65536 := by
  unfold send_buf_init MAX_FRAME_SIZE
  exact List.length_replicate _ _

theorem visit_on_fresh_all_accepted (c : Client) (db : DataBuffer) (sb : List Nat)
    (send : List Nat → Int) (hsend : ∀ bytes, send bytes = (bytes.length : Int))
    (hh : c.header_bytes_pending = 0) (hp : c.entropy_pending = 0)
    (hk : ¬ (c.entropy_requested = 0 ∧ c.keepalive_pending = false))
    (hr : c.entropy_requested + 4 < 4294967296)
    (hgo : ¬ (c.keepalive_pending = false ∧ data_buf_available db = 0))
    (w : Nat) (hw : w = min (min c.entropy_requested 65532) (data_buf_available db))
    (hrl : (data_buf_read db w).2.1.length = w) (hrc : (data_buf_read db w).2.2 = w)
    (hsb : 4 + w ≤ sb.length) :
    send_entropy_visit_on c db sb true send =
      ⟨{ c with keepalive_pending := false, header_bytes_pending := 0,
                entropy_requested := c.entropy_requested - w, entropy_pending := 0 },
       (data_buf_read db w).1,
       memcpy (memcpy sb HEADER_SIZE (data_buf_read db w).2.1) 0 (htonl_bytes w),
       some ⟨HEADER_SIZE, w, (data_buf_read db w).2.1,
         memcpy (memcpy sb HEADER_SIZE (data_buf_read db w).2.1) 0 (htonl_bytes w),
         htonl_bytes w ++ (data_buf_read db w).2.1, ((w + 4 : Nat) : Int),
         htonl_bytes w ++ (data_buf_read db w).2.1, none⟩⟩ := by
  obtain ⟨hprobe, hfin⟩ := visit_fresh_all_accepted c db sb hh hp hk hr hgo w hw hrl hrc hsb
  obtain ⟨r0, hr0, hoff0⟩ := hprobe 0
  have hol : (htonl_bytes w ++ (data_buf_read db w).2.1).length = w + 4 := by
    rw [List.length_append, hrl, htonl_bytes_length]; omega
  unfold send_entropy_visit_on
  rw [hr0]
  simp only
  rw [hsend, hoff0, hol]
  exact hfin

theorem visit_on_skip (c : Client) (db : DataBuffer) (sb : List Nat) (writable : Bool)
    (send : List Nat → Int)
    (h : (c.keepalive_pending = false ∧ data_buf_available db = 0) ∨ frame_action c = none) :
    send_entropy_visit_on c db sb writable send = ⟨c, db, sb, none⟩ := by
  have h0 : send_entropy_visit c db sb writable 0 = ⟨c, db, sb, none⟩ := by
    unfold send_entropy_visit
    by_cases hgo : c.keepalive_pending = false ∧ data_buf_available db = 0
    · rw [if_pos hgo]
    · rw [if_neg hgo]
      have hfa : frame_action c = none := h.resolve_left hgo
      simp only [hfa]
  unfold send_entropy_visit_on
  rw [h0]

/-- C13: a client with no frame in progress, `entropy_requested = 0` and
`keepalive_pending` set, whose socket is writable and accepts every byte
offered, is sent exactly the 4 bytes `00 00 00 00` in one visit, whatever the
pool holds; the visit clears `keepalive_pending`, leaves the other counters
and the pool unchanged, and a further visit (writable or not, whatever `send`
would return) makes no `send` call and changes nothing. -/
theorem keepalive_answered_once (sock : Int) (last_request : Int × Int) (db : DataBuffer)
    (sb : List Nat) (send : List Nat → Int)
    (hsend : ∀ bytes, send bytes = (bytes.length : Int)) (hsb : 4 ≤ sb.length) :
    (send_entropy_visit_on ⟨0, 0, true, 0, sock, last_request⟩ db sb true send).sent.map
        (fun r => r.accepted) = some [0, 0, 0, 0] ∧
    (send_entropy_visit_on ⟨0, 0, true, 0, sock, last_request⟩ db sb true send).client =
      ⟨0, 0, false, 0, sock, last_request⟩ ∧
    (send_entropy_visit_on ⟨0, 0, true, 0, sock, last_request⟩ db sb true send).data_buf = db ∧
    (∀ (writable : Bool) (send2 : List Nat → Int),
      send_entropy_visit_on
        (send_entropy_visit_on ⟨0, 0, true, 0, sock, last_request⟩ db sb true send).client
        (send_entropy_visit_on ⟨0, 0, true, 0, sock, last_request⟩ db sb true send).data_buf
        (send_entropy_visit_on ⟨0, 0, true, 0, sock, last_request⟩ db sb true send).send_buf
        writable send2 =
      ⟨⟨0, 0, false, 0, sock, last_request⟩, db,
        (send_entropy_visit_on ⟨0, 0, true, 0, sock, last_request⟩ db sb true send).send_buf,
        none⟩) := by
  have hv := visit_on_fresh_all_accepted ⟨0, 0, true, 0, sock, last_request⟩ db sb send hsend
    rfl rfl (by simp) (by simp) (by simp) 0 (by simp) (by simp [data_buf_read])
    (by simp [data_buf_read]) (by omega)
  have hrd : data_buf_read db 0 = (db, [], 0) := by simp [data_buf_read]
  rw [hv, hrd]
  refine ⟨by simp [htonl_bytes], rfl, rfl, ?_⟩
  intro writable send2
  exact visit_on_skip _ _ _ _ _ (Or.inr (by simp [frame_action]))

/-- C13 at the start of the program: empty pool of capacity 8192, zeroed
`send_buf`, a socket that accepts everything. -/
theorem keepalive_answered_once_witness :
    (send_entropy_visit_on ⟨0, 0, true, 0, 5, (0, 0)⟩ (data_buf_create 8192) send_buf_init true
        (fun bytes => bytes.length)).sent.map (fun r => r.accepted) = some [0, 0, 0, 0] ∧
    (send_entropy_visit_on ⟨0, 0, true, 0, 5, (0, 0)⟩ (data_buf_create 8192) send_buf_init true
        (fun bytes => bytes.length)).client = ⟨0, 0, false, 0, 5, (0, 0)⟩ :=
  ⟨(keepalive_answered_once 5 (0, 0) (data_buf_create 8192) send_buf_init
      (fun bytes => bytes.length) (fun _ => rfl)
      (by rw [send_buf_init_length]; decide)).1,
   (keepalive_answered_once 5 (0, 0) (data_buf_create 8192) send_buf_init
      (fun bytes => bytes.length) (fun _ => rfl)
      (by rw [send_buf_init_length]; decide)).2.1⟩

/-! ## One sweep over clients with standing requests (C16) -/

/-- One visit of a client with a standing request whose socket is writable
and accepts everything: the pool stays valid, loses at most `M` bytes where
`M` bounds the payload of the client, and the client is sent a frame with a
non-empty payload if the pool was not empty. -/
theorem visit_standing (c : Client) (db : DataBuffer) (sb : List Nat) (send : List Nat → Int)
    (M : Nat) (hsend : ∀ bytes, send bytes = (bytes.length : Int))
    (hh : c.header_bytes_pending = 0) (hp : c.entropy_pending = 0)
    (h1 : 1 ≤ c.entropy_requested) (hr : c.entropy_requested + 4 < 4294967296)
    (hM : min c.entropy_requested 65532 ≤ M)
    (hv : Readable db) (hsb : sb.length = 65536) :
    Readable (send_entropy_visit_on c db sb true send).data_buf ∧
    (send_entropy_visit_on c db sb true send).send_buf.length = 65536 ∧
    db.size ≤ (send_entropy_visit_on c db sb true send).data_buf.size + M ∧
    (1 ≤ db.size →
      frame_with_payload ⟨0, c.socket, db.size,
        (send_entropy_visit_on c db sb true send).sent⟩ = true) := by
  obtain ⟨hlen, hs, hb⟩ := hv
  by_cases hgo : c.keepalive_pending = false ∧ data_buf_available db = 0
  · rw [visit_on_skip c db sb true send (Or.inl hgo)]
    refine ⟨⟨hlen, hs, hb⟩, hsb, Nat.le_add_right _ _, fun h => ?_⟩
    have := hgo.2
    unfold data_buf_available at this
    omega
  · have hw : min (min c.entropy_requested 65532) (data_buf_available db) ≤ db.size := by
      unfold data_buf_available; omega
    have hcount := data_buf_read_count db (min (min c.entropy_requested 65532)
      (data_buf_available db))
    rw [Nat.min_eq_left hw] at hcount
    have hbytes := data_buf_read_bytes db (min (min c.entropy_requested 65532)
      (data_buf_available db)) hlen hb hs
    have hbl : (data_buf_read db (min (min c.entropy_requested 65532)
        (data_buf_available db))).2.1.length =
        min (min c.entropy_requested 65532) (data_buf_available db) := by
      rw [hbytes, ringList_length, Nat.min_eq_left hw]
    rw [visit_on_fresh_all_accepted c db sb send hsend hh hp (by omega) hr hgo _ rfl hbl hcount
      (by omega)]
    obtain ⟨f1, f2, _, f4, f5⟩ := data_buf_read_fields db
      (min (min c.entropy_requested 65532) (data_buf_available db)) hb hs
    refine ⟨?_, ?_, ?_, fun h => ?_⟩
    · show Readable (data_buf_read db _).1
      refine ⟨by rw [f1, f2]; exact hlen, by rw [f4, f2]; omega, ?_⟩
      rw [f5, f2]
      exact Nat.mod_lt _ (by omega)
    · show (memcpy (memcpy sb HEADER_SIZE _) 0 (htonl_bytes _)).length = 65536
      have := memcpy_memcpy_length sb (htonl_bytes (min (min c.entropy_requested 65532)
        (data_buf_available db))) (data_buf_read db (min (min c.entropy_requested 65532)
        (data_buf_available db))).2.1 rfl (by rw [hbl]; omega)
      rw [← hsb]
      exact this
    · show db.size ≤ (data_buf_read db _).1.size + M
      rw [f4]
      unfold data_buf_available
      omega
    · simp only [frame_with_payload, hbl, decide_eq_true_eq, true_and]
      unfold data_buf_available
      omega

theorem receiver_advance_index (t : Table) (N : Nat) (hN : t.clients.length = N)
    (hmax : N ≤ 512) (h0 : 0 ≤ t.receiver_index) (h1 : t.receiver_index.toNat < N) :
    (receiver_advance t).clients = t.clients ∧
    (receiver_advance t).client_sockets_length = t.client_sockets_length ∧
    0 ≤ (receiver_advance t).receiver_index ∧
    (receiver_advance t).receiver_index.toNat = (t.receiver_index.toNat + 1) % N := by
  have hm := mod_wrap_cases (a := t.receiver_index.toNat + 1) (c := N) (by omega)
  unfold receiver_advance to_size_t
  split_ifs with h
  · refine ⟨rfl, rfl, le_refl _, ?_⟩
    show (0 : Int).toNat = _
    rw [hN] at h
    simp only [Int.toNat_zero]
    omega
  · refine ⟨rfl, rfl, ?_, ?_⟩
    · show 0 ≤ t.receiver_index + 1
      omega
    · show (t.receiver_index + 1).toNat = _
      rw [hN] at h
      omega

theorem cyclic_next_index (cur i N : Nat) :
    ((cur + 1) % N + i) % N = (cur + (i + 1)) % N := by
  rw [Nat.mod_add_mod]
  congr 1
  omega

theorem cyclic_index_ne (cur d N : Nat) (hc : cur < N) (h0 : 0 < d) (hd : d < N) :
    (cur + d) % N ≠ cur := by
  have hm := mod_wrap_cases (a := cur + d) (c := N) (by omega)
  omega

/-- The loop of `send_entropy` over clients with standing requests: the
iteration `j` visits index `(cur + j) mod N`, finds at least
`size - j * M` bytes in the pool and, when it finds the pool non-empty,
sends a frame with a non-empty payload. -/
theorem sweep_loop_serves (env : SendEnv) (M N : Nat) (hmax : N ≤ 512)
    (hsend : ∀ sock bytes, env.send sock bytes = (bytes.length : Int)) :
    ∀ (n : Nat) (s : Server),
      s.table.clients.length = N → 0 ≤ s.table.receiver_index →
      s.table.receiver_index.toNat < N → n ≤ N →
      (∀ i, i < n → ∀ c, s.table.clients[(s.table.receiver_index.toNat + i) % N]? = some c →
        c.header_bytes_pending = 0 ∧ c.entropy_pending = 0 ∧ 1 ≤ c.entropy_requested ∧
        c.entropy_requested + 4 < 4294967296 ∧ min c.entropy_requested 65532 ≤ M ∧
        c.socket ∈ env.writefds) →
      Readable s.data_buf → s.send_buf.length = 65536 →
      (send_entropy_loop env n s).2.length = n ∧
      ∀ j e, (send_entropy_loop env n s).2[j]? = some e →
        e.index = (s.table.receiver_index.toNat + j) % N ∧
        (1 ≤ e.available → frame_with_payload e = true) ∧
        s.data_buf.size ≤ e.available + j * M := by
  intro n
  induction n with
  | zero =>
    intro s _ _ _ _ _ _ _
    refine ⟨rfl, ?_⟩
    intro j e h
    simp [send_entropy_loop] at h
  | succ n ih =>
    intro s hN h0 h1 hn hP hv hsb
    have hcur : s.table.receiver_index.toNat < s.table.clients.length := by rw [hN]; exact h1
    have hget : s.table.clients[s.table.receiver_index.toNat]? =
        some (s.table.clients[s.table.receiver_index.toNat]) := List.getElem?_eq_getElem hcur
    generalize hcdef : s.table.clients[s.table.receiver_index.toNat] = c at hget
    obtain ⟨p1, p2, p3, p4, p5, p6⟩ := hP 0 (Nat.succ_pos n) c
      (by rw [Nat.add_zero, Nat.mod_eq_of_lt h1]; exact hget)
    have hdec : decide (c.socket ∈ env.writefds) = true := decide_eq_true p6
    obtain ⟨v1, v2, v3, v4⟩ := visit_standing c s.data_buf s.send_buf (env.send c.socket) M
      (hsend c.socket) p1 p2 p3 p4 p5 hv hsb
    obtain ⟨a1, _, a3, a4⟩ := receiver_advance_index
      { s.table with clients := (s.table.clients.set s.table.receiver_index.toNat
          (send_entropy_visit_on c s.data_buf s.send_buf true (env.send c.socket)).client) }
      N (by simp only [List.length_set]; exact hN) hmax h0 h1
    have hloop : send_entropy_loop env (n + 1) s =
        ((send_entropy_loop env n
          { table := receiver_advance { s.table with clients :=
              (s.table.clients.set s.table.receiver_index.toNat
                (send_entropy_visit_on c s.data_buf s.send_buf true (env.send c.socket)).client) },
            data_buf := (send_entropy_visit_on c s.data_buf s.send_buf true
              (env.send c.socket)).data_buf,
            send_buf := (send_entropy_visit_on c s.data_buf s.send_buf true
              (env.send c.socket)).send_buf }).1,
         ⟨s.table.receiver_index.toNat, c.socket, data_buf_available s.data_buf,
           (send_entropy_visit_on c s.data_buf s.send_buf true (env.send c.socket)).sent⟩ ::
          (send_entropy_loop env n
          { table := receiver_advance { s.table with clients :=
              (s.table.clients.set s.table.receiver_index.toNat
                (send_entropy_visit_on c s.data_buf s.send_buf true (env.send c.socket)).client) },
            data_buf := (send_entropy_visit_on c s.data_buf s.send_buf true
              (env.send c.socket)).data_buf,
            send_buf := (send_entropy_visit_on c s.data_buf s.send_buf true
              (env.send c.socket)).send_buf }).2) := by
      rw [send_entropy_loop, hget]
      simp only [hdec]
    have hTc : ({ s.table with clients := (s.table.clients.set s.table.receiver_index.toNat
          (send_entropy_visit_on c s.data_buf s.send_buf true (env.send c.socket)).client) }
          : Table).clients = s.table.clients.set s.table.receiver_index.toNat
          (send_entropy_visit_on c s.data_buf s.send_buf true (env.send c.socket)).client := rfl
    have hTr : ({ s.table with clients := (s.table.clients.set s.table.receiver_index.toNat
          (send_entropy_visit_on c s.data_buf s.send_buf true (env.send c.socket)).client) }
          : Table).receiver_index = s.table.receiver_index := rfl
    generalize ({ s.table with clients := (s.table.clients.set s.table.receiver_index.toNat
          (send_entropy_visit_on c s.data_buf s.send_buf true (env.send c.socket)).client) }
          : Table) = T at a1 a3 a4 hloop hTc hTr
    generalize send_entropy_visit_on c s.data_buf s.send_buf true (env.send c.socket) = v
      at v1 v2 v3 v4 hloop hTc
    rw [hTr] at a4
    have hlen2 : (receiver_advance T).clients.length = N := by
      rw [a1, hTc, List.length_set]; exact hN
    have hlt2 : (receiver_advance T).receiver_index.toNat < N := by
      rw [a4]; exact Nat.mod_lt _ (by omega)
    have hP2 : ∀ i, i < n → ∀ c2,
        (receiver_advance T).clients[((receiver_advance T).receiver_index.toNat + i) % N]? =
          some c2 →
        c2.header_bytes_pending = 0 ∧ c2.entropy_pending = 0 ∧ 1 ≤ c2.entropy_requested ∧
        c2.entropy_requested + 4 < 4294967296 ∧ min c2.entropy_requested 65532 ≤ M ∧
        c2.socket ∈ env.writefds := by
      intro i hi c2 hc2
      rw [a4, cyclic_next_index, a1, hTc, List.getElem?_set,
        if_neg (Ne.symm (cyclic_index_ne _ _ _ h1 (by omega) (by omega)))] at hc2
      exact hP (i + 1) (by omega) c2 hc2
    obtain ⟨i1, i2⟩ := ih ⟨receiver_advance T, v.data_buf, v.send_buf⟩ hlen2 a3 hlt2 (by omega)
      hP2 v1 v2
    rw [hloop]
    refine ⟨by simp only [List.length_cons, i1], ?_⟩
    intro j e hje
    cases j with
    | zero =>
      simp only [List.getElem?_cons_zero, Option.some.injEq] at hje
      subst hje
      refine ⟨by rw [Nat.add_zero, Nat.mod_eq_of_lt h1], ?_, ?_⟩
      · intro hav
        exact v4 hav
      · show s.data_buf.size ≤ data_buf_available s.data_buf + 0 * M
        unfold data_buf_available
        omega
    | succ j =>
      simp only [List.getElem?_cons_succ] at hje
      obtain ⟨e1, e2, e3⟩ := i2 j e hje
      have e1b : e.index = ((receiver_advance T).receiver_index.toNat + j) % N := e1
      have e3b : v.data_buf.size ≤ e.available + j * M := e3
      rw [a4, cyclic_next_index] at e1b
      refine ⟨e1b, e2, ?_⟩
      have : (j + 1) * M = j * M + M := by ring
      omega

theorem valid_readable {buf : DataBuffer} (h : Valid buf) : Readable buf :=
  ⟨h.2.1, h.2.2.1, h.2.2.2.1⟩

theorem cyclic_index_surj (cur i N : Nat) (hc : cur < N) (hi : i < N) :
    ∃ j, j < N ∧ (cur + j) % N = i := by
  by_cases h : cur ≤ i
  · refine ⟨i - cur, by omega, ?_⟩
    have hm := mod_wrap_cases (a := cur + (i - cur)) (c := N) (by omega)
    omega
  · refine ⟨i + N - cur, by omega, ?_⟩
    have hm := mod_wrap_cases (a := cur + (i + N - cur)) (c := N) (by omega)
    omega

/-- C16 (amended): for every table of `N ≥ 1` clients (at most `MAX_CLIENTS`)
that each have a standing request of at least `F ≥ 1` bytes (below
`2^32 - 4`), no frame in progress and a writable socket that accepts every
byte offered, with a pool that can be read (`size ≤ capacity`,
`beg_index < capacity`), one call of `send_entropy`
makes `N` visits, visits every index, and every client whose visit finds the
pool non-empty is sent one frame with a non-empty payload; every client is,
when the pool holds more than `(N - 1) * M` bytes at the start, `M` being a
bound on what one client can be sent (`min(request, 65532) ≤ M`). -/
theorem sweep_serves_clients_that_find_bytes (env : SendEnv) (s : Server) (F M : Nat)
    (hF : 1 ≤ F) (hN : 1 ≤ s.table.clients.length)
    (hmax : s.table.clients.length ≤ MAX_CLIENTS)
    (hr0 : 0 ≤ s.table.receiver_index)
    (hr1 : s.table.receiver_index.toNat < s.table.clients.length)
    (hst : ∀ c ∈ s.table.clients,
      c.header_bytes_pending = 0 ∧ c.entropy_pending = 0 ∧ F ≤ c.entropy_requested ∧
      c.entropy_requested + 4 < 4294967296 ∧ min c.entropy_requested 65532 ≤ M ∧
      c.socket ∈ env.writefds)
    (hsend : ∀ sock bytes, env.send sock bytes = (bytes.length : Int))
    (hv : Readable s.data_buf) (hsb : s.send_buf.length = MAX_FRAME_SIZE) :
    (send_entropy env s).2.length = s.table.clients.length ∧
    (∀ i, i < s.table.clients.length →
      ∃ e ∈ (send_entropy env s).2,
        e.index = i ∧ (1 ≤ e.available → frame_with_payload e = true)) ∧
    ((s.table.clients.length - 1) * M < s.data_buf.size →
      (send_entropy env s).2.all frame_with_payload = true) := by
  have hP : ∀ i, i < s.table.clients.length → ∀ c,
      s.table.clients[(s.table.receiver_index.toNat + i) % s.table.clients.length]? = some c →
      c.header_bytes_pending = 0 ∧ c.entropy_pending = 0 ∧ 1 ≤ c.entropy_requested ∧
      c.entropy_requested + 4 < 4294967296 ∧ min c.entropy_requested 65532 ≤ M ∧
      c.socket ∈ env.writefds := by
    intro i _ c hc
    obtain ⟨q1, q2, q3, q4, q5, q6⟩ := hst c (List.mem_iff_getElem?.mpr ⟨_, hc⟩)
    exact ⟨q1, q2, by omega, q4, q5, q6⟩
  obtain ⟨l1, l2⟩ := sweep_loop_serves env M s.table.clients.length hmax hsend
    s.table.clients.length s rfl hr0 hr1 (le_refl _) hP hv hsb
  unfold send_entropy
  refine ⟨l1, ?_, ?_⟩
  · intro i hi
    obtain ⟨j, hj, hji⟩ := cyclic_index_surj s.table.receiver_index.toNat i _ hr1 hi
    have hjl : j < (send_entropy_loop env s.table.clients.length s).2.length := by
      rw [l1]; exact hj
    have hget := List.getElem?_eq_getElem hjl
    obtain ⟨e1, e2, _⟩ := l2 j _ hget
    exact ⟨_, List.mem_iff_getElem?.mpr ⟨j, hget⟩, by rw [e1, hji], e2⟩
  · intro hsize
    rw [List.all_eq_true]
    intro e he
    obtain ⟨j, hj⟩ := List.getElem?_of_mem he
    obtain ⟨_, e2, e3⟩ := l2 j e hj
    obtain ⟨hjl, _⟩ := List.getElem?_eq_some.mp hj
    rw [l1] at hjl
    have hmul : j * M ≤ (s.table.clients.length - 1) * M :=
      Nat.mul_le_mul_right M (by omega)
    exact e2 (by omega)

/-- C16 (amended) at a table of two clients with standing requests of 4 bytes,
cursor at 1 and a pool of 5 bytes: the sweep makes 2 visits and both clients
are sent a frame with a non-empty payload. -/
theorem sweep_serves_clients_that_find_bytes_witness :
    (send_entropy ⟨[5, 6], fun _ bytes => bytes.length⟩
        ⟨⟨[⟨4, 0, false, 0, 5, (0, 0)⟩, ⟨4, 0, false, 0, 6, (0, 0)⟩], 512, 1⟩,
         (data_buf_write (data_buf_create 8192) [1, 2, 3, 4, 5]).1, send_buf_init⟩).2.length =
      2 ∧
    (send_entropy ⟨[5, 6], fun _ bytes => bytes.length⟩
        ⟨⟨[⟨4, 0, false, 0, 5, (0, 0)⟩, ⟨4, 0, false, 0, 6, (0, 0)⟩], 512, 1⟩,
         (data_buf_write (data_buf_create 8192) [1, 2, 3, 4, 5]).1, send_buf_init⟩).2.all
      frame_with_payload = true :=
  ⟨(sweep_serves_clients_that_find_bytes ⟨[5, 6], fun _ bytes => bytes.length⟩
      ⟨⟨[⟨4, 0, false, 0, 5, (0, 0)⟩, ⟨4, 0, false, 0, 6, (0, 0)⟩], 512, 1⟩,
       (data_buf_write (data_buf_create 8192) [1, 2, 3, 4, 5]).1, send_buf_init⟩ 4 4
      (by decide) (by decide) (by decide) (by decide) (by decide) (by decide)
      (fun _ _ => rfl)
      (valid_readable (data_buf_write_valid _ _ (data_buf_create_valid 8192 (by decide))))
      send_buf_init_length).1,
   (sweep_serves_clients_that_find_bytes ⟨[5, 6], fun _ bytes => bytes.length⟩
      ⟨⟨[⟨4, 0, false, 0, 5, (0, 0)⟩, ⟨4, 0, false, 0, 6, (0, 0)⟩], 512, 1⟩,
       (data_buf_write (data_buf_create 8192) [1, 2, 3, 4, 5]).1, send_buf_init⟩ 4 4
      (by decide) (by decide) (by decide) (by decide) (by decide) (by decide)
      (fun _ _ => rfl)
      (valid_readable (data_buf_write_valid _ _ (data_buf_create_valid 8192 (by decide))))
      send_buf_init_length).2.2 (by decide)⟩

/-! ## The USB manager: `quantis_usb_after_poll`, the endpoint checks and
closing a device (C25, C26, C27) -/

/-- C25 (defect in the code): with every library call succeeding and the
right vendor, product, configuration and interface counts, an endpoint with
`bmAttributes = 3` (interrupt) and address `0x86` is accepted and the device
is added to the list: the test is `(bmAttributes & LIBUSB_TRANSFER_TYPE_BULK)
== 0` and `3 & 2 = 2`.  Control (0) and isochronous (1) endpoints and an OUT
address (`0x06`) are rejected, a bulk IN endpoint is accepted. -/
theorem interrupt_endpoint_is_accepted :
    quantis_usb_open_device
        ⟨false, 0, 0x0aba, 0x0102, 1, 0, none, 0, 1, 0, 0, 0, 0, 1, 1, 1, 3, 0x86, 512, false⟩ =
      some (0x86, 512) ∧
    quantis_usb_open_device
        ⟨false, 0, 0x0aba, 0x0102, 1, 0, none, 0, 1, 0, 0, 0, 0, 1, 1, 1, 0, 0x86, 512, false⟩ =
      none ∧
    quantis_usb_open_device
        ⟨false, 0, 0x0aba, 0x0102, 1, 0, none, 0, 1, 0, 0, 0, 0, 1, 1, 1, 1, 0x86, 512, false⟩ =
      none ∧
    quantis_usb_open_device
        ⟨false, 0, 0x0aba, 0x0102, 1, 0, none, 0, 1, 0, 0, 0, 0, 1, 1, 1, 2, 0x06, 512, false⟩ =
      none ∧
    quantis_usb_open_device
        ⟨false, 0, 0x0aba, 0x0102, 1, 0, none, 0, 1, 0, 0, 0, 0, 1, 1, 1, 2, 0x86, 512, false⟩ =
      some (0x86, 512) := by
  decide

/-- C26 (defect in the code): a read is submitted on an open device, then the
device is closed before the engine has delivered the completion.
`quantis_usb_close_device` requests the cancellation and runs
`quantis_usb_destroy_device` at once: the device is destroyed while
`read_in_progress` is set and the engine still holds the transfer, and the
cancelled completion is delivered to the destroyed device afterwards. -/
theorem device_destroyed_with_transfer_in_flight :
    device_run device_opened [DeviceEvent.read Submit.ok] = ⟨true, false, true, false⟩ ∧
    device_run device_opened [DeviceEvent.read Submit.ok, DeviceEvent.close] =
      ⟨true, true, true, true⟩ ∧
    (device_run device_opened [DeviceEvent.read Submit.ok, DeviceEvent.close]).destroyed = true ∧
    (device_run device_opened
      [DeviceEvent.read Submit.ok, DeviceEvent.close]).transfer_pending = true ∧
    device_run device_opened
        [DeviceEvent.read Submit.ok, DeviceEvent.close, DeviceEvent.completion] =
      ⟨false, true, false, false⟩ := by
  decide

theorem poll_fds_have_events_iff (r w e : List Int) (l : List (Int × Nat)) :
    poll_fds_have_events r w e l = true ↔ ∃ p ∈ l, p.1 ∈ r ∨ p.1 ∈ w ∨ p.1 ∈ e := by
  induction l with
  | nil => simp [poll_fds_have_events]
  | cons p l ih =>
    obtain ⟨fd, ev⟩ := p
    simp only [poll_fds_have_events, List.mem_cons, exists_eq_or_imp]
    by_cases h1 : fd ∈ r
    · simp [h1]
    · by_cases h2 : fd ∈ w
      · simp [h1, h2]
      · by_cases h3 : fd ∈ e
        · simp [h1, h2, h3]
        · simp only [h1, h2, h3, if_false, or_self, false_or]
          exact ih

/-- C27: for every context, `timeout_expired` flag, triple of descriptor
sets and status of the engine, `quantis_usb_after_poll` calls the event
processing exactly once, with a zero timeout, if and only if
`usb_events_available` is set, or `timeout_expired` and
`usb_timeout_effective` are both set, or a mirrored pollfd is in the read,
write or error set; otherwise it makes no call and returns 0. -/
theorem after_poll_processes_iff_signalled (ctx : UsbContext) (timeout_expired : Int)
    (r w e : List Int) (handle_events_status : Int) :
    ((quantis_usb_after_poll ctx timeout_expired r w e handle_events_status).2 = [⟨0, 0⟩] ↔
      (ctx.usb_events_available = true ∨
       (timeout_expired ≠ 0 ∧ ctx.usb_timeout_effective = true) ∨
       ∃ p ∈ ctx.poll_fds, p.1 ∈ r ∨ p.1 ∈ w ∨ p.1 ∈ e)) ∧
    (¬ (ctx.usb_events_available = true ∨
        (timeout_expired ≠ 0 ∧ ctx.usb_timeout_effective = true) ∨
        ∃ p ∈ ctx.poll_fds, p.1 ∈ r ∨ p.1 ∈ w ∨ p.1 ∈ e) →
      quantis_usb_after_poll ctx timeout_expired r w e handle_events_status = (0, [])) := by
  have hp : ∀ st : Int, (usb_process st).2 = [⟨0, 0⟩] := by
    intro st; unfold usb_process; split_ifs <;> rfl
  rw [← poll_fds_have_events_iff]
  unfold quantis_usb_after_poll
  by_cases h1 : ctx.usb_events_available = true ∨
      (timeout_expired ≠ 0 ∧ ctx.usb_timeout_effective = true)
  · rw [if_pos h1]
    refine ⟨⟨fun _ => ?_, fun _ => hp _⟩, fun hn => ?_⟩
    · rcases h1 with h | h
      · exact Or.inl h
      · exact Or.inr (Or.inl h)
    · exact absurd (h1.elim Or.inl (fun h => Or.inr (Or.inl h))) hn
  · rw [if_neg h1]
    by_cases h2 : poll_fds_have_events r w e ctx.poll_fds = true
    · rw [if_pos h2]
      exact ⟨⟨fun _ => Or.inr (Or.inr h2), fun _ => hp _⟩,
        fun hn => absurd (Or.inr (Or.inr h2)) hn⟩
    · rw [if_neg h2]
      refine ⟨⟨fun h => absurd h (by simp), fun h => ?_⟩, fun _ => rfl⟩
      rcases h with h | h | h
      · exact absurd (Or.inl h) h1
      · exact absurd (Or.inr h) h1
      · exact absurd h h2

/-- C27 at concrete inputs: a mirrored pollfd 7 in the read set makes the hook
process events once with a zero timeout; with no flag set and no descriptor
signalled it makes no call and returns 0. -/
theorem after_poll_processes_iff_signalled_witness :
    (quantis_usb_after_poll ⟨false, false, [(7, 1)]⟩ 0 [7] [] [] 0).2 = [⟨0, 0⟩] ∧
    quantis_usb_after_poll ⟨false, false, [(7, 1)]⟩ 0 [3] [] [4] 0 = (0, []) :=
  ⟨(after_poll_processes_iff_signalled ⟨false, false, [(7, 1)]⟩ 0 [7] [] [] 0).1.mpr
      (by decide),
   (after_poll_processes_iff_signalled ⟨false, false, [(7, 1)]⟩ 0 [3] [] [4] 0).2
      (by decide)⟩

/-! ## The client table: removal and the request loop (C23, C24) -/

theorem to_size_t_of_nonneg (z : Int) (h0 : 0 ≤ z) (h1 : z < 18446744073709551616) :
    to_size_t z = z.toNat := by
  unfold to_size_t
  omega

/-- C23: for a table of `N` clients and a cursor `r < N`, removing an index
`i < N` other than `r` returns 0, deletes exactly entry `i` (the entries
before `i` stay, the entries after it move down by one), and leaves the cursor
on the same client record: `r' = r - 1` when `i < r`, `r' = r` when
`i > r`; for `i ≥ N` the call returns -1 and changes nothing. -/
theorem remove_keeps_cursor_on_its_client (t : Table) (i : Nat)
    (hN : t.clients.length < 18446744073709551616) (h0 : 0 ≤ t.receiver_index)
    (hr : t.receiver_index.toNat < t.clients.length) :
    (i < t.clients.length → i ≠ t.receiver_index.toNat →
      (client_remove_by_index t i).2 = 0 ∧
      (client_remove_by_index t i).1.clients.length = t.clients.length - 1 ∧
      (∀ j, j < i → (client_remove_by_index t i).1.clients[j]? = t.clients[j]?) ∧
      (∀ j, i ≤ j → (client_remove_by_index t i).1.clients[j]? = t.clients[j + 1]?) ∧
      (i < t.receiver_index.toNat →
        (client_remove_by_index t i).1.receiver_index = t.receiver_index - 1) ∧
      (t.receiver_index.toNat < i →
        (client_remove_by_index t i).1.receiver_index = t.receiver_index) ∧
      (client_remove_by_index t i).1.clients[(client_remove_by_index t i).1.receiver_index.toNat]? =
        t.clients[t.receiver_index.toNat]?) ∧
    (t.clients.length ≤ i → client_remove_by_index t i = (t, -1)) := by
  have hsz : to_size_t t.receiver_index = t.receiver_index.toNat :=
    to_size_t_of_nonneg _ h0 (by omega)
  constructor
  · intro hi hne
    have hge : ¬ i ≥ t.clients.length := by omega
    unfold client_remove_by_index
    simp only [hge, if_false, hsz]
    refine ⟨trivial, ?_, ?_, ?_, ?_, ?_, ?_⟩
    · rw [List.length_eraseIdx]; simp [hi]
    · intro j hj
      rw [List.getElem?_eraseIdx, if_pos hj]
    · intro j hj
      rw [List.getElem?_eraseIdx, if_neg (by omega)]
    · intro hlt
      have c1 : t.receiver_index.toNat ≥ i := by omega
      have c2 : ¬ t.receiver_index - 1 < 0 := by omega
      simp only [c1, c2, if_true, if_false]
    · intro hgt
      have c1 : ¬ t.receiver_index.toNat ≥ i := by omega
      simp only [c1, if_false]
    · by_cases hlt : i < t.receiver_index.toNat
      · have c1 : t.receiver_index.toNat ≥ i := by omega
        have c2 : ¬ t.receiver_index - 1 < 0 := by omega
        simp only [c1, c2, if_true, if_false]
        rw [List.getElem?_eraseIdx, if_neg (by omega)]
        congr 1
        omega
      · have c1 : ¬ t.receiver_index.toNat ≥ i := by omega
        simp only [c1, if_false]
        rw [List.getElem?_eraseIdx, if_pos (by omega)]
  · intro hi
    unfold client_remove_by_index
    rw [if_pos hi]

/-- C23 on a table of three clients with the cursor on the second:
removing index 0 moves the cursor to 0, removing index 2 leaves it at 1,
and in both cases it still designates the client with socket 6. -/
theorem remove_keeps_cursor_on_its_client_witness :
    (client_remove_by_index
        ⟨[client_new 5, client_new 6, client_new 7], 512, 1⟩ 0).1 =
      ⟨[client_new 6, client_new 7], 512, 0⟩ ∧
    (client_remove_by_index
        ⟨[client_new 5, client_new 6, client_new 7], 512, 1⟩ 2).1 =
      ⟨[client_new 5, client_new 6], 512, 1⟩ ∧
    (client_remove_by_index
        ⟨[client_new 5, client_new 6, client_new 7], 512, 1⟩ 0).1.clients[
        (client_remove_by_index
          ⟨[client_new 5, client_new 6, client_new 7], 512, 1⟩ 0).1.receiver_index.toNat]? =
      some (client_new 6) ∧
    client_remove_by_index ⟨[client_new 5, client_new 6, client_new 7], 512, 1⟩ 3 =
      (⟨[client_new 5, client_new 6, client_new 7], 512, 1⟩, -1) :=
  ⟨by decide, by decide,
   ((remove_keeps_cursor_on_its_client
      ⟨[client_new 5, client_new 6, client_new 7], 512, 1⟩ 0 (by decide) (by decide)
      (by decide)).1 (by decide) (by decide)).2.2.2.2.2.2,
   (remove_keeps_cursor_on_its_client
      ⟨[client_new 5, client_new 6, client_new 7], 512, 1⟩ 3 (by decide) (by decide)
      (by decide)).2 (by decide)⟩

theorem getElem?_append_length_cons (pre rest : List Client) (c : Client) :
    (pre ++ c :: rest)[pre.length]? = some c := by
  rw [List.getElem?_append_right (le_refl _)]
  simp

theorem eraseIdx_append_length_cons (pre rest : List Client) (c : Client) :
    (pre ++ c :: rest).eraseIdx pre.length = pre ++ rest := by
  induction pre with
  | nil => rfl
  | cons a pre ih => simp only [List.cons_append, List.length_cons, List.eraseIdx_cons_succ, ih]

theorem set_append_length_cons (pre rest : List Client) (c c2 : Client) :
    (pre ++ c :: rest).set pre.length c2 = pre ++ c2 :: rest := by
  induction pre with
  | nil => rfl
  | cons a pre ih => simp only [List.cons_append, List.length_cons, List.set_cons_succ, ih]

/-- The request loop from index `|pre|` on, over a table `pre ++ rest` and
with at least `|rest|` iterations allowed: the clients before the index stay,
the others go through the per-client step once each, in order. -/
theorem request_loop_refines (env : RequestEnv) (rest : List Client) :
    ∀ (fuel : Nat) (pre : List Client) (t : Table),
      t.clients = pre ++ rest → rest.length ≤ fuel →
      (request_loop env fuel pre.length t).1.clients = pre ++ request_phase_spec env rest ∧
      (request_loop env fuel pre.length t).2 = request_effects_spec env rest := by
  induction rest with
  | nil =>
    intro fuel pre t ht _
    have hnone : t.clients[pre.length]? = none := by
      rw [ht, List.append_nil]; exact List.getElem?_eq_none (le_refl _)
    cases fuel with
    | zero => simp [request_loop, request_phase_spec, request_effects_spec, ht]
    | succ fuel =>
      rw [request_loop, hnone]
      simp [request_phase_spec, request_effects_spec, ht]
  | cons c rest ih =>
    intro fuel pre t ht hfuel
    cases fuel with
    | zero => simp at hfuel
    | succ fuel =>
      have hget : t.clients[pre.length]? = some c := by
        rw [ht]; exact getElem?_append_length_cons pre rest c
      rw [request_loop, hget]
      cases hrc : request_client env c with
      | mk oc effects =>
        cases oc with
        | none =>
          have hlt : ¬ pre.length ≥ t.clients.length := by
            rw [ht, List.length_append, List.length_cons]; omega
          have hrem : (client_remove_by_index t pre.length).1.clients = pre ++ rest := by
            unfold client_remove_by_index
            rw [if_neg hlt]
            show t.clients.eraseIdx pre.length = pre ++ rest
            rw [ht]; exact eraseIdx_append_length_cons pre rest c
          obtain ⟨i1, i2⟩ := ih fuel pre _ hrem (by simp at hfuel; omega)
          simp only [hrc]
          refine ⟨?_, ?_⟩
          · rw [i1]
            simp [request_phase_spec, hrc]
          · rw [i2]
            simp [request_effects_spec, hrc]
        | some c2 =>
          have hset : ({ t with clients := t.clients.set pre.length c2 } : Table).clients =
              (pre ++ [c2]) ++ rest := by
            show t.clients.set pre.length c2 = (pre ++ [c2]) ++ rest
            rw [ht, set_append_length_cons]; simp
          have hlen : (pre ++ [c2]).length = pre.length + 1 := by simp
          obtain ⟨i1, i2⟩ := ih fuel (pre ++ [c2]) _ hset (by simp at hfuel; omega)
          rw [hlen] at i1 i2
          simp only [hrc]
          refine ⟨?_, ?_⟩
          · rw [i1]
            simp [request_phase_spec, hrc]
          · rw [i2]
            simp [request_effects_spec, hrc]

/-- C24: the index loop of the request phase (remove by compaction and stay
on the index, otherwise store the record and move on) gives the table that
the specification describes: the per-client request step applied once to
every client of the original list, in index order, the evicted clients
filtered out; and it makes the calls on the sockets of these steps, in that
order. -/
theorem request_phase_refines_spec (env : RequestEnv) (t : Table) :
    (request_phase env t).1.clients = request_phase_spec env t.clients ∧
    (request_phase env t).2 = request_effects_spec env t.clients := by
  have h := request_loop_refines env t.clients t.clients.length [] t rfl (le_refl _)
  exact h

/-! ## The cursor of the send phase (C21, C22) -/

theorem receiver_advance_wide (t : Table) (N : Nat) (hN : t.clients.length = N)
    (hmax : N < 18446744073709551616) (h0 : 0 ≤ t.receiver_index)
    (h1 : t.receiver_index.toNat < N) :
    (receiver_advance t).clients = t.clients ∧
    (receiver_advance t).client_sockets_length = t.client_sockets_length ∧
    0 ≤ (receiver_advance t).receiver_index ∧
    (receiver_advance t).receiver_index.toNat = (t.receiver_index.toNat + 1) % N := by
  have hm := mod_wrap_cases (a := t.receiver_index.toNat + 1) (c := N) (by omega)
  unfold receiver_advance to_size_t
  split_ifs with h
  · refine ⟨rfl, rfl, le_refl _, ?_⟩
    show (0 : Int).toNat = _
    rw [hN] at h
    simp only [Int.toNat_zero]
    omega
  · refine ⟨rfl, rfl, ?_, ?_⟩
    · show 0 ≤ t.receiver_index + 1
      omega
    · show (t.receiver_index + 1).toNat = _
      rw [hN] at h
      omega

/-- One iteration of the loop of `send_entropy` on a live record: the record
is replaced by the one the visit leaves, the cursor advances, and the
iteration is logged with the value of the cursor it used. -/
theorem send_entropy_loop_succ (env : SendEnv) (n : Nat) (s : Server) (c : Client)
    (hget : s.table.clients[s.table.receiver_index.toNat]? = some c) :
    ∃ (v : Visit) (T : Table),
      T.clients = s.table.clients.set s.table.receiver_index.toNat v.client ∧
      T.receiver_index = s.table.receiver_index ∧
      T.client_sockets_length = s.table.client_sockets_length ∧
      send_entropy_loop env (n + 1) s =
        ((send_entropy_loop env n ⟨receiver_advance T, v.data_buf, v.send_buf⟩).1,
         ⟨s.table.receiver_index.toNat, c.socket, data_buf_available s.data_buf, v.sent⟩ ::
           (send_entropy_loop env n ⟨receiver_advance T, v.data_buf, v.send_buf⟩).2) := by
  refine ⟨send_entropy_visit_on c s.data_buf s.send_buf (decide (c.socket ∈ env.writefds))
      (env.send c.socket),
    { s.table with clients := (s.table.clients.set s.table.receiver_index.toNat
        (send_entropy_visit_on c s.data_buf s.send_buf (decide (c.socket ∈ env.writefds))
          (env.send c.socket)).client) },
    rfl, rfl, rfl, ?_⟩
  rw [send_entropy_loop, hget]

/-- The loop of `send_entropy` on any table, whatever the visits do:
iteration `j` uses the cursor value `(cur + j) mod N`, the table keeps its
length, and after `n` iterations the cursor is `(cur + n) mod N`. -/
theorem sweep_loop_cursor (env : SendEnv) (N : Nat) (hmax : N < 18446744073709551616) :
    ∀ (n : Nat) (s : Server),
      s.table.clients.length = N → 0 ≤ s.table.receiver_index →
      s.table.receiver_index.toNat < N →
      (send_entropy_loop env n s).2.map (fun e => e.index) =
        (List.range n).map (fun j => (s.table.receiver_index.toNat + j) % N) ∧
      (send_entropy_loop env n s).1.table.clients.length = N ∧
      (send_entropy_loop env n s).1.table.client_sockets_length =
        s.table.client_sockets_length ∧
      0 ≤ (send_entropy_loop env n s).1.table.receiver_index ∧
      (send_entropy_loop env n s).1.table.receiver_index.toNat =
        (s.table.receiver_index.toNat + n) % N := by
  intro n
  induction n with
  | zero =>
    intro s hN h0 h1
    refine ⟨rfl, hN, rfl, h0, ?_⟩
    show s.table.receiver_index.toNat = _
    rw [Nat.add_zero, Nat.mod_eq_of_lt h1]
  | succ n ih =>
    intro s hN h0 h1
    have hcur : s.table.receiver_index.toNat < s.table.clients.length := by rw [hN]; exact h1
    obtain ⟨v, T, hTc, hTr, hTl, hloop⟩ :=
      send_entropy_loop_succ env n s _ (List.getElem?_eq_getElem hcur)
    obtain ⟨a1, a2, a3, a4⟩ := receiver_advance_wide T N
      (by rw [hTc, List.length_set]; exact hN) hmax (by rw [hTr]; exact h0)
      (by rw [hTr]; exact h1)
    rw [hTr] at a4
    have hlen2 : (receiver_advance T).clients.length = N := by
      rw [a1, hTc, List.length_set]; exact hN
    have hlt2 : (receiver_advance T).receiver_index.toNat < N := by
      rw [a4]; exact Nat.mod_lt _ (by omega)
    obtain ⟨i1, i2, i3, i4, i5⟩ :=
      ih ⟨receiver_advance T, v.data_buf, v.send_buf⟩ hlen2 a3 hlt2
    have i1b : (send_entropy_loop env n ⟨receiver_advance T, v.data_buf, v.send_buf⟩).2.map
        (fun e => e.index) =
        (List.range n).map (fun j => ((receiver_advance T).receiver_index.toNat + j) % N) := i1
    have i3b : (send_entropy_loop env n
        ⟨receiver_advance T, v.data_buf, v.send_buf⟩).1.table.client_sockets_length =
        (receiver_advance T).client_sockets_length := i3
    have i5b : (send_entropy_loop env n
        ⟨receiver_advance T, v.data_buf, v.send_buf⟩).1.table.receiver_index.toNat =
        ((receiver_advance T).receiver_index.toNat + n) % N := i5
    rw [hloop]
    refine ⟨?_, i2, ?_, i4, ?_⟩
    · rw [List.map_cons, i1b, List.range_succ_eq_map, List.map_cons, List.map_map]
      congr 1
      · show s.table.receiver_index.toNat = _
        rw [Nat.add_zero, Nat.mod_eq_of_lt h1]
      · apply List.map_congr_left
        intro j _
        show ((receiver_advance T).receiver_index.toNat + j) % N = _
        rw [a4, cyclic_next_index]
        rfl
    · rw [i3b, a2, hTl]
    · rw [i5b, a4, cyclic_next_index]

theorem cyclic_indices_nodup (r N : Nat) (hr : r < N) :
    ((List.range N).map (fun j => (r + j) % N)).Nodup := by
  apply List.Nodup.map_on _ (List.nodup_range N)
  intro a ha b hb hab
  rw [List.mem_range] at ha hb
  have h1 := mod_wrap_cases (a := r + a) (c := N) (by omega)
  have h2 := mod_wrap_cases (a := r + b) (c := N) (by omega)
  have hab2 : (r + a) % N = (r + b) % N := hab
  omega

/-- C22: for every table of `N` clients (`N` within the range of the `int`
cursor) and cursor `0 ≤ r < N`, whatever the set `writefds` holds and `send`
returns, one call of `send_entropy` uses the cursor values `r, r+1, ..., r+N-1`
(mod `N`) in that order, every index below `N` exactly once, and leaves the
table with `N` clients and the cursor at `r`. -/
theorem sweep_examines_each_client_once (env : SendEnv) (s : Server)
    (hmax : s.table.clients.length ≤ 2147483647) (h0 : 0 ≤ s.table.receiver_index)
    (hr : s.table.receiver_index.toNat < s.table.clients.length) :
    (send_entropy env s).2.map (fun e => e.index) =
      (List.range s.table.clients.length).map
        (fun j => (s.table.receiver_index.toNat + j) % s.table.clients.length) ∧
    (∀ i, i < s.table.clients.length →
      ((send_entropy env s).2.map (fun e => e.index)).count i = 1) ∧
    (send_entropy env s).1.table.clients.length = s.table.clients.length ∧
    (send_entropy env s).1.table.receiver_index = s.table.receiver_index := by
  obtain ⟨i1, i2, _, i4, i5⟩ := sweep_loop_cursor env s.table.clients.length (by omega)
    s.table.clients.length s rfl h0 hr
  have i1b : (send_entropy env s).2.map (fun e => e.index) =
      (List.range s.table.clients.length).map
        (fun j => (s.table.receiver_index.toNat + j) % s.table.clients.length) := i1
  have i4b : 0 ≤ (send_entropy env s).1.table.receiver_index := i4
  have i5b : (send_entropy env s).1.table.receiver_index.toNat =
      (s.table.receiver_index.toNat + s.table.clients.length) % s.table.clients.length := i5
  rw [Nat.add_mod_right, Nat.mod_eq_of_lt hr] at i5b
  refine ⟨i1b, ?_, i2, by omega⟩
  intro i hi
  rw [i1b]
  apply List.count_eq_one_of_mem (cyclic_indices_nodup _ _ hr)
  obtain ⟨j, hj, hji⟩ := cyclic_index_surj _ i _ hr hi
  exact List.mem_map.mpr ⟨j, List.mem_range.mpr hj, hji⟩

/-- C22 on a table of three clients with the cursor at 1, one client with a
standing request and a writable socket, one with a keep-alive pending and a
socket that is not writable, one with nothing to send: the sweep uses the
indices 1, 2, 0 and leaves the cursor at 1. -/
theorem sweep_examines_each_client_once_witness :
    (send_entropy ⟨[5], fun _ bytes => bytes.length⟩
        ⟨⟨[⟨4, 0, false, 0, 5, (0, 0)⟩, ⟨0, 0, true, 0, 6, (0, 0)⟩, client_new 7], 512, 1⟩,
         (data_buf_write (data_buf_create 8) [1, 2, 3]).1, send_buf_init⟩).2.map
      (fun e => e.index) = [1, 2, 0] ∧
    (send_entropy ⟨[5], fun _ bytes => bytes.length⟩
        ⟨⟨[⟨4, 0, false, 0, 5, (0, 0)⟩, ⟨0, 0, true, 0, 6, (0, 0)⟩, client_new 7], 512, 1⟩,
         (data_buf_write (data_buf_create 8) [1, 2, 3]).1, send_buf_init⟩).1.table.receiver_index =
      1 :=
  ⟨(sweep_examines_each_client_once ⟨[5], fun _ bytes => bytes.length⟩
      ⟨⟨[⟨4, 0, false, 0, 5, (0, 0)⟩, ⟨0, 0, true, 0, 6, (0, 0)⟩, client_new 7], 512, 1⟩,
       (data_buf_write (data_buf_create 8) [1, 2, 3]).1, send_buf_init⟩
      (by decide) (by decide) (by decide)).1,
   (sweep_examines_each_client_once ⟨[5], fun _ bytes => bytes.length⟩
      ⟨⟨[⟨4, 0, false, 0, 5, (0, 0)⟩, ⟨0, 0, true, 0, 6, (0, 0)⟩, client_new 7], 512, 1⟩,
       (data_buf_write (data_buf_create 8) [1, 2, 3]).1, send_buf_init⟩
      (by decide) (by decide) (by decide)).2.2.2⟩

/-- The invariant of the client table is kept by `client_add`,
`client_remove_by_index` and `send_entropy`. -/
theorem server_step_cursor (s : Server) (op : TableOp)
    (hcap : s.table.client_sockets_length = MAX_CLIENTS)
    (hN : s.table.clients.length ≤ 512) (h0 : 0 ≤ s.table.receiver_index)
    (h1 : 0 < s.table.clients.length → s.table.receiver_index.toNat < s.table.clients.length)
    (h2 : s.table.clients.length = 0 → s.table.receiver_index = 0) :
    (server_step s op).table.client_sockets_length = MAX_CLIENTS ∧
    (server_step s op).table.clients.length ≤ 512 ∧
    0 ≤ (server_step s op).table.receiver_index ∧
    (0 < (server_step s op).table.clients.length →
      (server_step s op).table.receiver_index.toNat < (server_step s op).table.clients.length) ∧
    ((server_step s op).table.clients.length = 0 →
      (server_step s op).table.receiver_index = 0) := by
  cases op with
  | add sock =>
    show (client_add s.table sock).1.client_sockets_length = MAX_CLIENTS ∧
      (client_add s.table sock).1.clients.length ≤ 512 ∧
      0 ≤ (client_add s.table sock).1.receiver_index ∧
      (0 < (client_add s.table sock).1.clients.length →
        (client_add s.table sock).1.receiver_index.toNat <
          (client_add s.table sock).1.clients.length) ∧
      ((client_add s.table sock).1.clients.length = 0 →
        (client_add s.table sock).1.receiver_index = 0)
    unfold client_add
    split_ifs with h
    · exact ⟨hcap, hN, h0, h1, h2⟩
    · have hne : s.table.clients.length ≠ 512 := by
        rw [hcap] at h; exact h
      simp only [List.length_append, List.length_singleton]
      refine ⟨hcap, by omega, h0, ?_, ?_⟩
      · intro _
        by_cases hz : s.table.clients.length = 0
        · rw [h2 hz]; simp
        · have := h1 (by omega); omega
      · intro hz; omega
  | remove i =>
    show (client_remove_by_index s.table i).1.client_sockets_length = MAX_CLIENTS ∧
      (client_remove_by_index s.table i).1.clients.length ≤ 512 ∧
      0 ≤ (client_remove_by_index s.table i).1.receiver_index ∧
      (0 < (client_remove_by_index s.table i).1.clients.length →
        (client_remove_by_index s.table i).1.receiver_index.toNat <
          (client_remove_by_index s.table i).1.clients.length) ∧
      ((client_remove_by_index s.table i).1.clients.length = 0 →
        (client_remove_by_index s.table i).1.receiver_index = 0)
    by_cases hi : i ≥ s.table.clients.length
    · unfold client_remove_by_index
      rw [if_pos hi]
      exact ⟨hcap, hN, h0, h1, h2⟩
    · have hr := h1 (by omega)
      have hsz : to_size_t s.table.receiver_index = s.table.receiver_index.toNat :=
        to_size_t_of_nonneg _ h0 (by omega)
      have hlen : (s.table.clients.eraseIdx i).length = s.table.clients.length - 1 := by
        rw [List.length_eraseIdx]; simp [Nat.lt_of_not_ge hi]
      unfold client_remove_by_index
      rw [if_neg hi]
      simp only [hsz, hlen]
      refine ⟨hcap, by omega, ?_, ?_, ?_⟩
      · split_ifs <;> omega
      · intro hpos
        split_ifs <;> omega
      · intro hz
        split_ifs <;> omega
  | sweep env =>
    show (send_entropy env s).1.table.client_sockets_length = MAX_CLIENTS ∧
      (send_entropy env s).1.table.clients.length ≤ 512 ∧
      0 ≤ (send_entropy env s).1.table.receiver_index ∧
      (0 < (send_entropy env s).1.table.clients.length →
        (send_entropy env s).1.table.receiver_index.toNat <
          (send_entropy env s).1.table.clients.length) ∧
      ((send_entropy env s).1.table.clients.length = 0 →
        (send_entropy env s).1.table.receiver_index = 0)
    by_cases hz : s.table.clients.length = 0
    · have he : send_entropy env s = (s, []) := by
        unfold send_entropy
        rw [hz]
        rfl
      rw [he]
      exact ⟨hcap, hN, h0, h1, h2⟩
    · have hr := h1 (by omega)
      obtain ⟨_, i2, i3, i4, i5⟩ := sweep_loop_cursor env s.table.clients.length (by omega)
        s.table.clients.length s rfl h0 hr
      have i2b : (send_entropy env s).1.table.clients.length = s.table.clients.length := i2
      have i3b : (send_entropy env s).1.table.client_sockets_length =
          s.table.client_sockets_length := i3
      have i4b : 0 ≤ (send_entropy env s).1.table.receiver_index := i4
      have i5b : (send_entropy env s).1.table.receiver_index.toNat =
          (s.table.receiver_index.toNat + s.table.clients.length) % s.table.clients.length :=
        i5
      rw [Nat.add_mod_right, Nat.mod_eq_of_lt hr] at i5b
      refine ⟨by rw [i3b, hcap], by omega, i4b, ?_, ?_⟩
      · intro _; omega
      · intro h; omega

theorem server_run_cursor (ops : List TableOp) :
    ∀ (s : Server), s.table.client_sockets_length = MAX_CLIENTS →
      s.table.clients.length ≤ 512 → 0 ≤ s.table.receiver_index →
      (0 < s.table.clients.length → s.table.receiver_index.toNat < s.table.clients.length) →
      (s.table.clients.length = 0 → s.table.receiver_index = 0) →
      (server_run s ops).table.clients.length ≤ 512 ∧
      0 ≤ (server_run s ops).table.receiver_index ∧
      (0 < (server_run s ops).table.clients.length →
        (server_run s ops).table.receiver_index.toNat <
          (server_run s ops).table.clients.length) ∧
      ((server_run s ops).table.clients.length = 0 →
        (server_run s ops).table.receiver_index = 0) := by
  induction ops with
  | nil =>
    intro s _ hN h0 h1 h2
    exact ⟨hN, h0, h1, h2⟩
  | cons op ops ih =>
    intro s hcap hN h0 h1 h2
    obtain ⟨a, b, c, d, e⟩ := server_step_cursor s op hcap hN h0 h1 h2
    exact ih (server_step s op) a b c d e

/-- C21: in every state reached from the empty table (capacity
`MAX_CLIENTS`, cursor 0) by `client_add`, `client_remove_by_index` and calls
of `send_entropy`, the table holds `N ≤ 512` clients, the cursor satisfies
`0 ≤ receiver_index < N` when `N > 0` and is 0 when the table is empty, and
in a call of `send_entropy` made in that state every one of the `N`
iterations finds a record at `clients[receiver_index]`, at an index below
`N`. -/
theorem cursor_designates_live_client (ops : List TableOp) (data_buf : DataBuffer)
    (send_buf : List Nat) :
    (server_run ⟨⟨[], MAX_CLIENTS, 0⟩, data_buf, send_buf⟩ ops).table.clients.length ≤ 512 ∧
    0 ≤ (server_run ⟨⟨[], MAX_CLIENTS, 0⟩, data_buf, send_buf⟩ ops).table.receiver_index ∧
    (0 < (server_run ⟨⟨[], MAX_CLIENTS, 0⟩, data_buf, send_buf⟩ ops).table.clients.length →
      (server_run ⟨⟨[], MAX_CLIENTS, 0⟩, data_buf, send_buf⟩ ops).table.receiver_index <
        (server_run ⟨⟨[], MAX_CLIENTS, 0⟩, data_buf, send_buf⟩ ops).table.clients.length) ∧
    ((server_run ⟨⟨[], MAX_CLIENTS, 0⟩, data_buf, send_buf⟩ ops).table.clients.length = 0 →
      (server_run ⟨⟨[], MAX_CLIENTS, 0⟩, data_buf, send_buf⟩ ops).table.receiver_index = 0) ∧
    ∀ env : SendEnv,
      (send_entropy env (server_run ⟨⟨[], MAX_CLIENTS, 0⟩, data_buf, send_buf⟩ ops)).2.length =
        (server_run ⟨⟨[], MAX_CLIENTS, 0⟩, data_buf, send_buf⟩ ops).table.clients.length ∧
      ∀ e ∈ (send_entropy env (server_run ⟨⟨[], MAX_CLIENTS, 0⟩, data_buf, send_buf⟩ ops)).2,
        e.index <
          (server_run ⟨⟨[], MAX_CLIENTS, 0⟩, data_buf, send_buf⟩ ops).table.clients.length := by
  obtain ⟨hN, h0, h1, h2⟩ := server_run_cursor ops ⟨⟨[], MAX_CLIENTS, 0⟩, data_buf, send_buf⟩
    rfl (Nat.zero_le _) (le_refl _) (fun h => absurd h (Nat.lt_irrefl 0)) (fun _ => rfl)
  generalize server_run ⟨⟨[], MAX_CLIENTS, 0⟩, data_buf, send_buf⟩ ops = s at hN h0 h1 h2
  refine ⟨hN, h0, ?_, h2, ?_⟩
  · intro hpos
    have := h1 hpos
    omega
  · intro env
    by_cases hz : s.table.clients.length = 0
    · have he : send_entropy env s = (s, []) := by
        unfold send_entropy
        rw [hz]
        rfl
      rw [he, hz]
      exact ⟨rfl, fun e he => by cases he⟩
    · have hr := h1 (by omega)
      obtain ⟨i1, _, _, _, _⟩ := sweep_loop_cursor env s.table.clients.length (by omega)
        s.table.clients.length s rfl h0 hr
      have i1b : (send_entropy env s).2.map (fun e => e.index) =
          (List.range s.table.clients.length).map
            (fun j => (s.table.receiver_index.toNat + j) % s.table.clients.length) := i1
      constructor
      · have := congrArg List.length i1b
        simpa using this
      · intro e he
        have hm : e.index ∈ (send_entropy env s).2.map (fun e => e.index) :=
          List.mem_map.mpr ⟨e, he, rfl⟩
        rw [i1b] at hm
        obtain ⟨j, _, hj⟩ := List.mem_map.mp hm
        rw [← hj]
        exact Nat.mod_lt _ (by omega)

/-- C21 after two connections, a sweep, the removal of the client under the
cursor and another sweep: one client is left and the cursor is 0. -/
theorem cursor_designates_live_client_witness :
    (server_run ⟨⟨[], MAX_CLIENTS, 0⟩, data_buf_create 8, send_buf_init⟩
      [TableOp.add 5, TableOp.add 6, TableOp.sweep ⟨[5], fun _ bytes => bytes.length⟩,
       TableOp.remove 0, TableOp.sweep ⟨[6], fun _ _ => -1⟩]).table.receiver_index < 1 ∧
    (send_entropy ⟨[6], fun _ bytes => bytes.length⟩
      (server_run ⟨⟨[], MAX_CLIENTS, 0⟩, data_buf_create 8, send_buf_init⟩
        [TableOp.add 5, TableOp.add 6, TableOp.sweep ⟨[5], fun _ bytes => bytes.length⟩,
         TableOp.remove 0, TableOp.sweep ⟨[6], fun _ _ => -1⟩])).2.length = 1 :=
  ⟨(cursor_designates_live_client
      [TableOp.add 5, TableOp.add 6, TableOp.sweep ⟨[5], fun _ bytes => bytes.length⟩,
       TableOp.remove 0, TableOp.sweep ⟨[6], fun _ _ => -1⟩]
      (data_buf_create 8) send_buf_init).2.2.1 (by decide),
   ((cursor_designates_live_client
      [TableOp.add 5, TableOp.add 6, TableOp.sweep ⟨[5], fun _ bytes => bytes.length⟩,
       TableOp.remove 0, TableOp.sweep ⟨[6], fun _ _ => -1⟩]
      (data_buf_create 8) send_buf_init).2.2.2.2 ⟨[6], fun _ bytes => bytes.length⟩).1⟩

/-! ## The keep-alive flag after a visit (C28) -/

theorem account_sent_keepalive (c : Client) (header_size write_size : Nat) (s : Int) :
    (account_sent c header_size write_size s).1.keepalive_pending = true ↔
      (s < (header_size : Int) ∧ c.entropy_pending = 0 ∧ write_size = 0) := by
  unfold account_sent
  simp only
  split_ifs <;> simp_all

/-- A visit that reaches `send` with a status `s ≥ 0` leaves the client
record that `account_sent` computes from the frame sizes of the record. -/
theorem visit_sent_client (c : Client) (data_buf : DataBuffer) (send_buf : List Nat)
    (writable : Bool) (s : Int) (r : SendRecord) (h0 : 0 ≤ s)
    (hsent : (send_entropy_visit c data_buf send_buf writable s).sent = some r) :
    (send_entropy_visit c data_buf send_buf writable s).client =
      (account_sent c r.header_size r.write_size s).1 := by
  unfold send_entropy_visit at hsent ⊢
  by_cases hskip : c.keepalive_pending = false ∧ data_buf_available data_buf = 0
  · rw [if_pos hskip] at hsent
    cases hsent
  · rw [if_neg hskip] at hsent ⊢
    cases hfa : frame_action c with
    | none =>
      rw [hfa] at hsent
      cases hsent
    | some p =>
      obtain ⟨hs, ws⟩ := p
      rw [hfa] at hsent
      simp only at hsent ⊢
      by_cases hw : writable = false
      · rw [if_pos hw] at hsent
        cases hsent
      · have hge : s ≥ 0 := h0
        rw [if_neg hw, if_pos hge] at hsent ⊢
        split_ifs at hsent ⊢ <;>
          (simp only [Option.some.injEq] at hsent; subst hsent; rfl)

/-- C28: in a visit of `send_entropy` in which `send` is reached and returns
`s ≥ 0`, `keepalive_pending` is set afterwards exactly when `s < header_size`,
`entropy_pending` was 0 before the visit and `write_size = 0`.  A client with
a keep-alive pending and a frame in progress (`entropy_pending = 3`) that is
visited with an empty pool is offered zero bytes (`header_size = 0`,
`write_size = 0`), and a client continuing a header (`header_bytes_pending =
2`) is offered the two missing header bytes of the frame in progress; in
both visits the keep-alive flag is cleared and no header of a zero-length
frame is among the bytes accepted. -/
theorem keepalive_set_iff_header_unsent :
    (∀ (c : Client) (data_buf : DataBuffer) (send_buf : List Nat) (writable : Bool) (s : Int)
        (r : SendRecord), 0 ≤ s →
      (send_entropy_visit c data_buf send_buf writable s).sent = some r →
      ((send_entropy_visit c data_buf send_buf writable s).client.keepalive_pending = true ↔
        (s < (r.header_size : Int) ∧ c.entropy_pending = 0 ∧ r.write_size = 0))) ∧
    ((send_entropy_visit ⟨0, 3, true, 0, 5, (0, 0)⟩ (data_buf_create 8) send_buf_init
        true 0).sent.map (fun r => (r.header_size, r.write_size, r.accepted)) =
      some (0, 0, [])) ∧
    (send_entropy_visit ⟨0, 3, true, 0, 5, (0, 0)⟩ (data_buf_create 8) send_buf_init
        true 0).client = ⟨0, 3, false, 0, 5, (0, 0)⟩ ∧
    ((send_entropy_visit ⟨0, 3, true, 2, 5, (0, 0)⟩ (data_buf_create 8) send_buf_init
        true 2).sent.map (fun r => (r.header_size, r.write_size, r.accepted)) =
      some (2, 0, [0, 3])) ∧
    (send_entropy_visit ⟨0, 3, true, 2, 5, (0, 0)⟩ (data_buf_create 8) send_buf_init
        true 2).client = ⟨0, 3, false, 0, 5, (0, 0)⟩ := by
  refine ⟨?_, by decide, by decide, by decide, by decide⟩
  intro c data_buf send_buf writable s r h0 hsent
  rw [visit_sent_client c data_buf send_buf writable s r h0 hsent]
  exact account_sent_keepalive c r.header_size r.write_size s

/-- C28 at a client with no request and a keep-alive pending whose socket
accepts 1 of the 4 header bytes: the flag is set again; when the socket
accepts the 4 bytes the flag is cleared. -/
theorem keepalive_set_iff_header_unsent_witness :
    (send_entropy_visit ⟨0, 0, true, 0, 5, (0, 0)⟩ (data_buf_create 8)
        [0, 0, 0, 0, 0, 0, 0, 0] true 1).client.keepalive_pending = true ∧
    (send_entropy_visit ⟨0, 0, true, 0, 5, (0, 0)⟩ (data_buf_create 8)
        [0, 0, 0, 0, 0, 0, 0, 0] true 4).client.keepalive_pending ≠ true :=
  ⟨(keepalive_set_iff_header_unsent.1 ⟨0, 0, true, 0, 5, (0, 0)⟩ (data_buf_create 8)
      [0, 0, 0, 0, 0, 0, 0, 0] true 1
      ⟨4, 0, [], [0, 0, 0, 0, 0, 0, 0, 0], [0, 0, 0, 0], 1, [0], none⟩
      (by decide) (by decide)).mpr (by decide),
   fun h => absurd ((keepalive_set_iff_header_unsent.1 ⟨0, 0, true, 0, 5, (0, 0)⟩
      (data_buf_create 8) [0, 0, 0, 0, 0, 0, 0, 0] true 4
      ⟨4, 0, [], [0, 0, 0, 0, 0, 0, 0, 0], [0, 0, 0, 0], 4, [0, 0, 0, 0], none⟩
      (by decide) (by decide)).mp h).1 (by decide)⟩

/-! ## databuf.c: every copy stays inside the backing region (C29, C30) -/

theorem data_buf_write_empty (buf : DataBuffer) (data : List Nat) (hd : data.length = 0) :
    data_buf_write buf data = (buf, 0) := by
  unfold data_buf_write
  simp only [hd, if_true]

theorem data_buf_unread_nothing (buf : DataBuffer) (data : List Nat)
    (hk : min data.length (buf.capacity - buf.size) = 0) :
    data_buf_unread buf data = (buf, 0) := by
  unfold data_buf_unread
  simp only [ite_gt_eq_min, hk]
  split_ifs <;> rfl

/-- The bounds that every operation keeps, also after a push-back that moved
`beg_index` to `capacity - k`. -/
theorem buf_step_bounds (buf : DataBuffer) (op : BufOp)
    (hlen : buf.buffer.length = buf.capacity) (hs : buf.size ≤ buf.capacity)
    (hb : buf.beg_index < buf.capacity) (he : buf.end_index < buf.capacity) :
    (buf_step buf op).1.buffer.length = (buf_step buf op).1.capacity ∧
    (buf_step buf op).1.size ≤ (buf_step buf op).1.capacity ∧
    (buf_step buf op).1.beg_index < (buf_step buf op).1.capacity ∧
    (buf_step buf op).1.end_index < (buf_step buf op).1.capacity := by
  cases op with
  | write data =>
    show (data_buf_write buf data).1.buffer.length = (data_buf_write buf data).1.capacity ∧
      (data_buf_write buf data).1.size ≤ (data_buf_write buf data).1.capacity ∧
      (data_buf_write buf data).1.beg_index < (data_buf_write buf data).1.capacity ∧
      (data_buf_write buf data).1.end_index < (data_buf_write buf data).1.capacity
    by_cases hd : data.length = 0
    · rw [data_buf_write_empty buf data hd]
      exact ⟨hlen, hs, hb, he⟩
    · obtain ⟨_, f2, f3, f4, f5, f6⟩ := data_buf_write_fields buf data hd he
      rw [f2, f3, f4, f5, f6]
      refine ⟨?_, by omega, hb, Nat.mod_lt _ (by omega)⟩
      exact write_copy_length buf.buffer data buf.capacity buf.end_index _ hlen he
        (by omega) (Nat.min_le_left _ _)
  | read n =>
    obtain ⟨f1, f2, _, f4, f5⟩ := data_buf_read_fields buf n hb hs
    show (data_buf_read buf n).1.buffer.length = (data_buf_read buf n).1.capacity ∧
      (data_buf_read buf n).1.size ≤ (data_buf_read buf n).1.capacity ∧
      (data_buf_read buf n).1.beg_index < (data_buf_read buf n).1.capacity ∧
      (data_buf_read buf n).1.end_index < (data_buf_read buf n).1.capacity
    obtain ⟨_, _, f3, _, _⟩ := data_buf_read_fields buf n hb hs
    rw [f1, f2, f3, f4, f5]
    exact ⟨hlen, by omega, Nat.mod_lt _ (by omega), he⟩
  | unread data =>
    show (data_buf_unread buf data).1.buffer.length = (data_buf_unread buf data).1.capacity ∧
      (data_buf_unread buf data).1.size ≤ (data_buf_unread buf data).1.capacity ∧
      (data_buf_unread buf data).1.beg_index < (data_buf_unread buf data).1.capacity ∧
      (data_buf_unread buf data).1.end_index < (data_buf_unread buf data).1.capacity
    by_cases hk : min data.length (buf.capacity - buf.size) = 0
    · rw [data_buf_unread_nothing buf data hk]
      exact ⟨hlen, hs, hb, he⟩
    · obtain ⟨f1, f2, f3, f4, f5⟩ := data_buf_unread_fields buf data hb hs hk
      rw [f1, f2, f3, f4, f5]
      generalize hkdef : min data.length (buf.capacity - buf.size) = k at hk
      have hk1 : k ≤ data.length := by omega
      have hk2 : k ≤ buf.capacity - buf.size := by omega
      refine ⟨?_, by omega, ?_, he⟩
      · rw [memcpy_length]
        · exact hlen
        · rw [List.length_drop, hlen]
          split_ifs <;> omega
      · split_ifs <;> omega

theorem buf_run_bounds (ops : List BufOp) :
    ∀ (buf : DataBuffer), buf.buffer.length = buf.capacity → buf.size ≤ buf.capacity →
      buf.beg_index < buf.capacity → buf.end_index < buf.capacity →
      (buf_run buf ops).capacity = buf.capacity ∧
      (buf_run buf ops).buffer.length = buf.capacity ∧
      (buf_run buf ops).size ≤ buf.capacity ∧
      (buf_run buf ops).beg_index < buf.capacity ∧
      (buf_run buf ops).end_index < buf.capacity := by
  induction ops with
  | nil =>
    intro buf hlen hs hb he
    exact ⟨rfl, hlen, hs, hb, he⟩
  | cons op ops ih =>
    intro buf hlen hs hb he
    obtain ⟨a, b, c, d⟩ := buf_step_bounds buf op hlen hs hb he
    have hcap := buf_step_capacity buf op
    have h := ih (buf_step buf op).1 a b c d
    rw [hcap] at h
    exact h

/-- Offsets and lengths of the copies of one operation on a buffer within
its bounds. -/
theorem op_segments_in_bounds (buf : DataBuffer) (op : BufOp)
    (hs : buf.size ≤ buf.capacity) (hb : buf.beg_index < buf.capacity)
    (he : buf.end_index < buf.capacity) :
    (∀ p ∈ op_segments buf op, p.1 ≤ buf.capacity ∧ p.2 ≤ buf.capacity - p.1) ∧
    ((op_segments buf op).map (fun p => p.2)).sum ≤ buf.capacity ∧
    (op_segments buf op).length ≤ 2 := by
  cases op with
  | write data =>
    unfold op_segments write_segments
    simp only [ite_gt_eq_min]
    split_ifs <;>
      simp [region] <;> omega
  | read n =>
    unfold op_segments read_segments
    simp only [ite_gt_eq_min]
    split_ifs <;>
      simp <;> omega
  | unread data =>
    unfold op_segments unread_segments unread_beg_index
    simp only [ite_gt_eq_min]
    split_ifs <;>
      simp [region] <;> omega

/-- The backing region after `data_buf_write` is the region before with the
listed segments stored in order. -/
theorem data_buf_write_stores_segments (buf : DataBuffer) (data : List Nat) :
    (data_buf_write buf data).1.buffer =
      (write_segments buf data).foldl (fun b p => memcpy b p.1 p.2) buf.buffer := by
  unfold data_buf_write write_segments
  simp only
  split_ifs <;> rfl

/-- The bytes `data_buf_read` returns are the listed segments of the backing
region, in order. -/
theorem data_buf_read_loads_segments (buf : DataBuffer) (n : Nat) :
    (data_buf_read buf n).2.1 =
      (read_segments buf n).flatMap (fun p => region buf.buffer p.1 p.2) := by
  unfold data_buf_read read_segments
  simp only
  split_ifs <;> simp

/-- The backing region after `data_buf_unread` is the region before with the
listed segments stored in order, and `beg_index` is the offset of the first
one. -/
theorem data_buf_unread_stores_segments (buf : DataBuffer) (data : List Nat) :
    (data_buf_unread buf data).1.buffer =
      (unread_segments buf data).foldl (fun b p => memcpy b p.1 p.2) buf.buffer ∧
    (data_buf_unread buf data).1.beg_index =
      ((unread_segments buf data).head?.map (fun p => p.1)).getD buf.beg_index := by
  unfold data_buf_unread unread_segments unread_beg_index
  simp only
  split_ifs <;> exact ⟨rfl, rfl⟩

/-- C29: for a buffer created with capacity `c > 0`, after any sequence of
`data_buf_write`, `data_buf_read` and `data_buf_unread` operations
`beg_index < c` and `end_index < c`, and the copies of any further operation
(the `memcpy` calls listed by the segment functions, which are the ones
that produce the new backing region and the bytes returned) stay inside the
backing region of length `c`: a segment at offset `o` has length at most
`c - o`, there are at most two segments and their lengths sum to at most
`c`. -/
theorem copies_stay_inside_region (c : Nat) (hc : 0 < c) (ops : List BufOp) (op : BufOp) :
    (buf_run (data_buf_create c) ops).capacity = c ∧
    (buf_run (data_buf_create c) ops).buffer.length = c ∧
    (buf_run (data_buf_create c) ops).beg_index < c ∧
    (buf_run (data_buf_create c) ops).end_index < c ∧
    (∀ p ∈ op_segments (buf_run (data_buf_create c) ops) op, p.1 ≤ c ∧ p.2 ≤ c - p.1) ∧
    ((op_segments (buf_run (data_buf_create c) ops) op).map (fun p => p.2)).sum ≤ c ∧
    (op_segments (buf_run (data_buf_create c) ops) op).length ≤ 2 ∧
    (∀ data, (data_buf_write (buf_run (data_buf_create c) ops) data).1.buffer =
      (write_segments (buf_run (data_buf_create c) ops) data).foldl
        (fun b p => memcpy b p.1 p.2) (buf_run (data_buf_create c) ops).buffer) ∧
    (∀ n, (data_buf_read (buf_run (data_buf_create c) ops) n).2.1 =
      (read_segments (buf_run (data_buf_create c) ops) n).flatMap
        (fun p => region (buf_run (data_buf_create c) ops).buffer p.1 p.2)) ∧
    (∀ data, (data_buf_unread (buf_run (data_buf_create c) ops) data).1.buffer =
      (unread_segments (buf_run (data_buf_create c) ops) data).foldl
        (fun b p => memcpy b p.1 p.2) (buf_run (data_buf_create c) ops).buffer) := by
  obtain ⟨h1, h2, h3, h4, h5⟩ := buf_run_bounds ops (data_buf_create c)
    (by simp [data_buf_create]) (Nat.zero_le _) hc hc
  have h1b : (buf_run (data_buf_create c) ops).capacity = c := h1
  have h2b : (buf_run (data_buf_create c) ops).buffer.length = c := h2
  have h3b : (buf_run (data_buf_create c) ops).size ≤ c := h3
  have h4b : (buf_run (data_buf_create c) ops).beg_index < c := h4
  have h5b : (buf_run (data_buf_create c) ops).end_index < c := h5
  generalize buf_run (data_buf_create c) ops = b at h1b h2b h3b h4b h5b
  obtain ⟨s1, s2, s3⟩ := op_segments_in_bounds b op (by omega) (by omega) (by omega)
  rw [h1b] at s1 s2
  exact ⟨h1b, h2b, h4b, h5b, s1, s2, s3, data_buf_write_stores_segments b,
    data_buf_read_loads_segments b, fun data => (data_buf_unread_stores_segments b data).1⟩

/-- C29 on a buffer of capacity 4 after a write of 3 bytes, a read of 3, a
write of 2 (wrapped), a read of 1 and an unread of 1 byte, which moves
`beg_index` to 3: a read of 4 bytes copies the two segments `(3, 1)` and
`(0, 1)`. -/
theorem copies_stay_inside_region_witness :
    op_segments (buf_run (data_buf_create 4)
        [BufOp.write [1, 2, 3], BufOp.read 3, BufOp.write [4, 5], BufOp.read 1,
         BufOp.unread [4]])
      (BufOp.read 4) = [(3, 1), (0, 1)] ∧
    ∀ p ∈ op_segments (buf_run (data_buf_create 4)
        [BufOp.write [1, 2, 3], BufOp.read 3, BufOp.write [4, 5], BufOp.read 1,
         BufOp.unread [4]])
      (BufOp.read 4), p.1 ≤ 4 ∧ p.2 ≤ 4 - p.1 :=
  ⟨by decide,
   (copies_stay_inside_region 4 (by decide)
      [BufOp.write [1, 2, 3], BufOp.read 3, BufOp.write [4, 5], BufOp.read 1,
       BufOp.unread [4]]
      (BufOp.read 4)).2.2.2.2.1⟩

/-- C30: in `data_buf_unread` on a buffer with `beg_index < capacity` and
`size ≤ capacity`, for every data, with `k = bytes_to_write`: after the
update of `beg_index` the test `k ≤ capacity - beg_index` holds, so at most
one segment is copied (the two-segment branch is not taken), and the
pushed-back bytes, the last `k` of the data, are stored in one piece at the
new `beg_index`. -/
theorem unread_copy_is_contiguous (buf : DataBuffer) (data : List Nat)
    (hb : buf.beg_index < buf.capacity) (hs : buf.size ≤ buf.capacity) :
    min data.length (buf.capacity - buf.size) ≤
      buf.capacity - unread_beg_index buf (min data.length (buf.capacity - buf.size)) ∧
    (unread_segments buf data).length ≤ 1 ∧
    (data_buf_unread buf data).1.buffer =
      (unread_segments buf data).foldl (fun b p => memcpy b p.1 p.2) buf.buffer ∧
    (min data.length (buf.capacity - buf.size) ≠ 0 →
      unread_segments buf data =
        [(unread_beg_index buf (min data.length (buf.capacity - buf.size)),
          data.drop (data.length - min data.length (buf.capacity - buf.size)))] ∧
      (data_buf_unread buf data).1.beg_index =
        unread_beg_index buf (min data.length (buf.capacity - buf.size)) ∧
      (data_buf_unread buf data).1.buffer =
        memcpy buf.buffer (unread_beg_index buf (min data.length (buf.capacity - buf.size)))
          (data.drop (data.length - min data.length (buf.capacity - buf.size)))) := by
  have hle : min data.length (buf.capacity - buf.size) ≤
      buf.capacity - unread_beg_index buf (min data.length (buf.capacity - buf.size)) := by
    unfold unread_beg_index
    split_ifs <;> omega
  have hseg : min data.length (buf.capacity - buf.size) ≠ 0 →
      unread_segments buf data =
        [(unread_beg_index buf (min data.length (buf.capacity - buf.size)),
          data.drop (data.length - min data.length (buf.capacity - buf.size)))] := by
    intro hk
    have hd : data.length ≠ 0 := by
      intro h; rw [h] at hk; simp at hk
    unfold unread_segments
    simp only [ite_gt_eq_min]
    rw [if_neg hd, if_neg hk, if_pos hle, region_zero_eq_take]
    congr 2
    apply List.take_of_length_le
    rw [List.length_drop]
    omega
  refine ⟨hle, ?_, (data_buf_unread_stores_segments buf data).1, ?_⟩
  · by_cases hk : min data.length (buf.capacity - buf.size) = 0
    · have : unread_segments buf data = [] := by
        unfold unread_segments
        simp only [ite_gt_eq_min, hk]
        split_ifs <;> rfl
      rw [this]
      exact Nat.zero_le _
    · rw [hseg hk]
      exact le_refl _
  · intro hk
    obtain ⟨_, _, _, f4, f5⟩ := data_buf_unread_fields buf data hb hs hk
    exact ⟨hseg hk, f4, f5⟩

/-- C30 on a buffer of capacity 4 with `beg_index = 1` holding one byte,
for a push-back of 2 bytes: `beg_index` becomes `4 - 2 = 2` and the two
bytes are stored in one piece at offset 2. -/
theorem unread_copy_is_contiguous_witness :
    unread_segments ⟨[0, 9, 0, 0], 4, 1, 1, 2⟩ [7, 8] = [(2, [7, 8])] ∧
    (data_buf_unread ⟨[0, 9, 0, 0], 4, 1, 1, 2⟩ [7, 8]).1.beg_index = 2 ∧
    (data_buf_unread ⟨[0, 9, 0, 0], 4, 1, 1, 2⟩ [7, 8]).1.buffer = [0, 9, 7, 8] :=
  (unread_copy_is_contiguous ⟨[0, 9, 0, 0], 4, 1, 1, 2⟩ [7, 8] (by decide) (by decide)).2.2.2
    (by decide)

/-! ## Frames on runs in which `send` makes progress (C2, C19 amended) -/

theorem mark_enumFrom (h : Nat) (l : List Nat) : ∀ n : Nat,
    (l.enumFrom n).map (fun p => (decide (p.1 < h), p.2)) =
      (l.take (h - n)).map (fun b => (true, b)) ++ (l.drop (h - n)).map (fun b => (false, b)) := by
  induction l with
  | nil => intro n; simp
  | cons a l ih =>
    intro n
    rw [List.enumFrom_cons, List.map_cons, ih (n + 1)]
    by_cases hn : n < h
    · have e : h - n = (h - (n + 1)) + 1 := by omega
      rw [e]
      simp [hn]
    · have e : h - n = 0 := by omega
      have e2 : h - (n + 1) = 0 := by omega
      rw [e, e2]
      simp [hn]

theorem mark_enum (h : Nat) (l : List Nat) :
    l.enum.map (fun p => (decide (p.1 < h), p.2)) =
      (l.take h).map (fun b => (true, b)) ++ (l.drop h).map (fun b => (false, b)) := by
  have := mark_enumFrom h l 0
  simpa [List.enum] using this

/-- The marks of the first `n` bytes of a header followed by a payload. -/
theorem mark_enum_take (hdr payload : List Nat) (n : Nat) :
    (((hdr ++ payload).take n).enum.map (fun p => (decide (p.1 < hdr.length), p.2))) =
      (hdr.take n).map (fun b => (true, b)) ++
        (payload.take (n - hdr.length)).map (fun b => (false, b)) := by
  rw [mark_enum, List.take_append_eq_append_take]
  by_cases hn : n ≤ hdr.length
  · have e : n - hdr.length = 0 := by omega
    rw [e]
    simp only [List.take_zero, List.append_nil, List.map_nil]
    rw [List.take_of_length_le (by simp), List.drop_eq_nil_of_le (by simp)]
    simp
  · have e1 : hdr.take n = hdr := List.take_of_length_le (by omega)
    rw [e1, List.take_left, List.drop_left]

/-- The bytes offered by a visit: the header stored at offset 0 followed by
the bytes read from the pool, stored at offset `header_size`. -/
theorem offered_header_payload (sb hdr bytes : List Nat)
    (hl : hdr.length + bytes.length ≤ sb.length) :
    region (memcpy (memcpy sb hdr.length bytes) 0 hdr) 0 (bytes.length + hdr.length) =
      hdr ++ bytes := by
  have hm : (memcpy sb hdr.length bytes).length = sb.length := memcpy_length _ _ _ hl
  apply List.ext_getElem?
  intro i
  rw [region_getElem?, memcpy_getElem? _ _ _ _ (Nat.zero_le _), List.getElem?_append,
    memcpy_getElem? _ _ _ _ (by omega)]
  simp only [Nat.zero_add, Nat.not_lt_zero, if_false, Nat.sub_zero]
  by_cases h1 : i < hdr.length
  · have h2 : i < bytes.length + hdr.length := by omega
    simp only [h1, h2, if_true]
  · by_cases h2 : i < bytes.length + hdr.length
    · have h3 : i < hdr.length + bytes.length := by omega
      simp only [h1, h2, h3, if_true, if_false]
    · simp only [h1, h2, if_false]
      exact (List.getElem?_eq_none (by omega)).symm

theorem offered_payload_only (sb bytes : List Nat) (hl : bytes.length ≤ sb.length) :
    region (memcpy sb 0 bytes) 0 bytes.length = bytes := by
  have := offered_header_payload sb [] bytes (by simpa using hl)
  simpa [memcpy] using this

/-- What a visit does, read off the loop body: either no `send` call is made
and nothing changes, or a frame action `(header_size, write_size)` is
selected, `PL` is read from the pool, `SB` is the `send_buf` with the payload
and the header stored, the first `WS + header_size` bytes of `SB` are
offered, and the client record is updated by `account_sent` when
`send_status ≥ 0` and left alone otherwise. -/
theorem visit_summary (c : Client) (db : DataBuffer) (sb : List Nat) (w : Bool) (s : Int) :
    ((send_entropy_visit c db sb w s).sent = none ∧
      (send_entropy_visit c db sb w s).client = c ∧
      (send_entropy_visit c db sb w s).send_buf = sb) ∨
    ∃ hs ws0, frame_action c = some (hs, ws0) ∧
      ∀ PL WS SB,
        PL = (data_buf_read db (clamp_write_size ws0 hs (data_buf_available db))).2.1 →
        WS = u32 (data_buf_read db (clamp_write_size ws0 hs (data_buf_available db))).2.2 →
        SB = (if hs ≠ 0 then
                if c.header_bytes_pending = 0 then
                  memcpy (memcpy sb hs PL) 0 (htonl_bytes WS)
                else memcpy (memcpy sb hs PL) 0
                  (region (htonl_bytes c.entropy_pending) (HEADER_SIZE - hs) hs)
              else memcpy sb hs PL) →
        (send_entropy_visit c db sb w s).send_buf = SB ∧
        ∃ r, (send_entropy_visit c db sb w s).sent = some r ∧ r.header_size = hs ∧
          r.write_size = WS ∧ r.offered = region SB 0 (u32 (WS + hs)) ∧
          ((0 ≤ s ∧ (send_entropy_visit c db sb w s).client = (account_sent c hs WS s).1 ∧
              r.accepted = region (region SB 0 (u32 (WS + hs))) 0 s.toNat) ∨
           (s < 0 ∧ (send_entropy_visit c db sb w s).client = c ∧ r.accepted = [])) := by
  unfold send_entropy_visit
  by_cases hskip : c.keepalive_pending = false ∧ data_buf_available db = 0
  · rw [if_pos hskip]
    exact Or.inl ⟨rfl, rfl, rfl⟩
  · rw [if_neg hskip]
    cases hfa : frame_action c with
    | none => exact Or.inl ⟨rfl, rfl, rfl⟩
    | some p =>
      obtain ⟨hs, ws0⟩ := p
      simp only
      by_cases hw : w = false
      · rw [if_pos hw]
        exact Or.inl ⟨rfl, rfl, rfl⟩
      · rw [if_neg hw]
        refine Or.inr ⟨hs, ws0, rfl, ?_⟩
        intro PL WS SB hPL hWS hSB
        subst hPL
        subst hWS
        subst hSB
        by_cases h0 : s ≥ 0
        · rw [if_pos h0]
          split_ifs <;>
            exact ⟨rfl, _, rfl, rfl, rfl, rfl, Or.inl ⟨h0, rfl, rfl⟩⟩
        · rw [if_neg h0]
          split_ifs <;>
            exact ⟨rfl, _, rfl, rfl, rfl, rfl, Or.inr ⟨by omega, rfl, rfl⟩⟩

theorem account_sent_short (c : Client) (hs ws n : Nat) (hn : n < hs) (hh : hs ≤ 4) :
    (account_sent c hs ws (n : Int)).1.header_bytes_pending = hs - n ∧
    (c.entropy_pending ≠ 0 ∨ ws = 0 →
      (account_sent c hs ws (n : Int)).1.entropy_requested = c.entropy_requested ∧
      (account_sent c hs ws (n : Int)).1.entropy_pending = c.entropy_pending) ∧
    (c.entropy_pending = 0 → ws ≠ 0 → ws ≤ c.entropy_requested →
      c.entropy_requested < 4294967296 →
      (account_sent c hs ws (n : Int)).1.entropy_requested = c.entropy_requested - ws ∧
      (account_sent c hs ws (n : Int)).1.entropy_pending = ws) := by
  have h1 : ((n : Int) < (hs : Int)) := by omega
  have h2 : u32_of_int ((hs : Int) - (n : Int)) = hs - n := by
    unfold u32_of_int; omega
  unfold account_sent
  simp only [h1, if_true, h2]
  by_cases hp : c.entropy_pending = 0
  · by_cases hw : ws = 0
    · simp only [hp, hw, ne_eq, not_true_eq_false, if_false, if_true]
      refine ⟨trivial, fun _ => ⟨trivial, trivial⟩, fun _ h => h.elim⟩
    · simp only [hp, hw, ne_eq, not_true_eq_false, if_false]
      refine ⟨trivial, fun h => ?_, fun _ _ hle hlt => ⟨?_, trivial⟩⟩
      · rcases h with h | h
        · exact h.elim
        · exact h.elim
      · unfold u32_sub; omega
  · simp only [hp, ne_eq, not_false_eq_true, if_true]
    exact ⟨trivial, fun _ => ⟨trivial, trivial⟩, fun h => h.elim⟩

theorem account_sent_fresh (c : Client) (ws n : Nat) (hn : 4 ≤ n) (hn2 : n ≤ 4 + ws)
    (hw : ws ≤ c.entropy_requested) (hr : c.entropy_requested < 4294967296) :
    (account_sent c 4 ws (n : Int)).1.header_bytes_pending = 0 ∧
    (account_sent c 4 ws (n : Int)).1.entropy_requested = c.entropy_requested - ws ∧
    (account_sent c 4 ws (n : Int)).1.entropy_pending = ws - (n - 4) := by
  have h1 : ¬ ((n : Int) < ((4 : Nat) : Int)) := by omega
  have h3 : u32_sub c.entropy_requested ws = c.entropy_requested - ws := by
    unfold u32_sub; omega
  have h4 : u32_sub ws (u32_sub (u32_of_int (n : Int)) 4) = ws - (n - 4) := by
    unfold u32_sub u32_of_int; omega
  unfold account_sent
  simp only [h1, if_false, HEADER_SIZE, if_true, h3, h4]
  exact ⟨trivial, trivial, trivial⟩

theorem account_sent_cont (c : Client) (hs n : Nat) (ws : Nat) (hh : hs ≠ 4) (hn : hs ≤ n)
    (hn2 : n - hs ≤ c.entropy_pending) (hp : c.entropy_pending < 4294967296)
    (hn3 : n < 4294967296) :
    (account_sent c hs ws (n : Int)).1.header_bytes_pending = 0 ∧
    (account_sent c hs ws (n : Int)).1.entropy_requested = c.entropy_requested ∧
    (account_sent c hs ws (n : Int)).1.entropy_pending = c.entropy_pending - (n - hs) := by
  have h1 : ¬ ((n : Int) < (hs : Int)) := by omega
  have h4 : u32_sub c.entropy_pending (u32_sub (u32_of_int (n : Int)) hs) =
      c.entropy_pending - (n - hs) := by
    unfold u32_sub u32_of_int; omega
  unfold account_sent
  simp only [h1, if_false, HEADER_SIZE, hh, h4]
  exact ⟨trivial, trivial, trivial⟩

/-- The two clamps never raise `write_size`, keep it within the pool and
make the frame fit `send_buf`. -/
theorem clamp_write_size_le (ws0 hs avail : Nat) (hh : hs ≤ 4) (hw : ws0 + 4 < 4294967296)
    (ha : avail < 4294967296) :
    clamp_write_size ws0 hs avail ≤ ws0 ∧ clamp_write_size ws0 hs avail ≤ avail ∧
    clamp_write_size ws0 hs avail + hs ≤ 65536 := by
  unfold clamp_write_size u32 u32_sub MAX_FRAME_SIZE
  simp only
  split_ifs <;> omega

theorem frame_marked_append (L : Nat) (p q : List Nat) :
    frame_marked L p ++ q.map (fun b => (false, b)) = frame_marked L (p ++ q) := by
  unfold frame_marked
  simp [List.append_assoc]

/-- The relation `Framing` once the whole header of the frame in flight has
been accepted, whether payload bytes are still pending or not. -/
theorem framing_of_header_sent (c2 : Client) (frames : List (Nat × List Nat))
    (cur : Nat) (payload : List Nat) (T : Nat)
    (hfr : ∀ f ∈ frames, f.2.length = f.1 ∧ f.1 ≤ 65532)
    (hsum : (frames.map (fun f => f.1)).sum + cur + c2.entropy_requested ≤ T)
    (hR : c2.entropy_requested + 4 < 4294967296) (hcur : cur ≤ 65532)
    (hH : c2.header_bytes_pending = 0) (hlen : payload.length + c2.entropy_pending = cur) :
    Framing c2 (frames.flatMap (fun f => frame_marked f.1 f.2) ++ frame_marked cur payload)
      T := by
  by_cases hp : c2.entropy_pending = 0
  · refine ⟨frames ++ [(cur, payload)], 0, [], ?_, ?_, ?_, hR, Nat.zero_le _,
      Or.inl ⟨hH, hp, rfl, rfl⟩⟩
    · simp [List.flatMap_append]
    · intro f hf
      rcases List.mem_append.mp hf with h | h
      · exact hfr f h
      · have : f = (cur, payload) := by simpa using h
        subst this
        exact ⟨by show payload.length = cur; omega, hcur⟩
    · simp only [List.map_append, List.sum_append, List.map_cons, List.map_nil, List.sum_cons,
        List.sum_nil]
      omega
  · exact ⟨frames, cur, frame_marked cur payload, rfl, hfr, hsum, hR, hcur,
      Or.inr (Or.inr ⟨hH, hp, payload, hlen, rfl⟩)⟩

theorem region_htonl_tail (v h : Nat) (hh : h ≤ 4) :
    region (htonl_bytes v) (4 - h) h = (htonl_bytes v).drop (4 - h) := by
  unfold region
  apply List.take_of_length_le
  rw [List.length_drop, htonl_bytes_length]
  omega

/-- The accounting of a `send` that made progress keeps the relation
`Framing`: the bytes accepted are appended to the stream with their marks. -/
theorem account_keeps_framing (c : Client) (M : List (Bool × Nat)) (T : Nat)
    (hinv : Framing c M T) (hs ws0 WS n : Nat) (hdr PL : List Nat)
    (hfa : frame_action c = some (hs, ws0))
    (hW : WS ≤ ws0) (hfit : WS + hs ≤ 65536) (hPL : PL.length = WS)
    (hhdr : hdr = if hs ≠ 0 then
        (if c.header_bytes_pending = 0 then htonl_bytes WS
         else region (htonl_bytes c.entropy_pending) (HEADER_SIZE - hs) hs)
      else [])
    (hn : (1 ≤ n ∧ n ≤ hs + WS) ∨ (n = 0 ∧ hs + WS = 0)) :
    Framing (account_sent c hs WS (n : Int)).1
      (M ++ ((hdr.take n).map (fun b => (true, b)) ++
        (PL.take (n - hs)).map (fun b => (false, b)))) T ∧
    (account_sent c hs WS (n : Int)).1.entropy_requested ≤ c.entropy_requested := by
  obtain ⟨frames, cur, tail, hM, hfr, hsum, hR, hcur, hstate⟩ := hinv
  rcases hstate with ⟨hH, hP, hc0, ht⟩ | ⟨hH1, hH3, hP, ht⟩ | ⟨hH, hP, payload, hpl, ht⟩
  · -- nothing in flight: a fresh frame
    have hfa2 : hs = 4 ∧ ws0 = c.entropy_requested := by
      unfold frame_action at hfa
      simp only [hH, hP, ne_eq, not_true_eq_false, if_false] at hfa
      split_ifs at hfa
      simp only [Option.some.injEq, Prod.mk.injEq, HEADER_SIZE] at hfa
      exact ⟨hfa.1.symm, hfa.2.symm⟩
    obtain ⟨e1, e2⟩ := hfa2
    subst e1
    subst e2
    have hhdr2 : hdr = htonl_bytes WS := by
      rw [hhdr]; simp [hH]
    subst hhdr2
    subst hc0
    subst ht
    rw [List.append_nil] at hM
    have hn1 : 1 ≤ n ∧ n ≤ 4 + WS := by omega
    by_cases hlt : n < 4
    · obtain ⟨a1, a2, a3⟩ := account_sent_short c 4 WS n hlt (le_refl _)
      have hRP : (account_sent c 4 WS (n : Int)).1.entropy_requested =
            c.entropy_requested - WS ∧
          (account_sent c 4 WS (n : Int)).1.entropy_pending = WS := by
        by_cases hw : WS = 0
        · obtain ⟨b1, b2⟩ := a2 (Or.inr hw)
          rw [b1, b2, hP, hw]
          exact ⟨rfl, rfl⟩
        · exact a3 hP hw hW (by omega)
      refine ⟨?_, by rw [hRP.1]; omega⟩
      refine ⟨frames, WS, ((htonl_bytes WS).take n).map (fun b => (true, b)), ?_, hfr, ?_,
        ?_, ?_, Or.inr (Or.inl ⟨?_, ?_, hRP.2, ?_⟩)⟩
      · have e : n - 4 = 0 := by omega
        rw [hM, e]
        simp
      · rw [hRP.1]; omega
      · rw [hRP.1]; omega
      · omega
      · rw [a1]; omega
      · rw [a1]; omega
      · rw [a1]
        have e : 4 - (4 - n) = n := by omega
        rw [e]
    · obtain ⟨a1, a2, a3⟩ := account_sent_fresh c WS n (by omega) hn1.2 hW (by omega)
      have hstream : M ++ (((htonl_bytes WS).take n).map (fun b => (true, b)) ++
          (PL.take (n - 4)).map (fun b => (false, b))) =
          frames.flatMap (fun f => frame_marked f.1 f.2) ++
            frame_marked WS (PL.take (n - 4)) := by
        rw [hM, List.take_of_length_le (by rw [htonl_bytes_length]; omega)]
        rfl
      rw [hstream]
      refine ⟨?_, by rw [a2]; omega⟩
      apply framing_of_header_sent _ frames WS _ T hfr
      · rw [a2]; omega
      · rw [a2]; omega
      · omega
      · exact a1
      · rw [a3, List.length_take, hPL]; omega
  · -- the header of the frame in flight is being sent
    have hfa2 : hs = c.header_bytes_pending ∧ ws0 = c.entropy_pending := by
      unfold frame_action at hfa
      have hne : c.header_bytes_pending ≠ 0 := by omega
      simp only [hne, ne_eq, not_false_eq_true, if_true, Option.some.injEq,
        Prod.mk.injEq] at hfa
      exact ⟨hfa.1.symm, hfa.2.symm⟩
    obtain ⟨e1, e2⟩ := hfa2
    have hhdr2 : hdr = (htonl_bytes cur).drop (4 - hs) := by
      have hne : c.header_bytes_pending ≠ 0 := by omega
      have hne2 : hs ≠ 0 := by omega
      rw [hhdr, hP]
      simp only [hne, hne2, ne_eq, not_false_eq_true, if_true, if_false, HEADER_SIZE]
      exact region_htonl_tail cur hs (by omega)
    have hhl : hdr.length = hs := by
      rw [hhdr2, List.length_drop, htonl_bytes_length]; omega
    have hn1 : 1 ≤ n ∧ n ≤ hs + WS := by omega
    by_cases hlt : n < hs
    · obtain ⟨a1, a2, _⟩ := account_sent_short c hs WS n hlt (by omega)
      obtain ⟨b1, b2⟩ := a2 (by
        by_cases hp0 : c.entropy_pending = 0
        · right; omega
        · left; exact hp0)
      refine ⟨?_, by rw [b1]⟩
      refine ⟨frames, cur, ((htonl_bytes cur).take
          (4 - (account_sent c hs WS (n : Int)).1.header_bytes_pending)).map
          (fun b => (true, b)), ?_, hfr, ?_, ?_, hcur, Or.inr (Or.inl ⟨?_, ?_, ?_, rfl⟩)⟩
      · have e : n - hs = 0 := by omega
        have e2 : 4 - (hs - n) = (4 - hs) + n := by omega
        rw [hM, ht, a1, e, hhdr2, e2, List.take_add, ← e1]
        simp
      · rw [b1]; exact hsum
      · rw [b1]; exact hR
      · rw [a1]; omega
      · rw [a1]; omega
      · rw [b2]; exact hP
    · obtain ⟨a1, a2, a3⟩ := account_sent_cont c hs n WS (by omega) (by omega) (by omega)
        (by omega) (by omega)
      have hstream : M ++ ((hdr.take n).map (fun b => (true, b)) ++
          (PL.take (n - hs)).map (fun b => (false, b))) =
          frames.flatMap (fun f => frame_marked f.1 f.2) ++
            frame_marked cur (PL.take (n - hs)) := by
        have e3 : hdr.take n = hdr := List.take_of_length_le (by omega)
        rw [hM, ht, e3, hhdr2, ← e1]
        unfold frame_marked
        rw [List.append_assoc, ← List.append_assoc (List.map _ _) (List.map _ _),
          ← List.map_append, List.take_append_drop]
      rw [hstream]
      refine ⟨?_, by rw [a2]⟩
      apply framing_of_header_sent _ frames cur _ T hfr
      · rw [a2]; exact hsum
      · rw [a2]; exact hR
      · exact hcur
      · exact a1
      · rw [a3, List.length_take, hPL]; omega
  · -- the payload of the frame in flight is being sent
    have hfa2 : hs = 0 ∧ ws0 = c.entropy_pending := by
      unfold frame_action at hfa
      simp only [hH, hP, ne_eq, not_true_eq_false, not_false_eq_true, if_false, if_true,
        Option.some.injEq, Prod.mk.injEq] at hfa
      exact ⟨hfa.1.symm, hfa.2.symm⟩
    obtain ⟨e1, e2⟩ := hfa2
    subst e1
    have hhdr2 : hdr = [] := by
      rw [hhdr]; simp
    subst hhdr2
    obtain ⟨a1, a2, a3⟩ := account_sent_cont c 0 n WS (by omega) (by omega) (by omega)
      (by omega) (by omega)
    have hstream : M ++ ((([] : List Nat).take n).map (fun b => (true, b)) ++
        (PL.take (n - 0)).map (fun b => (false, b))) =
        frames.flatMap (fun f => frame_marked f.1 f.2) ++
          frame_marked cur (payload ++ PL.take n) := by
      rw [hM, ht, List.append_assoc, ← frame_marked_append]
      simp
    rw [hstream]
    refine ⟨?_, by rw [a2]⟩
    apply framing_of_header_sent _ frames cur _ T hfr
    · rw [a2]; exact hsum
    · rw [a2]; exact hR
    · exact hcur
    · exact a1
    · rw [a3, List.length_append, List.length_take, hPL]; omega

/-- The frame action of a client in the relation `Framing`: the header size
is at most 4, the size to write cannot wrap, and the header bytes stored in
`send_buf` are `header_size` many. -/
theorem framing_frame_action (c : Client) (M : List (Bool × Nat)) (T : Nat)
    (hinv : Framing c M T) (hs ws0 : Nat) (hfa : frame_action c = some (hs, ws0)) (WS : Nat) :
    hs ≤ 4 ∧ ws0 + 4 < 4294967296 ∧
    (if hs ≠ 0 then
        (if c.header_bytes_pending = 0 then htonl_bytes WS
         else region (htonl_bytes c.entropy_pending) (HEADER_SIZE - hs) hs)
      else []).length = hs := by
  obtain ⟨frames, cur, tail, hM, hfr, hsum, hR, hcur, hstate⟩ := hinv
  unfold frame_action at hfa
  rcases hstate with ⟨hH, hP, hc0, ht⟩ | ⟨hH1, hH3, hP, ht⟩ | ⟨hH, hP, payload, hpl, ht⟩
  · simp only [hH, hP, ne_eq, not_true_eq_false, if_false] at hfa
    split_ifs at hfa
    simp only [Option.some.injEq, Prod.mk.injEq, HEADER_SIZE] at hfa
    obtain ⟨e1, e2⟩ := hfa
    subst e1
    subst e2
    refine ⟨le_refl _, hR, ?_⟩
    simp [hH, htonl_bytes_length]
  · have hne : c.header_bytes_pending ≠ 0 := by omega
    simp only [hne, ne_eq, not_false_eq_true, if_true, Option.some.injEq,
      Prod.mk.injEq] at hfa
    obtain ⟨e1, e2⟩ := hfa
    subst e1
    subst e2
    refine ⟨by omega, by omega, ?_⟩
    simp only [hne, ne_eq, not_false_eq_true, if_true, if_false, HEADER_SIZE]
    rw [region_htonl_tail _ _ (by omega), List.length_drop, htonl_bytes_length]
    omega
  · simp only [hH, hP, ne_eq, not_true_eq_false, not_false_eq_true, if_false, if_true,
      Option.some.injEq, Prod.mk.injEq] at hfa
    obtain ⟨e1, e2⟩ := hfa
    subst e1
    subst e2
    refine ⟨by omega, by omega, ?_⟩
    simp

theorem read_for_visit (db : DataBuffer) (n : Nat)
    (hlen : db.buffer.length = db.capacity) (hsz : db.size ≤ db.capacity)
    (hb : db.beg_index < db.capacity) (hcap : db.capacity < 4294967296)
    (hn : n ≤ db.size) :
    (data_buf_read db n).2.1.length = n ∧ u32 (data_buf_read db n).2.2 = n := by
  rw [data_buf_read_bytes db n hlen hb hsz, ringList_length, data_buf_read_count,
    Nat.min_eq_left hn]
  refine ⟨rfl, ?_⟩
  unfold u32
  omega

theorem send_buf_offered (sb hdr PL : List Nat) (hs WS : Nat) (hsb : sb.length = 65536)
    (hhl : hdr.length = hs) (hPL : PL.length = WS) (hfit : WS + hs ≤ 65536) :
    (if hs ≠ 0 then memcpy (memcpy sb hs PL) 0 hdr else memcpy sb hs PL).length = 65536 ∧
    region (if hs ≠ 0 then memcpy (memcpy sb hs PL) 0 hdr else memcpy sb hs PL) 0
      (u32 (WS + hs)) = hdr ++ PL := by
  have hu : u32 (WS + hs) = WS + hs := by unfold u32; omega
  rw [hu]
  subst hhl
  subst hPL
  by_cases h0 : hdr.length = 0
  · have hnil : hdr = [] := List.length_eq_zero.mp h0
    subst hnil
    simp only [List.length_nil, ne_eq, not_true_eq_false, if_false, Nat.add_zero,
      List.nil_append]
    exact ⟨by rw [memcpy_length _ _ _ (by simp at hfit ⊢; omega)]; exact hsb,
      offered_payload_only sb PL (by simp at hfit; omega)⟩
  · simp only [h0, ne_eq, not_false_eq_true, if_true]
    refine ⟨?_, offered_header_payload sb hdr PL (by omega)⟩
    rw [memcpy_length _ _ _ (by rw [memcpy_length _ _ _ (by omega)]; omega),
      memcpy_length _ _ _ (by omega)]
    exact hsb

/-- A visit with a receivable `send` result keeps the relation `Framing`
between the client record and the marked bytes accepted, and leaves
`send_buf` with `MAX_FRAME_SIZE` bytes. -/
theorem visit_keeps_framing (c : Client) (db : DataBuffer) (sb : List Nat) (w : Bool)
    (s : Int) (hlen : db.buffer.length = db.capacity) (hsz : db.size ≤ db.capacity)
    (hb : db.beg_index < db.capacity) (hcap : db.capacity < 4294967296)
    (hsb : sb.length = 65536)
    (hrecv : visit_receivable c db sb w s = true)
    (M : List (Bool × Nat)) (T : Nat) (hinv : Framing c M T) :
    Framing (send_entropy_visit c db sb w s).client
      (M ++ visit_marked (send_entropy_visit c db sb w s)) T ∧
    (send_entropy_visit c db sb w s).send_buf.length = 65536 ∧
    (send_entropy_visit c db sb w s).client.entropy_requested ≤ c.entropy_requested := by
  rcases visit_summary c db sb w s with ⟨h1, h2, h3⟩ | ⟨hs, ws0, hfa, H⟩
  · unfold visit_marked
    rw [h1, h2, h3, List.append_nil]
    exact ⟨hinv, hsb, le_refl _⟩
  · obtain ⟨f1, f2, f3⟩ := framing_frame_action c M T hinv hs ws0 hfa
      (u32 (data_buf_read db (clamp_write_size ws0 hs (data_buf_available db))).2.2)
    obtain ⟨c1, c2, c3⟩ := clamp_write_size_le ws0 hs (data_buf_available db) f1 f2
      (by unfold data_buf_available; omega)
    obtain ⟨r1, r2⟩ := read_for_visit db _ hlen hsz hb hcap c2
    obtain ⟨hSB, r, hr, hrs, hrw, hro, hcase⟩ := H _ _ _ rfl rfl rfl
    rw [r2] at f3 hSB hro hcase
    generalize hPLdef :
      (data_buf_read db (clamp_write_size ws0 hs (data_buf_available db))).2.1 = PL
      at r1 hSB hro hcase
    generalize hWSdef : clamp_write_size ws0 hs (data_buf_available db) = WS
      at c1 c2 c3 r1 f3 hSB hro hcase
    generalize hhdrdef : (if hs ≠ 0 then
        (if c.header_bytes_pending = 0 then htonl_bytes WS
         else region (htonl_bytes c.entropy_pending) (HEADER_SIZE - hs) hs)
      else []) = hdr at f3
    have hSBeq : (if hs ≠ 0 then
          if c.header_bytes_pending = 0 then memcpy (memcpy sb hs PL) 0 (htonl_bytes WS)
          else memcpy (memcpy sb hs PL) 0
            (region (htonl_bytes c.entropy_pending) (HEADER_SIZE - hs) hs)
        else memcpy sb hs PL) =
        (if hs ≠ 0 then memcpy (memcpy sb hs PL) 0 hdr else memcpy sb hs PL) := by
      rw [← hhdrdef]
      split_ifs <;> rfl
    rw [hSBeq] at hSB hro hcase
    obtain ⟨o1, o2⟩ := send_buf_offered sb hdr PL hs WS hsb f3 r1 c3
    rw [o2] at hro hcase
    suffices hgoal : Framing (send_entropy_visit c db sb w s).client
        (M ++ visit_marked (send_entropy_visit c db sb w s)) T ∧
        (send_entropy_visit c db sb w s).client.entropy_requested ≤ c.entropy_requested from
      ⟨hgoal.1, by rw [hSB]; exact o1, hgoal.2⟩
    rcases hcase with ⟨h0, hcl, hacc⟩ | ⟨hneg, hcl, hacc⟩
    · have hsn : s = ((s.toNat : Nat) : Int) := by omega
      have hn : (1 ≤ s.toNat ∧ s.toNat ≤ hs + WS) ∨ (s.toNat = 0 ∧ hs + WS = 0) := by
        unfold visit_receivable at hrecv
        rw [hr] at hrecv
        unfold send_status_receivable at hrecv
        simp only at hrecv
        rw [hro] at hrecv
        have hd := of_decide_eq_true hrecv
        have hl : (hdr ++ PL).length = hs + WS := by
          rw [List.length_append, f3, r1]
        rcases hd with hd | hd | hd
        · omega
        · rw [hl] at hd; left; omega
        · right
          have hz : (hdr ++ PL).length = 0 := by rw [hd.2]; rfl
          omega
      have hmark : visit_marked (send_entropy_visit c db sb w s) =
          (hdr.take s.toNat).map (fun b => (true, b)) ++
            (PL.take (s.toNat - hs)).map (fun b => (false, b)) := by
        unfold visit_marked
        rw [hr]
        simp only
        rw [hacc, hrs, region_zero_eq_take]
        have := mark_enum_take hdr PL s.toNat
        rw [f3] at this
        exact this
      rw [hmark, hcl]
      have hk := account_keeps_framing c M T hinv hs ws0 WS s.toNat hdr PL hfa c1 c3 r1
        hhdrdef.symm hn
      rw [← hsn] at hk
      exact hk
    · have hmark : visit_marked (send_entropy_visit c db sb w s) = [] := by
        unfold visit_marked
        rw [hr]
        simp only
        rw [hacc]
        rfl
      rw [hmark, hcl, List.append_nil]
      exact ⟨hinv, le_refl _⟩

theorem ntohl_htonl (v : Nat) (h : v < 4294967296) : ntohl_bytes (htonl_bytes v) = v := by
  unfold ntohl_bytes htonl_bytes
  simp only [List.foldl]
  omega

theorem frame_marked_length (L : Nat) (pl : List Nat) :
    (frame_marked L pl).length = 4 + pl.length := by
  unfold frame_marked
  simp [htonl_bytes_length]

theorem frame_marked_bytes (L : Nat) (pl : List Nat) :
    (frame_marked L pl).map (fun p => p.2) = htonl_bytes L ++ pl := by
  unfold frame_marked
  simp [Function.comp_def]

/-- A frame at the head of a marked stream passes `well_framed` when the
rest does; a frame whose payload is not complete has nothing after it. -/
theorem well_framed_frame (fuel L : Nat) (pl : List Nat) (rest : List (Bool × Nat))
    (hL : L < 4294967296) (hpl : pl.length ≤ L) (hrest : pl.length < L → rest = [])
    (hw : well_framed fuel rest = true) :
    well_framed (fuel + 1) (frame_marked L pl ++ rest) = true := by
  have hlen : ((htonl_bytes L).map (fun b => (true, b))).length = 4 := by
    simp [htonl_bytes_length]
  have hstream : frame_marked L pl ++ rest =
      (htonl_bytes L).map (fun b => (true, b)) ++ (pl.map (fun b => (false, b)) ++ rest) := by
    unfold frame_marked
    rw [List.append_assoc]
  have htake : (frame_marked L pl ++ rest).take 4 = (htonl_bytes L).map (fun b => (true, b)) := by
    rw [hstream]
    exact List.take_left' hlen
  have hdrop : (frame_marked L pl ++ rest).drop 4 = pl.map (fun b => (false, b)) ++ rest := by
    rw [hstream]
    exact List.drop_left' hlen
  have hnt : ntohl_bytes (((htonl_bytes L).map (fun b => ((true, b) : Bool × Nat))).map
      (fun p => p.2)) = L := by
    rw [List.map_map]
    have : ((fun p : Bool × Nat => p.2) ∘ fun b => ((true, b) : Bool × Nat)) = id := rfl
    rw [this, List.map_id]
    exact ntohl_htonl L hL
  have hge : ¬ (frame_marked L pl ++ rest).length < 4 := by
    rw [List.length_append, frame_marked_length]; omega
  unfold well_framed
  rw [if_neg hge]
  simp only [htake, hdrop, hnt]
  have hall1 : ((htonl_bytes L).map (fun b => ((true, b) : Bool × Nat))).all (fun p => p.1) =
      true := by
    simp [List.all_eq_true]
  have hall2 : ((pl.map (fun b => ((false, b) : Bool × Nat)) ++ rest).take L).all
      (fun p => !p.1) = true := by
    rw [List.take_append_eq_append_take, List.all_append]
    have e1 : ((pl.map (fun b => ((false, b) : Bool × Nat))).take L).all (fun p => !p.1) =
        true := by
      rw [List.all_eq_true]
      intro x hx
      have hx2 := List.mem_of_mem_take hx
      obtain ⟨b, _, hb⟩ := List.mem_map.mp hx2
      rw [← hb]
      rfl
    have e2 : (rest.take (L - (pl.map (fun b => ((false, b) : Bool × Nat))).length)).all
        (fun p => !p.1) = true := by
      rw [List.length_map]
      by_cases hlt : pl.length < L
      · rw [hrest hlt]; simp
      · have : L - pl.length = 0 := by omega
        rw [this]; simp
    rw [e1, e2]
    rfl
  rw [hall1, hall2]
  simp only [Bool.and_self, Bool.true_and]
  split_ifs with hle
  · rfl
  · have hpl2 : pl.length = L := by
      by_contra hne
      have hlt : pl.length < L := by omega
      rw [hrest hlt] at hle
      simp at hle
      omega
    have hd2 : (frame_marked L pl ++ rest).drop (4 + L) = rest := by
      have : (frame_marked L pl).length = 4 + L := by rw [frame_marked_length, hpl2]
      exact List.drop_left' this
    rw [hd2]
    exact hw

theorem well_framed_header_part (fuel cur a : Nat) (ha : a ≤ 3) :
    well_framed fuel (((htonl_bytes cur).take a).map (fun b => ((true, b) : Bool × Nat))) =
      true := by
  cases fuel with
  | zero => rfl
  | succ fuel =>
    unfold well_framed
    have hlt : (((htonl_bytes cur).take a).map (fun b => ((true, b) : Bool × Nat))).length < 4 := by
      rw [List.length_map, List.length_take, htonl_bytes_length]; omega
    rw [if_pos hlt, List.all_eq_true]
    intro x hx
    obtain ⟨b, _, hb⟩ := List.mem_map.mp hx
    rw [← hb]

/-- Whole frames followed by the part sent of a frame in flight pass
`well_framed`, with any fuel. -/
theorem well_framed_frames (frames : List (Nat × List Nat)) (tail : List (Bool × Nat))
    (hfr : ∀ f ∈ frames, f.2.length = f.1 ∧ f.1 ≤ 65532)
    (htail : ∀ fuel, well_framed fuel tail = true) :
    ∀ fuel, well_framed fuel (frames.flatMap (fun f => frame_marked f.1 f.2) ++ tail) = true := by
  induction frames with
  | nil =>
    intro fuel
    simpa using htail fuel
  | cons f fs ih =>
    intro fuel
    cases fuel with
    | zero => rfl
    | succ fuel =>
      obtain ⟨h1, h2⟩ := hfr f (List.mem_cons_self _ _)
      rw [List.flatMap_cons, List.append_assoc]
      apply well_framed_frame fuel f.1 f.2 _ (by omega) (by omega)
      · intro hlt; omega
      · exact ih (fun g hg => hfr g (List.mem_cons_of_mem _ hg)) fuel

/-- A stream in the relation `Framing` passes `well_framed`. -/
theorem framing_well_framed (c : Client) (M : List (Bool × Nat)) (T : Nat)
    (hinv : Framing c M T) (fuel : Nat) : well_framed fuel M = true := by
  obtain ⟨frames, cur, tail, hM, hfr, hsum, hR, hcur, hstate⟩ := hinv
  rw [hM]
  apply well_framed_frames frames tail hfr
  intro fuel2
  rcases hstate with ⟨hH, hP, hc0, ht⟩ | ⟨hH1, hH3, hP, ht⟩ | ⟨hH, hP, payload, hpl, ht⟩
  · rw [ht]
    cases fuel2 <;> rfl
  · rw [ht]
    exact well_framed_header_part fuel2 cur _ (by omega)
  · rw [ht]
    cases fuel2 with
    | zero => rfl
    | succ fuel3 =>
      have := well_framed_frame fuel3 cur payload [] (by omega) (by omega) (fun _ => rfl)
        (by cases fuel3 <;> rfl)
      simpa using this

theorem frame_lengths_nil (fuel : Nat) : frame_lengths fuel [] = [] := by
  cases fuel with
  | zero => rfl
  | succ fuel =>
    unfold frame_lengths
    simp

theorem frame_lengths_short (fuel : Nat) (l : List Nat) (h : l.length < 4) :
    frame_lengths fuel l = [] := by
  cases fuel with
  | zero => rfl
  | succ fuel =>
    unfold frame_lengths
    rw [if_pos h]

theorem frame_lengths_frame (fuel L : Nat) (pl rest : List Nat) (hL : L < 4294967296)
    (hpl : pl.length ≤ L) (hrest : pl.length < L → rest = []) :
    frame_lengths (fuel + 1) (htonl_bytes L ++ (pl ++ rest)) =
      L :: frame_lengths fuel (if pl.length < L then [] else rest) := by
  have hge : ¬ (htonl_bytes L ++ (pl ++ rest)).length < 4 := by
    rw [List.length_append, htonl_bytes_length]; omega
  have htake : (htonl_bytes L ++ (pl ++ rest)).take 4 = htonl_bytes L :=
    List.take_left' (htonl_bytes_length L)
  have hd : (htonl_bytes L ++ (pl ++ rest)).drop (4 + L) =
      (if pl.length < L then [] else rest) := by
    rw [List.drop_append_eq_append_drop, htonl_bytes_length,
      List.drop_eq_nil_of_le (by rw [htonl_bytes_length]; omega)]
    have e : 4 + L - 4 = L := by omega
    rw [List.nil_append, e]
    by_cases hlt : pl.length < L
    · rw [if_pos hlt, hrest hlt, List.append_nil]
      exact List.drop_eq_nil_of_le (by omega)
    · rw [if_neg hlt]
      have hpl2 : pl.length = L := by omega
      exact List.drop_left' hpl2
  rw [frame_lengths, if_neg hge, htake, ntohl_htonl L hL, hd]

/-- The length fields a peer parses from whole frames followed by the part
sent of a frame of length `cur` sum to at most the lengths of these frames. -/
theorem frame_lengths_frames (frames : List (Nat × List Nat)) (cur : Nat) (tail : List Nat)
    (hfr : ∀ f ∈ frames, f.2.length = f.1 ∧ f.1 ≤ 65532)
    (htail : ∀ fuel, (frame_lengths fuel tail).sum ≤ cur) :
    ∀ fuel, (frame_lengths fuel
        (frames.flatMap (fun f => htonl_bytes f.1 ++ f.2) ++ tail)).sum ≤
      (frames.map (fun f => f.1)).sum + cur := by
  induction frames with
  | nil =>
    intro fuel
    simpa using htail fuel
  | cons f fs ih =>
    intro fuel
    cases fuel with
    | zero => simp [frame_lengths]
    | succ fuel =>
      obtain ⟨h1, h2⟩ := hfr f (List.mem_cons_self _ _)
      have hnlt : ¬ f.2.length < f.1 := by omega
      rw [List.flatMap_cons, List.append_assoc, List.append_assoc,
        frame_lengths_frame fuel f.1 f.2 _ (by omega) (by omega) (fun h => absurd h hnlt),
        if_neg hnlt]
      have := ih (fun g hg => hfr g (List.mem_cons_of_mem _ hg)) fuel
      simp only [List.sum_cons, List.map_cons]
      omega

/-- For a stream in the relation `Framing`, the length fields the peer has
parsed and the budget left sum to at most the requests. -/
theorem framing_budget (c : Client) (M : List (Bool × Nat)) (T : Nat)
    (hinv : Framing c M T) (fuel : Nat) :
    (frame_lengths fuel (M.map (fun p => p.2))).sum + c.entropy_requested ≤ T := by
  obtain ⟨frames, cur, tail, hM, hfr, hsum, hR, hcur, hstate⟩ := hinv
  have hraw : M.map (fun p => p.2) =
      frames.flatMap (fun f => htonl_bytes f.1 ++ f.2) ++ tail.map (fun p => p.2) := by
    rw [hM, List.map_append, List.map_flatMap]
    congr 1
    apply List.flatMap_congr
    intro f _
    exact frame_marked_bytes f.1 f.2
  have htail : ∀ fuel2, (frame_lengths fuel2 (tail.map (fun p => p.2))).sum ≤ cur := by
    intro fuel2
    rcases hstate with ⟨hH, hP, hc0, ht⟩ | ⟨hH1, hH3, hP, ht⟩ | ⟨hH, hP, payload, hpl, ht⟩
    · rw [ht]
      simp [frame_lengths_nil]
    · rw [ht, frame_lengths_short]
      · simp
      · rw [List.length_map, List.length_map, List.length_take, htonl_bytes_length]; omega
    · rw [ht, frame_marked_bytes]
      cases fuel2 with
      | zero => simp [frame_lengths]
      | succ fuel3 =>
        have := frame_lengths_frame fuel3 cur payload [] (by omega) (by omega) (fun _ => rfl)
        rw [List.append_nil] at this
        rw [this]
        simp [frame_lengths_nil]
  have := frame_lengths_frames frames cur _ hfr htail fuel
  rw [hraw]
  omega

/-- An accepted request that leaves `entropy_requested` below `2^32 - 4`
keeps the relation `Framing`, with the request added to the sum. -/
theorem request_keeps_framing (c c2 : Client) (r : Nat) (now : Int × Int)
    (M : List (Bool × Nat)) (T : Nat) (hreq : handle_request c r now = some c2)
    (hok : r + c.entropy_requested + 4 < 4294967296) (hinv : Framing c M T) :
    Framing c2 M (T + r) := by
  have hu : u32 (r + c.entropy_requested) = r + c.entropy_requested := by
    unfold u32; omega
  have hfields : c2.entropy_requested = r + c.entropy_requested ∧
      c2.header_bytes_pending = c.header_bytes_pending ∧
      c2.entropy_pending = c.entropy_pending := by
    unfold handle_request at hreq
    simp only [hu] at hreq
    split_ifs at hreq <;>
      (simp only [Option.some.injEq] at hreq; subst hreq; exact ⟨rfl, rfl, rfl⟩)
  obtain ⟨e1, e2, e3⟩ := hfields
  obtain ⟨frames, cur, tail, hM, hfr, hsum, hR, hcur, hstate⟩ := hinv
  refine ⟨frames, cur, tail, hM, hfr, by omega, by omega, hcur, ?_⟩
  rw [e2, e3]
  exact hstate

theorem framing_client_new (sock : Int) : Framing (client_new sock) [] 0 := by
  refine ⟨[], 0, [], rfl, ?_, ?_, ?_, ?_, Or.inl ⟨rfl, rfl, rfl, rfl⟩⟩
  · intro f h
    cases h
  · simp [client_new]
  · simp [client_new]
  · omega

/-- The relation `Framing` holds along every receivable run of events on a
client. -/
theorem peer_run_framing (events : List PeerEvent) :
    ∀ (p p2 : Peer) (T : Nat), Framing p.client p.stream T →
      (∀ env, PeerEvent.visit env ∈ events → visit_env_ok env) →
      peer_receivable p events = true → peer_run p events = some p2 →
      ∃ T2, Framing p2.client p2.stream T2 := by
  induction events with
  | nil =>
    intro p p2 T hinv _ _ hrun
    simp only [peer_run, Option.some.injEq] at hrun
    subst hrun
    exact ⟨T, hinv⟩
  | cons e es ih =>
    intro p p2 T hinv henv hrecv hrun
    have henv2 : ∀ env, PeerEvent.visit env ∈ es → visit_env_ok env :=
      fun env h => henv env (List.mem_cons_of_mem _ h)
    rw [peer_receivable, Bool.and_eq_true] at hrecv
    obtain ⟨hev, hrest⟩ := hrecv
    rw [peer_run] at hrun
    cases e with
    | request r =>
      have hok : r + p.client.entropy_requested + 4 < 4294967296 := of_decide_eq_true hev
      cases hreq : handle_request p.client r p.client.last_request with
      | none =>
        simp only [peer_step, hreq] at hrun
        cases hrun
      | some c2 =>
        have hstep : peer_step p (PeerEvent.request r) = some { p with client := c2 } := by
          simp only [peer_step, hreq]
        rw [hstep] at hrun hrest
        simp only at hrun hrest
        exact ih { p with client := c2 } p2 (T + r)
          (request_keeps_framing p.client c2 r p.client.last_request p.stream T hreq hok hinv)
          henv2 hrest hrun
    | visit env =>
      have hv : visit_receivable p.client env.data_buf env.send_buf env.writable
          env.send_status = true := hev
      obtain ⟨b1, b2, b3, b4, b5⟩ := henv env (List.mem_cons_self _ _)
      have hstep : peer_step p (PeerEvent.visit env) =
          some ⟨(send_entropy_visit p.client env.data_buf env.send_buf
              env.writable env.send_status).client,
            p.stream ++ visit_marked (send_entropy_visit p.client env.data_buf
              env.send_buf env.writable env.send_status)⟩ := rfl
      rw [hstep] at hrun hrest
      simp only at hrun hrest
      obtain ⟨k1, _, _⟩ := visit_keeps_framing p.client env.data_buf env.send_buf
        env.writable env.send_status b1 b2 b3 b4 b5 hv p.stream T hinv
      exact ih ⟨(send_entropy_visit p.client env.data_buf env.send_buf
              env.writable env.send_status).client,
            p.stream ++ visit_marked (send_entropy_visit p.client env.data_buf
              env.send_buf env.writable env.send_status)⟩ p2 T k1 henv2 hrest hrun

theorem marked_bytes (h : Nat) (l : List Nat) :
    (l.enum.map (fun p => (decide (p.1 < h), p.2))).map (fun p => p.2) = l := by
  rw [mark_enum, List.map_append, List.map_map, List.map_map]
  have e1 : ((fun p : Bool × Nat => p.2) ∘ fun b => ((true, b) : Bool × Nat)) = id := rfl
  have e2 : ((fun p : Bool × Nat => p.2) ∘ fun b => ((false, b) : Bool × Nat)) = id := rfl
  rw [e1, e2, List.map_id, List.map_id, List.take_append_drop]

/-- The pool after a visit is the pool before, or the pool after the read, or
the pool after the read and the push-back. -/
theorem visit_data_buf_cases (c : Client) (db : DataBuffer) (sb : List Nat) (w : Bool)
    (s : Int) :
    (send_entropy_visit c db sb w s).data_buf = db ∨
    (∃ n, (send_entropy_visit c db sb w s).data_buf = (data_buf_read db n).1) ∨
    ∃ n data, (send_entropy_visit c db sb w s).data_buf =
      (data_buf_unread (data_buf_read db n).1 data).1 := by
  unfold send_entropy_visit
  by_cases hskip : c.keepalive_pending = false ∧ data_buf_available db = 0
  · rw [if_pos hskip]
    exact Or.inl rfl
  · rw [if_neg hskip]
    cases frame_action c with
    | none => exact Or.inl rfl
    | some p =>
      obtain ⟨hs, ws0⟩ := p
      simp only
      by_cases hw : w = false
      · rw [if_pos hw]
        exact Or.inl rfl
      · rw [if_neg hw]
        by_cases h0 : s ≥ 0
        · rw [if_pos h0]
          split_ifs <;>
            first
            | exact Or.inr (Or.inl ⟨_, rfl⟩)
            | exact Or.inr (Or.inr ⟨_, _, rfl⟩)
        · rw [if_neg h0]
          split_ifs <;> exact Or.inr (Or.inr ⟨_, _, rfl⟩)

theorem visit_data_buf_bounds (c : Client) (db : DataBuffer) (sb : List Nat) (w : Bool)
    (s : Int) (hlen : db.buffer.length = db.capacity) (hs : db.size ≤ db.capacity)
    (hb : db.beg_index < db.capacity) (he : db.end_index < db.capacity) :
    (send_entropy_visit c db sb w s).data_buf.capacity = db.capacity ∧
    (send_entropy_visit c db sb w s).data_buf.buffer.length = db.capacity ∧
    (send_entropy_visit c db sb w s).data_buf.size ≤ db.capacity ∧
    (send_entropy_visit c db sb w s).data_buf.beg_index < db.capacity ∧
    (send_entropy_visit c db sb w s).data_buf.end_index < db.capacity := by
  rcases visit_data_buf_cases c db sb w s with h | ⟨n, h⟩ | ⟨n, data, h⟩
  · rw [h]
    exact ⟨rfl, hlen, hs, hb, he⟩
  · rw [h]
    have h1 := buf_run_bounds [BufOp.read n] db hlen hs hb he
    exact h1
  · rw [h]
    have h1 := buf_run_bounds [BufOp.read n, BufOp.unread data] db hlen hs hb he
    exact h1

/-- The invariant of a connection along every receivable run: the bytes
received are the bytes of a marked stream in the relation `Framing` with the
client record and the sum of the requests; the pool is within its bounds and
`send_buf` has `MAX_FRAME_SIZE` bytes. -/
theorem conn_run_framing (events : List Event) :
    ∀ (k k2 : Conn) (M : List (Bool × Nat)),
      k.received = M.map (fun p => p.2) → Framing k.client M k.requested →
      k.data_buf.buffer.length = k.data_buf.capacity →
      k.data_buf.size ≤ k.data_buf.capacity →
      k.data_buf.beg_index < k.data_buf.capacity →
      k.data_buf.end_index < k.data_buf.capacity →
      k.data_buf.capacity < 4294967296 → k.send_buf.length = 65536 →
      conn_receivable k events = true → conn_run k events = some k2 →
      (∃ M2, k2.received = M2.map (fun p => p.2) ∧ Framing k2.client M2 k2.requested) ∧
      k2.data_buf.buffer.length = k2.data_buf.capacity ∧
      k2.data_buf.size ≤ k2.data_buf.capacity ∧
      k2.data_buf.beg_index < k2.data_buf.capacity ∧
      k2.data_buf.capacity < 4294967296 ∧ k2.send_buf.length = 65536 := by
  induction events with
  | nil =>
    intro k k2 M hM hinv h1 h2 h3 _ h5 h6 _ hrun
    simp only [conn_run, Option.some.injEq] at hrun
    subst hrun
    exact ⟨⟨M, hM, hinv⟩, h1, h2, h3, h5, h6⟩
  | cons e es ih =>
    intro k k2 M hM hinv h1 h2 h3 h4 h5 h6 hrecv hrun
    rw [conn_receivable, Bool.and_eq_true] at hrecv
    obtain ⟨hev, hrest⟩ := hrecv
    rw [conn_run] at hrun
    cases e with
    | request r =>
      have hok : r + k.client.entropy_requested + 4 < 4294967296 := of_decide_eq_true hev
      cases hreq : handle_request k.client r k.client.last_request with
      | none =>
        simp only [conn_step, hreq] at hrun
        cases hrun
      | some c2 =>
        have hstep : conn_step k (Event.request r) =
            some { k with client := c2, requested := k.requested + r } := by
          simp only [conn_step, hreq]
        rw [hstep] at hrun hrest
        simp only at hrun hrest
        exact ih { k with client := c2, requested := k.requested + r } k2 M hM
          (request_keeps_framing k.client c2 r k.client.last_request M k.requested hreq hok
            hinv) h1 h2 h3 h4 h5 h6 hrest hrun
    | ingest data =>
      have hstep : conn_step k (Event.ingest data) =
          some { k with data_buf := (data_buf_write k.data_buf data).1 } := rfl
      rw [hstep] at hrun hrest
      simp only at hrun hrest
      obtain ⟨w1, w2, w3, w4, w5⟩ := buf_run_bounds [BufOp.write data] k.data_buf h1 h2 h3 h4
      have w1b : (data_buf_write k.data_buf data).1.capacity = k.data_buf.capacity := w1
      have w2b : (data_buf_write k.data_buf data).1.buffer.length = k.data_buf.capacity := w2
      have w3b : (data_buf_write k.data_buf data).1.size ≤ k.data_buf.capacity := w3
      have w4b : (data_buf_write k.data_buf data).1.beg_index < k.data_buf.capacity := w4
      have w5b : (data_buf_write k.data_buf data).1.end_index < k.data_buf.capacity := w5
      exact ih { k with data_buf := (data_buf_write k.data_buf data).1 } k2 M hM hinv
        (by show _ = (data_buf_write k.data_buf data).1.capacity; rw [w1b]; exact w2b)
        (by show _ ≤ (data_buf_write k.data_buf data).1.capacity; rw [w1b]; exact w3b)
        (by show _ < (data_buf_write k.data_buf data).1.capacity; rw [w1b]; exact w4b)
        (by show _ < (data_buf_write k.data_buf data).1.capacity; rw [w1b]; exact w5b)
        (by show (data_buf_write k.data_buf data).1.capacity < _; rw [w1b]; exact h5) h6
        hrest hrun
    | visit w s =>
      have hv : visit_receivable k.client k.data_buf k.send_buf w s = true := hev
      have hacc : (match (send_entropy_visit k.client k.data_buf k.send_buf w s).sent with
            | none => []
            | some r => r.accepted) =
          (visit_marked (send_entropy_visit k.client k.data_buf k.send_buf w s)).map
            (fun p => p.2) := by
        unfold visit_marked
        cases (send_entropy_visit k.client k.data_buf k.send_buf w s).sent with
        | none => rfl
        | some r => exact (marked_bytes r.header_size r.accepted).symm
      have hstep : conn_step k (Event.visit w s) =
          some ⟨(send_entropy_visit k.client k.data_buf k.send_buf w s).client,
            (send_entropy_visit k.client k.data_buf k.send_buf w s).data_buf,
            (send_entropy_visit k.client k.data_buf k.send_buf w s).send_buf,
            k.received ++
              (visit_marked (send_entropy_visit k.client k.data_buf k.send_buf w s)).map
                (fun p => p.2), k.requested⟩ := by
        rw [← hacc]
        rfl
      rw [hstep] at hrun hrest
      simp only at hrun hrest
      obtain ⟨k1, k2b, _⟩ := visit_keeps_framing k.client k.data_buf k.send_buf w s h1 h2 h3
        h5 h6 hv M k.requested hinv
      obtain ⟨d1, d2, d3, d4, d5⟩ := visit_data_buf_bounds k.client k.data_buf k.send_buf w s
        h1 h2 h3 h4
      exact ih ⟨(send_entropy_visit k.client k.data_buf k.send_buf w s).client,
            (send_entropy_visit k.client k.data_buf k.send_buf w s).data_buf,
            (send_entropy_visit k.client k.data_buf k.send_buf w s).send_buf,
            k.received ++
              (visit_marked (send_entropy_visit k.client k.data_buf k.send_buf w s)).map
                (fun p => p.2), k.requested⟩ k2
        (M ++ visit_marked (send_entropy_visit k.client k.data_buf k.send_buf w s))
        (by show k.received ++ _ = _; rw [List.map_append, ← hM]) k1
        (by show _ = (send_entropy_visit k.client k.data_buf k.send_buf w s).data_buf.capacity
            rw [d1]; exact d2)
        (by show _ ≤ (send_entropy_visit k.client k.data_buf k.send_buf w s).data_buf.capacity
            rw [d1]; exact d3)
        (by show _ < (send_entropy_visit k.client k.data_buf k.send_buf w s).data_buf.capacity
            rw [d1]; exact d4)
        (by show _ < (send_entropy_visit k.client k.data_buf k.send_buf w s).data_buf.capacity
            rw [d1]; exact d5)
        (by show (send_entropy_visit k.client k.data_buf k.send_buf w s).data_buf.capacity < _
            rw [d1]; exact h5) k2b hrest hrun

/-- While a header is being sent, the last bytes of the stream are the
leading bytes of `htonl(entropy_pending)`. -/
theorem framing_header_in_flight (c : Client) (M : List (Bool × Nat)) (T : Nat)
    (hinv : Framing c M T) :
    c.header_bytes_pending ≤ 3 ∧
    (c.header_bytes_pending ≠ 0 →
      M.drop (M.length - (4 - c.header_bytes_pending)) =
        ((htonl_bytes c.entropy_pending).take (4 - c.header_bytes_pending)).map
          (fun b => (true, b))) := by
  obtain ⟨frames, cur, tail, hM, hfr, hsum, hR, hcur, hstate⟩ := hinv
  rcases hstate with ⟨hH, hP, hc0, ht⟩ | ⟨hH1, hH3, hP, ht⟩ | ⟨hH, hP, payload, hpl, ht⟩
  · exact ⟨by omega, fun h => absurd hH h⟩
  · refine ⟨hH3, fun _ => ?_⟩
    have htl : tail.length = 4 - c.header_bytes_pending := by
      rw [ht, List.length_map, List.length_take, htonl_bytes_length]; omega
    rw [hP, ← ht, hM]
    apply List.drop_left'
    rw [List.length_append, htl]
    omega
  · exact ⟨by omega, fun h => absurd hH h⟩

end NetworkRng
